import Mathlib

/-!
Verification of the core succinct data structures of the sux-rs fork:
bit vectors with counting (src/bitmap.rs), the Rank9 index
(src/rank_sel/rank9.rs), the SimpleSelectConst index
(src/rank_sel/simple_select_const.rs), the Elias-Fano encoding
(src/dict/elias_fano.rs) and the rear-coded string list
(src/dict/rear_coded_list.rs).

Machine words (`usize`/`u64`, both 64 bits on the supported targets) are
modelled as `Nat` with explicit `% 2^64` truncation where the code can
overflow; word arrays are `List Nat`.  Loops are modelled by structural
recursion on an explicit fuel argument that dominates the source loop
bound, so that every definition is executable by kernel reduction;
out-of-bounds reads (undefined behaviour in the source) are modelled by
returning a junk value, and every correctness theorem shows the junk
branch is not taken under the stated preconditions.
-/

namespace Sux

/-! ## Words and bits -/

/-- Number of set bits among the first `r` binary digits of `w`. -/
def bitsBelow (w r : Nat) : Nat :=
  ∑ j ∈ Finset.range r, if w.testBit j then 1 else 0

/-- Fuelled popcount; `popcountFuel f w` counts the set bits of `w` for `w < 2^f`. -/
def popcountFuel : Nat → Nat → Nat
  | 0, _ => 0
  | f + 1, w => if w = 0 then 0 else w % 2 + popcountFuel f (w / 2)

/-- Population count of a 64-bit word, mirroring `u64::count_ones` /
`usize::count_ones` (exact for `w < 2^64`). -/
def popcount (w : Nat) : Nat := popcountFuel 64 w

theorem popcountFuel_zero (f : Nat) : popcountFuel f 0 = 0 := by
  cases f <;> simp [popcountFuel]

theorem popcountFuel_eq_bitsBelow (f : Nat) :
    ∀ w, w < 2 ^ f → popcountFuel f w = bitsBelow w f := by
  induction f with
  | zero =>
    intro w hw
    interval_cases w
    simp [popcountFuel, bitsBelow]
  | succ f ih =>
    intro w hw
    rcases Nat.eq_zero_or_pos w with h0 | hpos
    · subst h0
      rw [popcountFuel, bitsBelow]
      simp
    · have hdiv : w / 2 < 2 ^ f := by
        have : w < 2 ^ f * 2 := by
          simpa [Nat.pow_succ] using hw
        omega
      have hrec := ih (w / 2) hdiv
      have hsum : bitsBelow w (f + 1)
          = (∑ j ∈ Finset.range f, if w.testBit (j + 1) then 1 else 0)
            + (if w.testBit 0 then 1 else 0) :=
        Finset.sum_range_succ' (fun j => if w.testBit j then 1 else 0) f
      have hshift : ∀ j, w.testBit (j + 1) = (w / 2).testBit j := by
        intro j
        simpa using (Nat.testBit_add_one w j)
      have hbit0 : (if w.testBit 0 then 1 else 0) = w % 2 := by
        rcases Nat.mod_two_eq_zero_or_one w with h | h <;>
          simp [Nat.testBit_zero, h]
      calc popcountFuel (f + 1) w
          = w % 2 + popcountFuel f (w / 2) := by
            rw [popcountFuel, if_neg (by omega)]
      _ = w % 2 + bitsBelow (w / 2) f := by rw [hrec]
      _ = bitsBelow w (f + 1) := by
            rw [hsum, hbit0]
            rw [Nat.add_comm]
            congr 1
            refine Finset.sum_congr rfl ?_
            intro j _
            rw [hshift j]

theorem popcount_eq_bitsBelow {w : Nat} (hw : w < 2 ^ 64) :
    popcount w = bitsBelow w 64 :=
  popcountFuel_eq_bitsBelow 64 w hw

theorem bitsBelow_le (w r : Nat) : bitsBelow w r ≤ r := by
  classical
  calc bitsBelow w r ≤ ∑ _j ∈ Finset.range r, 1 := by
        refine Finset.sum_le_sum ?_
        intro j _
        split <;> omega
  _ = r := by simp

theorem bitsBelow_mono (w : Nat) {r s : Nat} (h : r ≤ s) :
    bitsBelow w r ≤ bitsBelow w s := by
  classical
  refine Finset.sum_le_sum_of_subset ?_
  exact Finset.range_subset.mpr h

theorem bitsBelow_succ (w r : Nat) :
    bitsBelow w (r + 1) = bitsBelow w r + if w.testBit r then 1 else 0 :=
  Finset.sum_range_succ (fun j => if w.testBit j then 1 else 0) r

theorem bitsBelow_zero (w : Nat) : bitsBelow w 0 = 0 := by simp [bitsBelow]

theorem bitsBelow_of_zero (r : Nat) : bitsBelow 0 r = 0 := by
  simp [bitsBelow]

/-- Strict monotonicity at a set bit: positions below `p+1` include bit `p`. -/
theorem bitsBelow_lt_of_testBit {w p r : Nat} (hbit : w.testBit p) (hpr : p < r) :
    bitsBelow w p < bitsBelow w r := by
  have h1 : bitsBelow w p + 1 ≤ bitsBelow w (p + 1) := by
    rw [bitsBelow_succ, hbit]
    simp
  have h2 : bitsBelow w (p + 1) ≤ bitsBelow w r := bitsBelow_mono w hpr
  omega

/-! ## Bit vectors as word arrays -/

/-- Word `k` of a word array (reads past the end give 0; in-range reads mirror
`data[k]` / `get_unchecked(k)` in the source). -/
def wordOf (data : List Nat) (k : Nat) : Nat := data.getD k 0

/-- Logical bit `i` of a word array, as in `VSlice::get_unchecked` for a
bitmap with `bit_width = 64` (src/bitmap.rs lines 97-103). -/
def bitGet (data : List Nat) (i : Nat) : Bool := (wordOf data (i / 64)).testBit (i % 64)

/-- Specification of rank: the number of set bits among positions `[0, p)`. -/
def countBelow (data : List Nat) (p : Nat) : Nat :=
  ∑ i ∈ Finset.range p, if bitGet data i then 1 else 0

/-- Specification of select: `p` is the position of the `(k+1)`-th set bit
(0-based rank `k`): the bit at `p` is set and exactly `k` set bits precede it. -/
def IsSelect (data : List Nat) (k p : Nat) : Prop :=
  bitGet data p = true ∧ countBelow data p = k

/-- All words below 2^64: the well-formedness every `usize`/`u64` array has. -/
def WordsWF (data : List Nat) : Prop := ∀ w ∈ data, w < 2 ^ 64

instance instDecidableWordsWF (data : List Nat) : Decidable (WordsWF data) :=
  inferInstanceAs (Decidable (∀ w ∈ data, w < 2 ^ 64))

theorem wordOf_lt {data : List Nat} (h : WordsWF data) (k : Nat) :
    wordOf data k < 2 ^ 64 := by
  by_cases hk : k < data.length
  · have hmem : data.getD k 0 ∈ data := by
      rw [List.getD_eq_getElem data 0 hk]
      exact List.getElem_mem hk
    exact h _ hmem
  · rw [wordOf, List.getD_eq_default _ _ (by omega)]
    positivity

theorem countBelow_succ (data : List Nat) (p : Nat) :
    countBelow data (p + 1) = countBelow data p + if bitGet data p then 1 else 0 :=
  Finset.sum_range_succ (fun i => if bitGet data i then 1 else 0) p

theorem countBelow_mono (data : List Nat) {p q : Nat} (h : p ≤ q) :
    countBelow data p ≤ countBelow data q :=
  Finset.sum_le_sum_of_subset (Finset.range_subset.mpr h)

theorem countBelow_lt_of_bit {data : List Nat} {p q : Nat}
    (hbit : bitGet data p = true) (hpq : p < q) :
    countBelow data p < countBelow data q := by
  have h1 : countBelow data p + 1 ≤ countBelow data (p + 1) := by
    rw [countBelow_succ, hbit]
    simp
  have h2 : countBelow data (p + 1) ≤ countBelow data q := countBelow_mono data hpq
  omega

/-- Counting bits position-by-position within one word matches `bitsBelow` of
that word: positions `64*k + j` for `j < r` read bits `j` of word `k`. -/
theorem countBelow_split (data : List Nat) (k : Nat) {r : Nat} (hr : r ≤ 64) :
    countBelow data (64 * k + r) = countBelow data (64 * k) + bitsBelow (wordOf data k) r := by
  induction r with
  | zero => simp [bitsBelow_zero]
  | succ r ih =>
    have hr' : r ≤ 64 := by omega
    have hbit : bitGet data (64 * k + r) = (wordOf data k).testBit r := by
      have hdiv : (64 * k + r) / 64 = k := by omega
      have hmod : (64 * k + r) % 64 = r := by omega
      rw [bitGet, hdiv, hmod]
    rw [show 64 * k + (r + 1) = (64 * k + r) + 1 by omega, countBelow_succ,
      ih hr', bitsBelow_succ, hbit]
    omega

/-- The bits below a whole-word boundary are the popcounts of the earlier words. -/
theorem countBelow_words (data : List Nat) (h : WordsWF data) (k : Nat) :
    countBelow data (64 * k) = ∑ t ∈ Finset.range k, popcount (wordOf data t) := by
  induction k with
  | zero => simp [countBelow]
  | succ k ih =>
    have := countBelow_split data k (le_refl 64)
    rw [show 64 * (k + 1) = 64 * k + 64 by omega, this, ih,
      Finset.sum_range_succ, popcount_eq_bitsBelow (wordOf_lt h k)]

/-- Bits at or above `64 * data.length` are never set. -/
theorem bitGet_ge_length {data : List Nat} {i : Nat}
    (h : 64 * data.length ≤ i) : bitGet data i = false := by
  have : data.length ≤ i / 64 := by omega
  rw [bitGet, wordOf, List.getD_eq_default _ _ this]
  simp

/-- Total number of ones of the array. -/
def totalOnes (data : List Nat) : Nat := countBelow data (64 * data.length)

theorem countBelow_eq_total {data : List Nat} {p : Nat}
    (h : 64 * data.length ≤ p) : countBelow data p = totalOnes data := by
  rw [totalOnes]
  rcases Nat.le_total p (64 * data.length) with hle | hle
  · have : p = 64 * data.length := by omega
    rw [this]
  · rw [countBelow, ← Finset.sum_range_add_sum_Ico _ hle, ← countBelow]
    have : ∑ i ∈ Finset.Ico (64 * data.length) p, (if bitGet data i then 1 else 0) = 0 := by
      refine Finset.sum_eq_zero ?_
      intro i hi
      rw [bitGet_ge_length (Finset.mem_Ico.mp hi).1]
      simp
    omega

/-! ## select_in_word

Modelled from the spec: `select_in_word` comes from the external
`common_traits` crate (not under src/); per the glossary it extracts the
position of the `(k+1)`-th set bit within a single machine word.  We model it
by scanning the word from the least significant bit; the fuel (64) covers
every 64-bit word, and exhaustion (or `k` at least the popcount, undefined
in the source) yields the junk value 64. -/

def selectInWordFuel : Nat → Nat → Nat → Nat
  | 0, _, _ => 64
  | f + 1, w, k =>
    if w = 0 then 64
    else if w % 2 = 1 then
      (if k = 0 then 0 else 1 + selectInWordFuel f (w / 2) (k - 1))
    else 1 + selectInWordFuel f (w / 2) k

def selectInWord (w k : Nat) : Nat := selectInWordFuel 64 w k

theorem selectInWordFuel_spec (f : Nat) :
    ∀ w k, w < 2 ^ f → k < popcountFuel f w →
      (w.testBit (selectInWordFuel f w k) = true
        ∧ bitsBelow w (selectInWordFuel f w k) = k
        ∧ selectInWordFuel f w k < f) := by
  induction f with
  | zero =>
    intro w k hw hk
    simp [popcountFuel] at hk
  | succ f ih =>
    intro w k hw hk
    have hw0 : w ≠ 0 := by
      intro h
      rw [h, popcountFuel_zero] at hk
      omega
    have hdiv : w / 2 < 2 ^ f := by
      have : w < 2 ^ f * 2 := by simpa [Nat.pow_succ] using hw
      omega
    have hpc : popcountFuel (f + 1) w = w % 2 + popcountFuel f (w / 2) := by
      rw [popcountFuel, if_neg hw0]
    rcases Nat.mod_two_eq_zero_or_one w with hpar | hpar
    · -- even word: first bit clear, recurse on w / 2 with the same k
      have hkrec : k < popcountFuel f (w / 2) := by omega
      obtain ⟨hb, hc, hlt⟩ := ih (w / 2) k hdiv hkrec
      have hsel : selectInWordFuel (f + 1) w k = 1 + selectInWordFuel f (w / 2) k := by
        rw [selectInWordFuel, if_neg hw0, if_neg (by omega)]
      refine ⟨?_, ?_, by omega⟩
      · rw [hsel, show 1 + selectInWordFuel f (w / 2) k = selectInWordFuel f (w / 2) k + 1 by omega,
          Nat.testBit_add_one]
        exact hb
      · rw [hsel, show 1 + selectInWordFuel f (w / 2) k = selectInWordFuel f (w / 2) k + 1 by omega]
        have hexp : bitsBelow w (selectInWordFuel f (w / 2) k + 1)
            = (∑ j ∈ Finset.range (selectInWordFuel f (w / 2) k),
                if w.testBit (j + 1) then 1 else 0)
              + (if w.testBit 0 then 1 else 0) :=
          Finset.sum_range_succ' (fun j => if w.testBit j then 1 else 0) _
        rw [hexp]
        have hb0 : (if w.testBit 0 then (1 : Nat) else 0) = 0 := by
          simp [Nat.testBit_zero, hpar]
        rw [hb0]
        have : (∑ j ∈ Finset.range (selectInWordFuel f (w / 2) k),
            if w.testBit (j + 1) then 1 else 0) = bitsBelow (w / 2) (selectInWordFuel f (w / 2) k) := by
          refine Finset.sum_congr rfl ?_
          intro j _
          rw [Nat.testBit_add_one]
        rw [this, hc]
        omega
    · -- odd word: bit 0 is set
      rcases Nat.eq_zero_or_pos k with hk0 | hkpos
      · subst hk0
        have hsel : selectInWordFuel (f + 1) w 0 = 0 := by
          simp [selectInWordFuel, hw0, hpar]
        refine ⟨?_, ?_, by omega⟩
        · rw [hsel]
          simp [Nat.testBit_zero, hpar]
        · rw [hsel, bitsBelow_zero]
      · have hkrec : k - 1 < popcountFuel f (w / 2) := by omega
        obtain ⟨hb, hc, hlt⟩ := ih (w / 2) (k - 1) hdiv hkrec
        have hsel : selectInWordFuel (f + 1) w k
            = 1 + selectInWordFuel f (w / 2) (k - 1) := by
          rw [selectInWordFuel, if_neg hw0, if_pos hpar, if_neg (by omega)]
        refine ⟨?_, ?_, by omega⟩
        · rw [hsel, show 1 + selectInWordFuel f (w / 2) (k - 1)
              = selectInWordFuel f (w / 2) (k - 1) + 1 by omega, Nat.testBit_add_one]
          exact hb
        · rw [hsel, show 1 + selectInWordFuel f (w / 2) (k - 1)
              = selectInWordFuel f (w / 2) (k - 1) + 1 by omega]
          have hexp : bitsBelow w (selectInWordFuel f (w / 2) (k - 1) + 1)
              = (∑ j ∈ Finset.range (selectInWordFuel f (w / 2) (k - 1)),
                  if w.testBit (j + 1) then 1 else 0)
                + (if w.testBit 0 then 1 else 0) :=
            Finset.sum_range_succ' (fun j => if w.testBit j then 1 else 0) _
          rw [hexp]
          have hb1 : (if w.testBit 0 then (1 : Nat) else 0) = 1 := by
            simp [Nat.testBit_zero, hpar]
          rw [hb1]
          have : (∑ j ∈ Finset.range (selectInWordFuel f (w / 2) (k - 1)),
              if w.testBit (j + 1) then 1 else 0)
              = bitsBelow (w / 2) (selectInWordFuel f (w / 2) (k - 1)) := by
            refine Finset.sum_congr rfl ?_
            intro j _
            rw [Nat.testBit_add_one]
          rw [this, hc]
          omega

/-- For `k` below the popcount of a 64-bit word, `select_in_word` returns the
position of the `(k+1)`-th set bit of the word. -/
theorem selectInWord_spec {w k : Nat} (hw : w < 2 ^ 64) (hk : k < popcount w) :
    w.testBit (selectInWord w k) = true
      ∧ bitsBelow w (selectInWord w k) = k
      ∧ selectInWord w k < 64 :=
  selectInWordFuel_spec 64 w k hw hk

/-! ## Hinted select by linear word scan (src/bitmap.rs, SelectHinted impl) -/

/-- Bits of `w` from position `b` upward, low bits cleared: `(w >> b) << b`,
as computed by `select_unchecked_hinted` for its first word. -/
def maskFrom (w b : Nat) : Nat := (w >>> b) <<< b

theorem maskFrom_testBit (w b j : Nat) :
    (maskFrom w b).testBit j = (decide (b ≤ j) && w.testBit j) := by
  rw [maskFrom, Nat.testBit_shiftLeft]
  by_cases h : b ≤ j
  · have h2 : b + (j - b) = j := by omega
    rw [Nat.testBit_shiftRight, h2, decide_eq_true (show j ≥ b from h)]
  · rw [decide_eq_false (show ¬j ≥ b from h)]
    simp

theorem maskFrom_zero (w : Nat) : maskFrom w 0 = w := by
  simp [maskFrom]

theorem maskFrom_lt {w : Nat} (hw : w < 2 ^ 64) (b : Nat) : maskFrom w b < 2 ^ 64 := by
  refine Nat.lt_pow_two_of_testBit _ ?_
  intro j hj
  rw [maskFrom_testBit]
  have : w < 2 ^ j := lt_of_lt_of_le hw (Nat.pow_le_pow_right (by omega) hj)
  simp [Nat.testBit_lt_two_pow this]

/-- Below the cut, the masked word has no set bits; above it, it agrees with `w`. -/
theorem bitsBelow_maskFrom_add (w : Nat) {b r : Nat} (hbr : b ≤ r) :
    bitsBelow w b + bitsBelow (maskFrom w b) r = bitsBelow w r := by
  induction r with
  | zero =>
    have hb : b = 0 := by omega
    subst hb
    simp [bitsBelow_zero]
  | succ r ih =>
    rcases Nat.lt_or_ge b (r + 1) with hlt | hge
    · have hbr' : b ≤ r := by omega
      rw [bitsBelow_succ, bitsBelow_succ, ← ih hbr', maskFrom_testBit,
        decide_eq_true hbr']
      simp only [Bool.true_and]
      omega
    · have hb : b = r + 1 := by omega
      subst hb
      have hmask : bitsBelow (maskFrom w (r + 1)) (r + 1) = 0 := by
        refine Finset.sum_eq_zero ?_
        intro j hj
        rw [maskFrom_testBit, decide_eq_false (by
          have := Finset.mem_range.mp hj
          omega)]
        simp
      rw [hmask]
      omega

/-- Loop of `select_unchecked_hinted` (src/bitmap.rs lines 136-153), fuelled by
the number of words left to scan.  Fuel exhaustion corresponds to the source
reading past the end of the word array (undefined behaviour) and returns a
junk value; the correctness theorem shows it is never reached. -/
def selectHintedGo : Nat → List Nat → Nat → Nat → Nat → Nat
  | 0, data, _, _, residual => 64 * data.length + residual
  | f + 1, data, wordIndex, word, residual =>
    if residual < popcount word then wordIndex * 64 + selectInWord word residual
    else selectHintedGo f data (wordIndex + 1) (wordOf data (wordIndex + 1))
      (residual - popcount word)

/-- Model of `SelectHinted::select_unchecked_hinted` for `CountingBitmap`
(src/bitmap.rs lines 135-153). -/
def selectUncheckedHinted (data : List Nat) (rank pos rank_at_pos : Nat) : Nat :=
  let wordIndex := pos / 64
  let bitIndex := pos % 64
  let residual := rank - rank_at_pos
  let word := maskFrom (wordOf data wordIndex) bitIndex
  selectHintedGo (data.length - wordIndex) data wordIndex word residual

/-- Model of `Select::select_unchecked` for `CountingBitmap`
(src/bitmap.rs lines 128-133): a hinted select from the origin. -/
def selectUnchecked (data : List Nat) (rank : Nat) : Nat :=
  selectUncheckedHinted data rank 0 0

theorem selectHintedGo_correct :
    ∀ f data wordIndex b residual K,
      WordsWF data →
      b ≤ 64 →
      data.length - wordIndex ≤ f →
      residual + countBelow data (64 * wordIndex + b) = K →
      K < totalOnes data →
      IsSelect data K
        (selectHintedGo f data wordIndex (maskFrom (wordOf data wordIndex) b) residual) := by
  intro f
  induction f with
  | zero =>
    intro data wordIndex b residual K hwf hb hfuel hcount hK
    -- fuel 0 means the scan starts past the end of the data; impossible:
    -- all ones lie below 64 * data.length
    exfalso
    have hge : 64 * data.length ≤ 64 * wordIndex + b := by omega
    have := countBelow_eq_total hge
    omega
  | succ f ih =>
    intro data wordIndex b residual K hwf hb hfuel hcount hK
    have hw0 : wordOf data wordIndex < 2 ^ 64 := wordOf_lt hwf wordIndex
    set w0 := wordOf data wordIndex with hw0def
    have hmlt : maskFrom w0 b < 2 ^ 64 := maskFrom_lt hw0 b
    have hpc : popcount (maskFrom w0 b) = bitsBelow (maskFrom w0 b) 64 :=
      popcount_eq_bitsBelow hmlt
    have hsplitb : countBelow data (64 * wordIndex + b)
        = countBelow data (64 * wordIndex) + bitsBelow w0 b :=
      countBelow_split data wordIndex hb
    rw [selectHintedGo]
    by_cases hres : residual < popcount (maskFrom w0 b)
    · rw [if_pos hres]
      obtain ⟨hbit, hcnt, hlt⟩ := selectInWord_spec hmlt hres
      set s := selectInWord (maskFrom w0 b) residual with hsdef
      have hbs : b ≤ s ∧ w0.testBit s = true := by
        have h := hbit
        rw [maskFrom_testBit] at h
        by_cases hcs : b ≤ s
        · rw [decide_eq_true hcs] at h
          simp at h
          exact ⟨hcs, h⟩
        · rw [decide_eq_false hcs] at h
          simp at h
      have hsum : bitsBelow w0 b + bitsBelow (maskFrom w0 b) s = bitsBelow w0 s :=
        bitsBelow_maskFrom_add w0 hbs.1
      constructor
      · have hdiv : (wordIndex * 64 + s) / 64 = wordIndex := by omega
        have hmod : (wordIndex * 64 + s) % 64 = s := by omega
        rw [bitGet, hdiv, hmod, ← hw0def]
        exact hbs.2
      · have : wordIndex * 64 + s = 64 * wordIndex + s := by omega
        rw [this, countBelow_split data wordIndex (by omega : s ≤ 64), ← hw0def]
        omega
    · rw [if_neg hres]
      have hsplit64 : countBelow data (64 * wordIndex + 64)
          = countBelow data (64 * wordIndex) + bitsBelow w0 64 :=
        countBelow_split data wordIndex (le_refl 64)
      have hfull : bitsBelow w0 b + bitsBelow (maskFrom w0 b) 64 = bitsBelow w0 64 :=
        bitsBelow_maskFrom_add w0 hb
      have hcount' : (residual - popcount (maskFrom w0 b))
          + countBelow data (64 * (wordIndex + 1) + 0) = K := by
        have h1 : countBelow data (64 * (wordIndex + 1) + 0)
            = countBelow data (64 * wordIndex + b) + popcount (maskFrom w0 b) := by
          rw [show 64 * (wordIndex + 1) + 0 = 64 * wordIndex + 64 by omega, hsplit64, hsplitb]
          omega
        omega
      have hidx : wordIndex + 1 ≤ data.length := by
        by_contra hc
        have hge : 64 * data.length ≤ 64 * (wordIndex + 1) + 0 := by omega
        have := countBelow_eq_total hge
        omega
      have hfuel' : data.length - (wordIndex + 1) ≤ f := by omega
      have := ih data (wordIndex + 1) 0 (residual - popcount (maskFrom w0 b)) K
        hwf (by omega) hfuel' hcount' hK
      rw [maskFrom_zero] at this
      exact this

/-- Correctness of the hinted select of src/bitmap.rs: if `rank_at_pos` is the
rank at `pos` (at most `rank`) and the target one exists, the scan returns the
position of the `(rank+1)`-th set bit. -/
theorem selectUncheckedHinted_correct {data : List Nat} {rank pos rank_at_pos : Nat}
    (hwf : WordsWF data)
    (hle : rank_at_pos ≤ rank)
    (hrankpos : countBelow data pos = rank_at_pos)
    (hrank : rank < totalOnes data) :
    IsSelect data rank (selectUncheckedHinted data rank pos rank_at_pos) := by
  have hposeq : 64 * (pos / 64) + pos % 64 = pos := by omega
  have hcount : (rank - rank_at_pos) + countBelow data (64 * (pos / 64) + pos % 64) = rank := by
    rw [hposeq, hrankpos]
    omega
  exact selectHintedGo_correct (data.length - pos / 64) data (pos / 64) (pos % 64)
    (rank - rank_at_pos) rank hwf (by omega) (le_refl _) hcount hrank

/-- Correctness of `select_unchecked` (hinted select from the origin). -/
theorem selectUnchecked_correct {data : List Nat} {rank : Nat}
    (hwf : WordsWF data) (hrank : rank < totalOnes data) :
    IsSelect data rank (selectUnchecked data rank) :=
  selectUncheckedHinted_correct hwf (Nat.zero_le _) (by simp [countBelow]) hrank

/-- A select position is unique: two positions with the same rank coincide. -/
theorem isSelect_unique {data : List Nat} {k p q : Nat}
    (hp : IsSelect data k p) (hq : IsSelect data k q) : p = q := by
  by_contra hne
  rcases Nat.lt_or_ge p q with hlt | hge
  · have := countBelow_lt_of_bit hp.1 hlt
    rw [hp.2, hq.2] at this
    omega
  · have hlt : q < p := by omega
    have := countBelow_lt_of_bit hq.1 hlt
    rw [hp.2, hq.2] at this
    omega

/-! ## Rank9 (src/rank_sel/rank9.rs) -/

/-- A bit vector: 64-bit words plus a logical bit length. -/
structure Bitmap where
  data : List Nat
  len : Nat
deriving DecidableEq

/-- Well-formed bit vector: the word count matches the bit length, words fit
in 64 bits, and the padding bits past `len` are zero (the invariant every
build path of the source maintains; Rank9 popcounts whole trailing words and
relies on it). -/
def Bitmap.WF (B : Bitmap) : Prop :=
  B.data.length = (B.len + 63) / 64
    ∧ WordsWF B.data
    ∧ ∀ i, B.len ≤ i → bitGet B.data i = false

instance instDecidableBitmapWF (B : Bitmap) : Decidable B.WF :=
  decidable_of_iff
    (B.data.length = (B.len + 63) / 64
      ∧ (∀ w ∈ B.data, w < 2 ^ 64)
      ∧ ∀ j ∈ Finset.range (64 * B.data.length), B.len ≤ j → bitGet B.data j = false)
    (by
      unfold Bitmap.WF WordsWF
      constructor
      · rintro ⟨h1, h2, h3⟩
        refine ⟨h1, h2, ?_⟩
        intro i hi
        by_cases hlt : i < 64 * B.data.length
        · exact h3 i (Finset.mem_range.mpr hlt) hi
        · exact bitGet_ge_length (by omega)
      · rintro ⟨h1, h2, h3⟩
        exact ⟨h1, h2, fun j _ hj => h3 j hj⟩)

/-- The per-block counters of Rank9 (rank9.rs lines 113-131): one absolute
count plus seven 9-bit relative counts packed into one word. -/
structure BlockCounters where
  absolute : Nat
  relative : Nat
deriving DecidableEq

/-- BlockCounters::rel (rank9.rs lines 122-125). -/
def BlockCounters.rel (c : BlockCounters) (word : Nat) : Nat :=
  (c.relative >>> (9 * (word ^^^ 7))) &&& 0x1FF

/-- BlockCounters::set_rel (rank9.rs lines 127-130). -/
def BlockCounters.set_rel (c : BlockCounters) (word counter : Nat) : BlockCounters :=
  { c with relative := c.relative ||| (counter <<< (9 * (word ^^^ 7))) }

/-- One iteration of the inner loop of Rank9::new (rank9.rs lines 175-181):
pack the running relative count for word `j` of the block, then add the
popcount of word `i + j` if it exists. -/
def rank9Step (ws : List Nat) (numWords i : Nat) (acc : BlockCounters × Nat) (j : Nat) :
    BlockCounters × Nat :=
  let count := acc.1.set_rel j (acc.2 - acc.1.absolute)
  let numOnes := if i + j < numWords then acc.2 + popcount (wordOf ws (i + j)) else acc.2
  (count, numOnes)

/-- One block iteration of Rank9::new (rank9.rs lines 168-184): the counter
for the block of eight words starting at word `i`, and the updated running
count of ones. -/
def rank9Block (ws : List Nat) (numWords i numOnes : Nat) : BlockCounters × Nat :=
  (List.range' 1 7).foldl (rank9Step ws numWords i)
    (⟨numOnes, 0⟩, numOnes + popcount (wordOf ws i))

/-- The counter array built by Rank9::new (rank9.rs lines 156-195): one
counter per 512-bit block (the loop `(0..num_words).step_by(8)` runs
`⌈num_words/8⌉` times) followed by the sentinel holding the total popcount. -/
def rank9Counts (ws : List Nat) (numWords : Nat) : List BlockCounters :=
  let numCounts := (numWords + 7) / 8
  let r := (List.range numCounts).foldl
    (fun acc blk =>
      let bc := rank9Block ws numWords (8 * blk) acc.2
      (acc.1 ++ [bc.1], bc.2))
    (([] : List BlockCounters), 0)
  r.1 ++ [⟨r.2, 0⟩]

structure Rank9 where
  bits : Bitmap
  counts : List BlockCounters
deriving DecidableEq

/-- Rank9::new (rank9.rs lines 156-195). -/
def Rank9.new (B : Bitmap) : Rank9 :=
  ⟨B, rank9Counts B.data ((B.len + 63) / 64)⟩

/-- NumBits::num_ones (rank9.rs lines 98-104): reads the absolute field of
the last counter.  The source `unwrap_unchecked` on an empty list would be
undefined behaviour; it is modelled by `getLastD` whose default is shown
unreachable (the build always pushes a sentinel). -/
def Rank9.num_ones (r : Rank9) : Nat := (r.counts.getLastD ⟨0, 0⟩).absolute

/-- Rank::rank_unchecked for Rank9 (rank9.rs lines 218-229). -/
def Rank9.rank_unchecked (r : Rank9) (pos : Nat) : Nat :=
  let wordPos := pos / 64
  let block := wordPos / 8
  let offset := wordPos % 8
  let word := wordOf r.bits.data wordPos
  let counts := r.counts.getD block ⟨0, 0⟩
  counts.absolute + counts.rel offset + popcount (word &&& ((1 <<< (pos % 64)) - 1))

/-- Rank::rank for Rank9 (rank9.rs lines 209-216). -/
def Rank9.rank (r : Rank9) (pos : Nat) : Nat :=
  if pos ≥ r.bits.len then r.num_ones else r.rank_unchecked pos

/-! ### Correctness of the Rank9 build -/

theorem popcountFuel_le (f : Nat) : ∀ w, popcountFuel f w ≤ f := by
  induction f with
  | zero => intro w; simp [popcountFuel]
  | succ f ih =>
    intro w
    rw [popcountFuel]
    split
    · omega
    · have := ih (w / 2)
      omega

theorem popcount_le (w : Nat) : popcount w ≤ 64 := popcountFuel_le 64 w

theorem xor_seven {a : Nat} (h : a ≤ 7) : a ^^^ 7 = 7 - a := by
  interval_cases a <;> decide

/-- Running sum of word popcounts: the spec value of the absolute counters. -/
def wsum (ws : List Nat) (t : Nat) : Nat :=
  ∑ k ∈ Finset.range t, popcount (wordOf ws k)

theorem wsum_add (ws : List Nat) (a b : Nat) :
    wsum ws (a + b) = wsum ws a + ∑ t ∈ Finset.range b, popcount (wordOf ws (a + t)) := by
  induction b with
  | zero => simp [wsum]
  | succ b ih =>
    rw [show a + (b + 1) = (a + b) + 1 by omega, wsum, Finset.sum_range_succ, ← wsum, ih,
      Finset.sum_range_succ]
    omega

/-- The packed tail of relative counters: `v a * 2^(9*(7-a)) + ...`, `n` terms. -/
def packFrom (v : Nat → Nat) : Nat → Nat → Nat
  | _, 0 => 0
  | a, n + 1 => v a * 2 ^ (9 * (7 - a)) + packFrom v (a + 1) n

theorem packFrom_lt (v : Nat → Nat) (hv : ∀ j, v j < 512) :
    ∀ n a, a + n ≤ 8 → packFrom v a n < 2 ^ (9 * (8 - a)) := by
  intro n
  induction n with
  | zero =>
    intro a _
    rw [packFrom]
    positivity
  | succ n ih =>
    intro a ha
    rw [packFrom]
    have h1 := ih (a + 1) (by omega)
    have h2 := hv a
    have hle : v a * 2 ^ (9 * (7 - a)) ≤ 511 * 2 ^ (9 * (7 - a)) :=
      Nat.mul_le_mul_right _ (by omega)
    have e1 : 9 * (8 - a) = 9 * (7 - a) + 9 := by omega
    have e2 : 9 * (8 - (a + 1)) = 9 * (7 - a) := by omega
    rw [e1, Nat.pow_add]
    rw [e2] at h1
    have h9 : (2 : Nat) ^ 9 = 512 := by norm_num
    rw [h9]
    omega

/-- Inner-loop invariant of Rank9::new: folding `rank9Step` over words
`a..7` adds the packed tail of relative counters and accumulates the
popcounts of the remaining words of the block. -/
theorem rank9Inner_inv (ws : List Nat) (numWords i S : Nat)
    (hlen : ws.length ≤ numWords) :
    ∀ a, 1 ≤ a → a ≤ 8 →
      ∀ r, r % 2 ^ (9 * (8 - a)) = 0 →
        (List.range' a (8 - a)).foldl (rank9Step ws numWords i)
            (⟨S, r⟩, S + ∑ t ∈ Finset.range a, popcount (wordOf ws (i + t)))
          = (⟨S, r + packFrom (fun j => ∑ t ∈ Finset.range j, popcount (wordOf ws (i + t))) a (8 - a)⟩,
             S + ∑ t ∈ Finset.range 8, popcount (wordOf ws (i + t))) := by
  suffices hgen : ∀ n a, 8 - a = n → 1 ≤ a → a ≤ 8 →
      ∀ r, r % 2 ^ (9 * (8 - a)) = 0 →
        (List.range' a (8 - a)).foldl (rank9Step ws numWords i)
            (⟨S, r⟩, S + ∑ t ∈ Finset.range a, popcount (wordOf ws (i + t)))
          = (⟨S, r + packFrom (fun j => ∑ t ∈ Finset.range j, popcount (wordOf ws (i + t))) a (8 - a)⟩,
             S + ∑ t ∈ Finset.range 8, popcount (wordOf ws (i + t))) by
    intro a h1 h8 r hr
    exact hgen (8 - a) a rfl h1 h8 r hr
  intro n
  induction n with
  | zero =>
    intro a h h1 h8 r hr
    have ha : a = 8 := by omega
    subst ha
    simp [packFrom]
  | succ n ih =>
    intro a h h1 h8 r hr
    have ha7 : a ≤ 7 := by omega
    set v : Nat → Nat := fun j => ∑ t ∈ Finset.range j, popcount (wordOf ws (i + t)) with hv
    have hva : v a < 512 := by
      have hcard : v a ≤ ∑ _t ∈ Finset.range a, 64 := by
        refine Finset.sum_le_sum ?_
        intro t _
        exact popcount_le _
      simp at hcard
      omega
    have hunfold : rank9Step ws numWords i (⟨S, r⟩, S + v a) a
        = (⟨S, r ||| ((S + v a - S) <<< (9 * (a ^^^ 7)))⟩,
           if i + a < numWords then S + v a + popcount (wordOf ws (i + a)) else S + v a) := rfl
    have hsub : S + v a - S = v a := by omega
    have hxor : a ^^^ 7 = 7 - a := xor_seven ha7
    have hor : r ||| (v a <<< (9 * (7 - a))) = r + v a * 2 ^ (9 * (7 - a)) := by
      have hb : v a * 2 ^ (9 * (7 - a)) < 2 ^ (9 * (8 - a)) := by
        have e1 : 9 * (8 - a) = 9 * (7 - a) + 9 := by omega
        rw [e1, Nat.pow_add]
        have h9 : (2 : Nat) ^ 9 = 512 := by norm_num
        rw [h9]
        have hpos : 0 < 2 ^ (9 * (7 - a)) := by positivity
        calc v a * 2 ^ (9 * (7 - a)) < 512 * 2 ^ (9 * (7 - a)) :=
              mul_lt_mul_of_pos_right hva hpos
        _ = 2 ^ (9 * (7 - a)) * 512 := by ring
      have hrfac : r = 2 ^ (9 * (8 - a)) * (r / 2 ^ (9 * (8 - a))) := by
        have := Nat.div_add_mod r (2 ^ (9 * (8 - a)))
        omega
      calc r ||| (v a <<< (9 * (7 - a)))
          = r ||| (v a * 2 ^ (9 * (7 - a))) := by rw [Nat.shiftLeft_eq]
      _ = 2 ^ (9 * (8 - a)) * (r / 2 ^ (9 * (8 - a))) ||| (v a * 2 ^ (9 * (7 - a))) := by
            rw [← hrfac]
      _ = 2 ^ (9 * (8 - a)) * (r / 2 ^ (9 * (8 - a))) + v a * 2 ^ (9 * (7 - a)) :=
            (Nat.mul_add_lt_is_or hb _).symm
      _ = r + v a * 2 ^ (9 * (7 - a)) := by rw [← hrfac]
    have hones : (if i + a < numWords then S + v a + popcount (wordOf ws (i + a)) else S + v a)
        = S + v (a + 1) := by
      have hva1 : v (a + 1) = v a + popcount (wordOf ws (i + a)) :=
        Finset.sum_range_succ _ a
      by_cases hc : i + a < numWords
      · rw [if_pos hc, hva1]
        omega
      · rw [if_neg hc, hva1]
        have hz : wordOf ws (i + a) = 0 := by
          rw [wordOf, List.getD_eq_default]
          omega
        rw [hz]
        have : popcount 0 = 0 := popcountFuel_zero 64
        omega
    have hstep : rank9Step ws numWords i (⟨S, r⟩, S + v a) a
        = (⟨S, r + v a * 2 ^ (9 * (7 - a))⟩, S + v (a + 1)) := by
      rw [hunfold, hsub, hxor, hor, hones]
    have hr' : (r + v a * 2 ^ (9 * (7 - a))) % 2 ^ (9 * (7 - a)) = 0 := by
      have hdvd : (2 : Nat) ^ (9 * (7 - a)) ∣ 2 ^ (9 * (8 - a)) :=
        Nat.pow_dvd_pow 2 (by omega)
      have hdr : (2 : Nat) ^ (9 * (8 - a)) ∣ r := Nat.dvd_of_mod_eq_zero hr
      have h1' : r % 2 ^ (9 * (7 - a)) = 0 :=
        Nat.mod_eq_zero_of_dvd (dvd_trans hdvd hdr)
      have h2' : (v a * 2 ^ (9 * (7 - a))) % 2 ^ (9 * (7 - a)) = 0 :=
        Nat.mul_mod_left _ _
      rw [Nat.add_mod, h1', h2']
      simp
    rw [h, List.range'_succ, List.foldl_cons, hstep]
    have e2 : 8 - (a + 1) = n := by omega
    have hr'' : (r + v a * 2 ^ (9 * (7 - a))) % 2 ^ (9 * (8 - (a + 1))) = 0 := by
      have e3 : 9 * (8 - (a + 1)) = 9 * (7 - a) := by omega
      rw [e3]
      exact hr'
    have hih := ih (a + 1) e2 (by omega) (by omega)
      (r + v a * 2 ^ (9 * (7 - a))) hr''
    rw [e2] at hih
    rw [hih, packFrom]
    rw [Nat.add_assoc]

/-- The seven 9-bit fields packed by the inner loop unpack to the original
relative counts (with the implicit zero count for word 0). -/
theorem packFrom_rel (v : Nat → Nat) (hv : ∀ j, j ≤ 7 → v j < 512) (S : Nat)
    {off : Nat} (hoff : off < 8) :
    (⟨S, packFrom v 1 7⟩ : BlockCounters).rel off = if off = 0 then 0 else v off := by
  have h1 := hv 1 (by omega)
  have h2 := hv 2 (by omega)
  have h3 := hv 3 (by omega)
  have h4 := hv 4 (by omega)
  have h5 := hv 5 (by omega)
  have h6 := hv 6 (by omega)
  have h7 := hv 7 (by omega)
  have hexp : packFrom v 1 7
      = v 1 * 2 ^ 54 + (v 2 * 2 ^ 45 + (v 3 * 2 ^ 36 + (v 4 * 2 ^ 27
        + (v 5 * 2 ^ 18 + (v 6 * 2 ^ 9 + (v 7 * 2 ^ 0 + 0)))))) := rfl
  have hmod : ∀ x : Nat, x &&& 0x1FF = x % 2 ^ 9 := by
    intro x
    have h511 : (0x1FF : Nat) = 2 ^ 9 - 1 := by norm_num
    rw [h511, Nat.and_pow_two_sub_one_eq_mod]
  have hrel : ∀ c, c ≤ 7 → (⟨S, packFrom v 1 7⟩ : BlockCounters).rel c
      = (packFrom v 1 7 >>> (9 * (7 - c))) &&& 0x1FF := by
    intro c hc
    rw [BlockCounters.rel, xor_seven hc]
  interval_cases off <;>
    rw [hrel _ (by norm_num)] <;>
    simp only [hexp, hmod, Nat.shiftRight_eq_div_pow] <;>
    norm_num <;> omega

/-- Closed form of one block iteration of Rank9::new. -/
theorem rank9Block_eq (ws : List Nat) (numWords i S : Nat) (hlen : ws.length ≤ numWords) :
    rank9Block ws numWords i S
      = (⟨S, packFrom (fun j => ∑ t ∈ Finset.range j, popcount (wordOf ws (i + t))) 1 7⟩,
         S + ∑ t ∈ Finset.range 8, popcount (wordOf ws (i + t))) := by
  rw [rank9Block]
  have h := rank9Inner_inv ws numWords i S hlen 1 (by omega) (by omega) 0 (by simp)
  have e1 : (∑ t ∈ Finset.range 1, popcount (wordOf ws (i + t))) = popcount (wordOf ws i) := by
    simp
  rw [e1] at h
  rw [show (8 : Nat) - 1 = 7 by norm_num] at h
  simpa using h

/-- The spec-level counter of block `blk`: absolute count of all ones before
the block, and the packed within-block cumulative counts. -/
def blockSpec (ws : List Nat) (blk : Nat) : BlockCounters :=
  ⟨wsum ws (8 * blk),
   packFrom (fun j => ∑ t ∈ Finset.range j, popcount (wordOf ws (8 * blk + t))) 1 7⟩

/-- Closed form of the Rank9 counter array. -/
theorem rank9Counts_eq (ws : List Nat) (numWords : Nat) (hlen : ws.length ≤ numWords) :
    rank9Counts ws numWords
      = (List.range ((numWords + 7) / 8)).map (blockSpec ws)
        ++ [⟨wsum ws (8 * ((numWords + 7) / 8)), 0⟩] := by
  rw [rank9Counts]
  suffices h : ∀ m, (List.range m).foldl
      (fun acc blk =>
        let bc := rank9Block ws numWords (8 * blk) acc.2
        (acc.1 ++ [bc.1], bc.2))
      (([] : List BlockCounters), 0)
      = ((List.range m).map (blockSpec ws), wsum ws (8 * m)) by
    rw [h]
  intro m
  induction m with
  | zero => simp [wsum]
  | succ m ih =>
    rw [List.range_succ, List.foldl_append, ih, List.map_append, List.foldl_cons, List.foldl_nil]
    rw [rank9Block_eq ws numWords (8 * m) (wsum ws (8 * m)) hlen]
    have e1 : wsum ws (8 * m) + ∑ t ∈ Finset.range 8, popcount (wordOf ws (8 * m + t))
        = wsum ws (8 * (m + 1)) := by
      rw [show 8 * (m + 1) = 8 * m + 8 by omega, wsum_add]
    simp [e1, blockSpec]

/-- Bits above the value's width contribute nothing. -/
theorem bitsBelow_eq_of_lt_pow {w r s : Nat} (hw : w < 2 ^ r) (hrs : r ≤ s) :
    bitsBelow w s = bitsBelow w r := by
  rw [bitsBelow, ← Finset.sum_range_add_sum_Ico _ hrs, ← bitsBelow]
  have hz : ∑ j ∈ Finset.Ico r s, (if w.testBit j then 1 else 0) = 0 := by
    refine Finset.sum_eq_zero ?_
    intro j hj
    have hjr : r ≤ j := (Finset.mem_Ico.mp hj).1
    have : w < 2 ^ j := lt_of_lt_of_le hw (Nat.pow_le_pow_right (by omega) hjr)
    rw [Nat.testBit_lt_two_pow this]
    simp
  omega

/-- Truncating a word modulo `2^r` keeps its low `r` bits. -/
theorem bitsBelow_mod (w r : Nat) : bitsBelow (w % 2 ^ r) r = bitsBelow w r := by
  refine Finset.sum_congr rfl ?_
  intro j hj
  have hjr : j < r := Finset.mem_range.mp hj
  rw [Nat.testBit_mod_two_pow, decide_eq_true hjr]
  simp

/-- The masked-word term of rank_unchecked counts the bits of the word below
`pos % 64`. -/
theorem popcount_mask_eq (w : Nat) (hw : w < 2 ^ 64) {r : Nat} (hr : r ≤ 64) :
    popcount (w &&& ((1 <<< r) - 1)) = bitsBelow w r := by
  have h1 : (1 : Nat) <<< r = 2 ^ r := by
    rw [Nat.shiftLeft_eq, Nat.one_mul]
  rw [h1, Nat.and_pow_two_sub_one_eq_mod]
  have hlt : w % 2 ^ r < 2 ^ 64 := lt_of_le_of_lt (Nat.mod_le _ _) hw
  rw [popcount_eq_bitsBelow hlt, bitsBelow_eq_of_lt_pow (Nat.mod_lt _ (by positivity)) hr,
    bitsBelow_mod]

/-- The counters looked up by rank_unchecked are the spec-level ones. -/
theorem rank9_counts_getD (B : Bitmap) (hwf : B.WF) {blk : Nat}
    (hblk : blk < (((B.len + 63) / 64) + 7) / 8) :
    (Rank9.new B).counts.getD blk ⟨0, 0⟩ = blockSpec B.data blk := by
  have hlen : B.data.length ≤ (B.len + 63) / 64 := by
    rw [hwf.1]
  rw [Rank9.new]
  show (rank9Counts B.data ((B.len + 63) / 64)).getD blk ⟨0, 0⟩ = _
  rw [rank9Counts_eq _ _ hlen]
  have hmaplen : blk < ((List.range ((((B.len + 63) / 64) + 7) / 8)).map (blockSpec B.data)).length := by
    simpa using hblk
  rw [List.getD_append _ _ _ _ hmaplen, List.getD_eq_getElem _ _ hmaplen]
  simp

/-- rank_unchecked returns the number of ones below `pos` for `pos < len`. -/
theorem rank9_rank_unchecked_eq (B : Bitmap) (hwf : B.WF) {pos : Nat} (hpos : pos < B.len) :
    (Rank9.new B).rank_unchecked pos = countBelow B.data pos := by
  have hnw : B.len ≤ 64 * ((B.len + 63) / 64) := by omega
  have hword : pos / 64 < (B.len + 63) / 64 := by omega
  have hblk : pos / 64 / 8 < (((B.len + 63) / 64) + 7) / 8 := by omega
  rw [Rank9.rank_unchecked]
  show ((Rank9.new B).counts.getD (pos / 64 / 8) ⟨0, 0⟩).absolute
      + ((Rank9.new B).counts.getD (pos / 64 / 8) ⟨0, 0⟩).rel (pos / 64 % 8)
      + popcount (wordOf (Rank9.new B).bits.data (pos / 64) &&& ((1 <<< (pos % 64)) - 1))
      = countBelow B.data pos
  rw [rank9_counts_getD B hwf hblk]
  have hv : ∀ j, j ≤ 7 →
      (∑ t ∈ Finset.range j, popcount (wordOf B.data (8 * (pos / 64 / 8) + t))) < 512 := by
    intro j hj
    have hb : (∑ t ∈ Finset.range j, popcount (wordOf B.data (8 * (pos / 64 / 8) + t)))
        ≤ ∑ _t ∈ Finset.range j, 64 := by
      refine Finset.sum_le_sum ?_
      intro t _
      exact popcount_le _
    simp at hb
    omega
  have hrel : (blockSpec B.data (pos / 64 / 8)).rel (pos / 64 % 8)
      = ∑ t ∈ Finset.range (pos / 64 % 8), popcount (wordOf B.data (8 * (pos / 64 / 8) + t)) := by
    rw [blockSpec]
    rw [packFrom_rel _ hv _ (by omega : pos / 64 % 8 < 8)]
    by_cases h0 : pos / 64 % 8 = 0
    · rw [if_pos h0, h0]
      simp
    · rw [if_neg h0]
  have habs : (blockSpec B.data (pos / 64 / 8)).absolute = wsum B.data (8 * (pos / 64 / 8)) := rfl
  rw [habs, hrel]
  have hwsum : wsum B.data (8 * (pos / 64 / 8))
      + ∑ t ∈ Finset.range (pos / 64 % 8), popcount (wordOf B.data (8 * (pos / 64 / 8) + t))
      = wsum B.data (pos / 64) := by
    have h := wsum_add B.data (8 * (pos / 64 / 8)) (pos / 64 % 8)
    rw [show 8 * (pos / 64 / 8) + pos / 64 % 8 = pos / 64 by omega] at h
    omega
  rw [show (Rank9.new B).bits.data = B.data from rfl]
  rw [popcount_mask_eq _ (wordOf_lt hwf.2.1 _) (by omega : pos % 64 ≤ 64)]
  have hsplit : countBelow B.data pos
      = countBelow B.data (64 * (pos / 64)) + bitsBelow (wordOf B.data (pos / 64)) (pos % 64) := by
    conv_lhs => rw [show pos = 64 * (pos / 64) + pos % 64 by omega]
    exact countBelow_split B.data (pos / 64) (by omega)
  have hcw : countBelow B.data (64 * (pos / 64)) = wsum B.data (pos / 64) := by
    rw [countBelow_words B.data hwf.2.1, wsum]
  omega

/-- The sentinel counter and the non-emptiness of the counter list. -/
theorem rank9_sentinel (B : Bitmap) (hwf : B.WF) :
    (Rank9.new B).counts.getLastD ⟨0, 0⟩
      = ⟨wsum B.data (8 * ((((B.len + 63) / 64) + 7) / 8)), 0⟩
    ∧ (Rank9.new B).counts ≠ [] := by
  have hlen : B.data.length ≤ (B.len + 63) / 64 := by
    rw [hwf.1]
  rw [Rank9.new]
  show (rank9Counts B.data ((B.len + 63) / 64)).getLastD ⟨0, 0⟩ = _
    ∧ rank9Counts B.data ((B.len + 63) / 64) ≠ []
  rw [rank9Counts_eq _ _ hlen]
  constructor
  · rw [List.getLastD_concat]
  · simp

/-- The total popcount of the words equals the number of ones below the
logical length, thanks to the zero padding. -/
theorem wsum_total (B : Bitmap) (hwf : B.WF) {t : Nat} (ht : B.data.length ≤ t) :
    wsum B.data t = countBelow B.data B.len := by
  have h1 : wsum B.data t = countBelow B.data (64 * t) := (countBelow_words B.data hwf.2.1 t).symm
  have h2 : countBelow B.data (64 * t) = totalOnes B.data :=
    countBelow_eq_total (by omega)
  have hlen64 : B.len ≤ 64 * B.data.length := by
    have := hwf.1
    omega
  have h3 : totalOnes B.data = countBelow B.data B.len := by
    rw [totalOnes, countBelow, ← Finset.sum_range_add_sum_Ico _ hlen64, ← countBelow]
    have hz : ∑ i ∈ Finset.Ico B.len (64 * B.data.length), (if bitGet B.data i then 1 else 0) = 0 := by
      refine Finset.sum_eq_zero ?_
      intro i hi
      rw [hwf.2.2 i (Finset.mem_Ico.mp hi).1]
      simp
    omega
  omega

/-- num_ones reads the sentinel and returns the total number of set bits. -/
theorem rank9_num_ones_eq (B : Bitmap) (hwf : B.WF) :
    (Rank9.new B).num_ones = countBelow B.data B.len := by
  rw [Rank9.num_ones, (rank9_sentinel B hwf).1]
  refine wsum_total B hwf ?_
  have h1 := hwf.1
  omega

/-- BitCount::count_ones for Rank9 (rank9.rs lines 106-111): forwards to num_ones. -/
def Rank9.count_ones (r : Rank9) : Nat := r.num_ones

/-- Full characterisation of Rank9::rank. -/
theorem rank9_rank_eq (B : Bitmap) (hwf : B.WF) (pos : Nat) :
    (Rank9.new B).rank pos = countBelow B.data (min pos B.len) := by
  rw [Rank9.rank]
  by_cases hge : pos ≥ (Rank9.new B).bits.len
  · rw [if_pos hge]
    have hlen : (Rank9.new B).bits.len = B.len := rfl
    rw [hlen] at hge
    rw [rank9_num_ones_eq B hwf, show min pos B.len = B.len by omega]
  · rw [if_neg hge]
    have hlen : (Rank9.new B).bits.len = B.len := rfl
    rw [hlen] at hge
    have hpos : pos < B.len := by omega
    rw [rank9_rank_unchecked_eq B hwf hpos, show min pos B.len = pos by omega]

/-- C1: for every bit vector `B` and every position `p ≤ |B|`, the structure
built by `Rank9::new(B)` answers `rank(p)` as the number of set bits of `B` in
positions `[0, p)`; and for every `p ≥ |B|`, `rank(p)` returns the sentinel
count, which is the total number of set bits of `B`. -/
theorem C1_rank9_rank_correct (B : Bitmap) (hwf : B.WF) (p : Nat) :
    (p ≤ B.len → (Rank9.new B).rank p = countBelow B.data p)
      ∧ (B.len ≤ p → (Rank9.new B).rank p = countBelow B.data B.len) := by
  constructor
  · intro hp
    rw [rank9_rank_eq B hwf p, min_eq_left hp]
  · intro hp
    rw [rank9_rank_eq B hwf p, min_eq_right hp]

/-- Witness for C1 on the 8-bit vector `[1,0,1,1,0,1,0,1]` (word 173):
rank(5) counts the three ones below position 5, and rank(9) past the end
returns the total count 5. -/
theorem C1_rank9_rank_correct_witness :
    (Rank9.new ⟨[173], 8⟩).rank 5 = countBelow [173] 5
      ∧ (Rank9.new ⟨[173], 8⟩).rank 9 = countBelow [173] 8
      ∧ countBelow [173] 5 = 3 ∧ countBelow [173] 8 = 5 :=
  ⟨(C1_rank9_rank_correct ⟨[173], 8⟩ (by decide) 5).1 (by decide),
   (C1_rank9_rank_correct ⟨[173], 8⟩ (by decide) 9).2 (by decide),
   by decide, by decide⟩

/-- C10: `Rank9::new` always appends a sentinel counter carrying the total
popcount, so the counter array is never empty, `num_ones`/`count_ones` (which
read the last counter) never hit their unreachable branch and return the
popcount of `B`, and on the empty bit vector `rank(0) = 0`. -/
theorem C10_rank9_sentinel_safety (B : Bitmap) (hwf : B.WF) :
    (Rank9.new B).counts ≠ []
      ∧ ((Rank9.new B).counts.getLastD ⟨0, 0⟩).absolute = countBelow B.data B.len
      ∧ (Rank9.new B).num_ones = countBelow B.data B.len
      ∧ (Rank9.new B).count_ones = countBelow B.data B.len
      ∧ (Rank9.new (⟨[], 0⟩ : Bitmap)).rank 0 = 0 := by
  have hnum := rank9_num_ones_eq B hwf
  refine ⟨(rank9_sentinel B hwf).2, hnum, hnum, hnum, ?_⟩
  decide

/-- Witness for C10 on the 8-bit example vector. -/
theorem C10_rank9_sentinel_safety_witness :
    (Rank9.new ⟨[173], 8⟩).counts ≠ []
      ∧ (Rank9.new ⟨[173], 8⟩).num_ones = countBelow [173] 8
      ∧ countBelow [173] 8 = 5 := by
  have h := C10_rank9_sentinel_safety ⟨[173], 8⟩ (by decide)
  exact ⟨h.1, h.2.2.1, by decide⟩

/-! ## CountingBitmap set paths (src/bitmap.rs) -/

/-- A counting bitmap (src/bitmap.rs lines 9-31): data words, bit length and
the cached number of ones. -/
structure CountingBitmap where
  data : List Nat
  len : Nat
  number_of_ones : Nat
deriving DecidableEq

/-- Bitwise complement of a 64-bit word, modelling `!x` on `usize`
(exact for `x < 2^64`). -/
def not64 (x : Nat) : Nat := 2 ^ 64 - 1 - x

/-- The updated word written by both set paths: clear the old bit, then OR in
the new one (src/bitmap.rs lines 110-115 and 200-205). -/
def setBitWord (word bit_index value : Nat) : Nat :=
  (word &&& not64 (1 <<< bit_index)) ||| (value <<< bit_index)

/-- VSliceMut::set_unchecked for CountingBitmap (src/bitmap.rs lines 105-126).
The `+=`/`-=` counter updates act on a `usize` and wrap on underflow; they are
modelled by adding the increment and the two's complement of the decrement,
modulo 2^64. -/
def CountingBitmap.set_unchecked (B : CountingBitmap) (index value : Nat) : CountingBitmap :=
  let word_index := index / 64
  let bit_index := index % 64
  let word := wordOf B.data word_index
  let new_word := setBitWord word bit_index value
  { data := B.data.set word_index new_word
    len := B.len
    number_of_ones :=
      (B.number_of_ones + (if word < new_word then 1 else 0)
        + (2 ^ 64 - (if new_word < word then 1 else 0))) % 2 ^ 64 }

/-- VSliceAtomic::set_atomic_unchecked for CountingBitmap (src/bitmap.rs lines
194-224), executed without interference: the compare-exchange succeeds on the
first attempt, and the counter receives a `fetch_add` of the possibly negative
delta `(new_word > word) - (new_word < word)` reinterpreted bitwise as an
unsigned word, i.e. a wrapping add modulo 2^64. -/
def CountingBitmap.set_atomic_unchecked (B : CountingBitmap) (index value : Nat) : CountingBitmap :=
  let word_index := index / 64
  let bit_index := index % 64
  let word := wordOf B.data word_index
  let new_word := setBitWord word bit_index value
  { data := B.data.set word_index new_word
    len := B.len
    number_of_ones :=
      (B.number_of_ones
        + ((2 ^ 64 + (if word < new_word then 1 else 0)
             - (if new_word < word then 1 else 0)) % 2 ^ 64)) % 2 ^ 64 }

theorem not64_shift_testBit {b : Nat} (hb : b < 64) (j : Nat) :
    (not64 (1 <<< b)).testBit j = (decide (j < 64) && decide (j ≠ b)) := by
  have h1 : (1 : Nat) <<< b = 2 ^ b := by rw [Nat.shiftLeft_eq, Nat.one_mul]
  have hXZ : (2 : Nat) ^ (b + 1) = 2 * 2 ^ b := by ring
  have hW : (2 : Nat) ^ (b + 1) * 2 ^ (63 - b) = 2 ^ 64 := by
    rw [← pow_add]
    congr 1
    omega
  have hY1 : 1 ≤ (2 : Nat) ^ (63 - b) := Nat.one_le_two_pow
  have hZ1 : 1 ≤ (2 : Nat) ^ b := Nat.one_le_two_pow
  have hmul : (2 : Nat) ^ (b + 1) * (2 ^ (63 - b) - 1) + 2 ^ (b + 1)
      = 2 ^ (b + 1) * 2 ^ (63 - b) := by
    calc (2 : Nat) ^ (b + 1) * (2 ^ (63 - b) - 1) + 2 ^ (b + 1)
        = 2 ^ (b + 1) * ((2 ^ (63 - b) - 1) + 1) := by ring
    _ = 2 ^ (b + 1) * 2 ^ (63 - b) := by rw [Nat.sub_add_cancel hY1]
  have hD : not64 (1 <<< b) = 2 ^ (b + 1) * (2 ^ (63 - b) - 1) + (2 ^ b - 1) := by
    rw [not64, h1]
    omega
  rw [hD, Nat.testBit_mul_pow_two_add _ (by
    have : (2 : Nat) ^ b < 2 ^ (b + 1) := by omega
    omega) j]
  by_cases hj : j < b + 1
  · rw [if_pos hj, Nat.testBit_two_pow_sub_one]
    by_cases hjb : j < b
    · rw [decide_eq_true hjb, decide_eq_true (show j < 64 by omega),
        decide_eq_true (show j ≠ b by omega)]
      simp
    · have hjb' : j = b := by omega
      rw [decide_eq_false (by omega : ¬j < b),
        decide_eq_false (show ¬j ≠ b by simp [hjb'])]
      simp
  · rw [if_neg hj, Nat.testBit_two_pow_sub_one]
    by_cases hj64 : j < 64
    · rw [decide_eq_true (show j - (b + 1) < 63 - b by omega), decide_eq_true hj64,
        decide_eq_true (show j ≠ b by omega)]
      simp
    · rw [decide_eq_false (show ¬j - (b + 1) < 63 - b by omega), decide_eq_false hj64]
      simp

/-- The new word agrees with the old one everywhere except at the written bit. -/
theorem setBitWord_testBit {word value b : Nat} (hw : word < 2 ^ 64) (hb : b < 64)
    (hv : value ≤ 1) (j : Nat) :
    (setBitWord word b value).testBit j
      = if j = b then decide (value = 1) else word.testBit j := by
  rw [setBitWord, Nat.testBit_or, Nat.testBit_and, not64_shift_testBit hb]
  have hvshift : (value <<< b).testBit j = (decide (j = b) && decide (value = 1)) := by
    rw [Nat.shiftLeft_eq, Nat.mul_comm, Nat.testBit_mul_pow_two]
    by_cases hjb : j = b
    · subst hjb
      rw [decide_eq_true (show j ≥ j from le_refl j), decide_eq_true (show j = j from rfl)]
      have h0 : j - j = 0 := by omega
      rw [h0]
      interval_cases value <;> simp
    · rw [decide_eq_false hjb]
      by_cases hge : j ≥ b
      · rw [decide_eq_true hge]
        have hpos : 1 ≤ j - b := by omega
        have hlt2 : value < 2 ^ (j - b) := by
          have h2 : (2 : Nat) ^ 1 ≤ 2 ^ (j - b) := Nat.pow_le_pow_right (by omega) hpos
          omega
        rw [Nat.testBit_lt_two_pow hlt2]
        simp
      · rw [decide_eq_false hge]
        simp
  rw [hvshift]
  by_cases hjb : j = b
  · rw [if_pos hjb, decide_eq_true hjb, decide_eq_false (by omega : ¬j ≠ b)]
    simp
  · rw [if_neg hjb, decide_eq_true (show j ≠ b from hjb), decide_eq_false hjb]
    by_cases hj64 : j < 64
    · rw [decide_eq_true hj64]
      simp
    · rw [decide_eq_false hj64]
      have : word < 2 ^ j :=
        lt_of_lt_of_le hw (Nat.pow_le_pow_right (by omega) (by omega))
      rw [Nat.testBit_lt_two_pow this]
      simp

theorem setBitWord_lt {word value b : Nat} (hw : word < 2 ^ 64) (hb : b < 64)
    (hv : value ≤ 1) : setBitWord word b value < 2 ^ 64 := by
  refine Nat.lt_pow_two_of_testBit _ ?_
  intro j hj
  rw [setBitWord_testBit hw hb hv, if_neg (by omega)]
  have : word < 2 ^ j := lt_of_lt_of_le hw (Nat.pow_le_pow_right (by omega) hj)
  exact Nat.testBit_lt_two_pow this

/-- Replacing word `k` only changes the `k`-th word read. -/
theorem wordOf_set_eq {data : List Nat} {k : Nat} (hk : k < data.length) (w : Nat) :
    wordOf (data.set k w) k = w := by
  rw [wordOf, List.getD_eq_getElem _ _ (by simpa using hk), List.getElem_set_self]

theorem wordOf_set_ne {data : List Nat} {k k' : Nat} (hne : k ≠ k') (w : Nat) :
    wordOf (data.set k w) k' = wordOf data k' := by
  by_cases hk' : k' < data.length
  · rw [wordOf, wordOf, List.getD_eq_getElem _ _ (by simpa using hk'),
      List.getD_eq_getElem _ _ hk', List.getElem_set_ne hne]
  · rw [wordOf, wordOf, List.getD_eq_default _ _ (by simpa using hk'),
      List.getD_eq_default _ _ (by omega)]

/-- Bit view of the updated data: only the written bit changes. -/
theorem bitGet_set_eq {data : List Nat} {index value : Nat}
    (hwf : WordsWF data) (hidx : index < 64 * data.length) (hv : value ≤ 1) (i : Nat) :
    bitGet (data.set (index / 64) (setBitWord (wordOf data (index / 64)) (index % 64) value)) i
      = if i = index then decide (value = 1) else bitGet data i := by
  have hk : index / 64 < data.length := by omega
  by_cases hw : i / 64 = index / 64
  · rw [bitGet, hw, wordOf_set_eq hk,
      setBitWord_testBit (wordOf_lt hwf _) (by omega) hv]
    by_cases hib : i % 64 = index % 64
    · have : i = index := by omega
      rw [if_pos hib, if_pos this]
    · have : i ≠ index := by omega
      rw [if_neg hib, if_neg this, bitGet, hw]
  · rw [bitGet, wordOf_set_ne (fun h => hw h.symm), if_neg (by omega), bitGet]

theorem countBelow_le (data : List Nat) (p : Nat) : countBelow data p ≤ p := by
  calc countBelow data p ≤ ∑ _i ∈ Finset.range p, 1 := by
        refine Finset.sum_le_sum ?_
        intro i _
        split <;> omega
  _ = p := by simp

/-- Total-ones bookkeeping for a single bit write. -/
theorem totalOnes_set {data : List Nat} {index value : Nat}
    (hwf : WordsWF data) (hidx : index < 64 * data.length) (hv : value ≤ 1) :
    totalOnes (data.set (index / 64) (setBitWord (wordOf data (index / 64)) (index % 64) value))
        + (if bitGet data index then 1 else 0)
      = totalOnes data + (if value = 1 then 1 else 0) := by
  set data' := data.set (index / 64) (setBitWord (wordOf data (index / 64)) (index % 64) value)
    with hdata'
  have hlen : data'.length = data.length := List.length_set data _ _
  have hmem : index ∈ Finset.range (64 * data.length) := Finset.mem_range.mpr hidx
  have hsplit : ∀ g : Nat → Nat,
      ∑ i ∈ Finset.range (64 * data.length), g i
        = (∑ i ∈ Finset.range (64 * data.length) \ {index}, g i) + g index := fun g =>
    Finset.sum_eq_sum_diff_singleton_add hmem g
  have hcongr : ∑ i ∈ Finset.range (64 * data.length) \ {index},
        (if bitGet data' i then 1 else 0)
      = ∑ i ∈ Finset.range (64 * data.length) \ {index}, (if bitGet data i then 1 else 0) := by
    refine Finset.sum_congr rfl ?_
    intro i hi
    have hne : i ≠ index := by
      intro h
      exact ((Finset.mem_sdiff.mp hi).2) (Finset.mem_singleton.mpr h)
    rw [bitGet_set_eq hwf hidx hv, if_neg hne]
  have hat : (if bitGet data' index then 1 else 0) = (if value = 1 then (1 : Nat) else 0) := by
    rw [bitGet_set_eq hwf hidx hv, if_pos rfl]
    by_cases h : value = 1 <;> simp [h]
  rw [totalOnes, totalOnes, countBelow, countBelow, hlen, hsplit, hsplit, hcongr, hat]
  omega

/-- C9: a single `set_unchecked(i, b)` (equivalently, an uninterfered
`set_atomic_unchecked(i, b, _)`) changes the ones counter by exactly +1 when
the bit goes 0 to 1, by exactly -1 (an add of -1 reinterpreted as an unsigned
word, i.e. modulo 2^64) when it goes 1 to 0, and leaves it unchanged
otherwise; a counter equal to the popcount of the data words stays equal to
it. -/
theorem C9_counting_set_counter (B : CountingBitmap) (index value : Nat)
    (hwf : WordsWF B.data) (hidx : index < B.len) (hlen : B.len ≤ 64 * B.data.length)
    (hval : value ≤ 1) (hones : B.number_of_ones = totalOnes B.data)
    (hbound : 64 * B.data.length < 2 ^ 64) :
    (B.set_atomic_unchecked index value = B.set_unchecked index value)
    ∧ ((B.set_unchecked index value).number_of_ones
        = totalOnes (B.set_unchecked index value).data)
    ∧ (bitGet B.data index = false → value = 1 →
        (B.set_unchecked index value).number_of_ones = B.number_of_ones + 1)
    ∧ (bitGet B.data index = true → value = 0 →
        (B.set_unchecked index value).number_of_ones
            = (B.number_of_ones + (2 ^ 64 - 1)) % 2 ^ 64
          ∧ (B.set_unchecked index value).number_of_ones = B.number_of_ones - 1)
    ∧ ((bitGet B.data index = decide (value = 1)) →
        (B.set_unchecked index value).number_of_ones = B.number_of_ones) := by
  have hidx' : index < 64 * B.data.length := by omega
  have hk : index / 64 < B.data.length := by omega
  set word := wordOf B.data (index / 64) with hword
  set new_word := setBitWord word (index % 64) value with hnew
  have hwlt : word < 2 ^ 64 := wordOf_lt hwf _
  have hnlt : new_word < 2 ^ 64 := setBitWord_lt hwlt (by omega) hval
  have htot := totalOnes_set hwf hidx' hval
  have htle : totalOnes B.data ≤ 64 * B.data.length := by
    rw [totalOnes]
    exact countBelow_le _ _
  have htle' : totalOnes ((B.set_unchecked index value).data) ≤ 64 * B.data.length := by
    have : (B.set_unchecked index value).data
        = B.data.set (index / 64) new_word := rfl
    rw [this, totalOnes]
    have hl : (B.data.set (index / 64) new_word).length = B.data.length :=
      List.length_set _ _ _
    rw [hl]
    exact le_trans (countBelow_le _ _) (le_refl _)
  -- relate the word comparison to the bit transition
  have hbit : bitGet B.data index = word.testBit (index % 64) := rfl
  have hbitnew : new_word.testBit (index % 64) = decide (value = 1) := by
    rw [hnew, setBitWord_testBit hwlt (by omega) hval, if_pos rfl]
  have hchange : ∀ j, j ≠ index % 64 → new_word.testBit j = word.testBit j := by
    intro j hj
    rw [hnew, setBitWord_testBit hwlt (by omega) hval, if_neg hj]
  have hup : word.testBit (index % 64) = false → value = 1 → word < new_word := by
    intro hbf hv1
    exact Nat.lt_of_testBit (index % 64) hbf
      (by rw [hbitnew, decide_eq_true hv1])
      (fun j hj => (hchange j (by omega)).symm)
  have hdown : word.testBit (index % 64) = true → value = 0 → new_word < word := by
    intro hbt hv0
    refine Nat.lt_of_testBit (index % 64) ?_ hbt (fun j hj => hchange j (by omega))
    rw [hbitnew, decide_eq_false (by omega)]
  have hsame : word.testBit (index % 64) = decide (value = 1) → new_word = word := by
    intro heq
    refine Nat.eq_of_testBit_eq ?_
    intro j
    by_cases hj : j = index % 64
    · rw [hj, hbitnew, heq]
    · exact hchange j hj
  have hcounter : (B.set_unchecked index value).number_of_ones
      = (B.number_of_ones + (if word < new_word then 1 else 0)
          + (2 ^ 64 - (if new_word < word then 1 else 0))) % 2 ^ 64 := rfl
  have hdata : (B.set_unchecked index value).data
      = B.data.set (index / 64) new_word := rfl
  rw [← hword] at htot
  rw [← hnew] at htot
  rw [hdata] at htle'
  have hc1 : B.set_atomic_unchecked index value = B.set_unchecked index value := by
    have h : (B.number_of_ones
          + ((2 ^ 64 + (if word < new_word then 1 else 0)
               - (if new_word < word then 1 else 0)) % 2 ^ 64)) % 2 ^ 64
        = (B.number_of_ones + (if word < new_word then 1 else 0)
            + (2 ^ 64 - (if new_word < word then 1 else 0))) % 2 ^ 64 := by
      by_cases h1 : word < new_word <;> by_cases h2 : new_word < word <;>
        simp only [if_pos, if_neg, h1, h2, if_true, if_false] <;> omega
    exact congrArg
      (fun x => CountingBitmap.mk (B.data.set (index / 64) new_word) B.len x) h
  have hc2 : (B.set_unchecked index value).number_of_ones
      = totalOnes (B.set_unchecked index value).data := by
    rw [hcounter, hdata]
    by_cases hbb : word.testBit (index % 64) <;> by_cases hv1 : value = 1
    · -- bit stays 1
      have heq := hsame (by rw [hbb, decide_eq_true hv1])
      rw [heq] at htot ⊢
      have hni : ¬word < word := by omega
      rw [if_neg hni]
      have hbitt : bitGet B.data index = true := by rw [hbit, hbb]
      rw [hbitt] at htot
      simp only [if_true, if_pos hv1] at htot
      omega
    · -- bit 1 -> 0
      have hv0 : value = 0 := by omega
      have hlt := hdown hbb hv0
      rw [if_neg (by omega), if_pos hlt]
      have hbitt : bitGet B.data index = true := by rw [hbit, hbb]
      rw [hbitt] at htot
      simp only [if_true, if_neg hv1] at htot
      have hlen2 : (B.data.set (index / 64) new_word).length = B.data.length :=
        List.length_set _ _ _
      omega
    · -- bit 0 -> 1
      have hbf : word.testBit (index % 64) = false := by simpa using hbb
      have hlt := hup hbf hv1
      rw [if_pos hlt, if_neg (by omega)]
      have hbitf : bitGet B.data index = false := by rw [hbit, hbf]
      rw [hbitf] at htot
      simp only [if_pos hv1] at htot
      norm_num at htot
      omega
    · -- bit stays 0
      have hbf : word.testBit (index % 64) = false := by simpa using hbb
      have heq := hsame (by rw [hbf, decide_eq_false hv1])
      rw [heq] at htot ⊢
      have hni : ¬word < word := by omega
      rw [if_neg hni]
      have hbitf : bitGet B.data index = false := by rw [hbit, hbf]
      rw [hbitf] at htot
      simp only [if_neg hv1] at htot
      norm_num at htot
      omega
  refine ⟨hc1, hc2, ?_, ?_, ?_⟩
  · intro hbitf hv1
    have hbf : word.testBit (index % 64) = false := by rw [← hbit, hbitf]
    have hlt := hup hbf hv1
    rw [hcounter, if_pos hlt, if_neg (by omega)]
    omega
  · intro hbitt hv0
    have hbt : word.testBit (index % 64) = true := by rw [← hbit, hbitt]
    have hlt := hdown hbt hv0
    rw [hcounter, if_neg (by omega), if_pos hlt]
    -- the counter cannot underflow: it equals the popcount, which is positive
    have htotpos : 1 ≤ totalOnes B.data := by
      have hbitt' : bitGet B.data index = true := hbitt
      have := countBelow_lt_of_bit hbitt' (show index < 64 * B.data.length by omega)
      rw [totalOnes]
      omega
    constructor
    · omega
    · omega
  · intro hbeq
    have heq := hsame (by rw [← hbit, hbeq])
    rw [hcounter, heq]
    have hni : ¬word < word := by omega
    rw [if_neg hni]
    omega


/-- Witness for C9: on the bitmap with word 4 (bit 2 set, counter 1), setting
bit 3 to one increments the counter, and the uninterfered atomic path agrees
with the sequential one. -/
theorem C9_counting_set_counter_witness :
    ((⟨[4], 8, 1⟩ : CountingBitmap).set_unchecked 3 1).number_of_ones = 1 + 1
      ∧ (⟨[4], 8, 1⟩ : CountingBitmap).set_atomic_unchecked 3 1
          = (⟨[4], 8, 1⟩ : CountingBitmap).set_unchecked 3 1 := by
  have h := C9_counting_set_counter ⟨[4], 8, 1⟩ 3 1 (by decide) (by decide) (by decide)
    (by decide) (by decide) (by decide)
  exact ⟨h.2.2.1 (by decide) rfl, h.1⟩

/-! ## VByte codec (src/dict/rear_coded_list.rs lines 480-670) -/

def UPPER_BOUND_1 : Nat := 128
def UPPER_BOUND_2 : Nat := 128 ^ 2 + UPPER_BOUND_1
def UPPER_BOUND_3 : Nat := 128 ^ 3 + UPPER_BOUND_2
def UPPER_BOUND_4 : Nat := 128 ^ 4 + UPPER_BOUND_3
def UPPER_BOUND_5 : Nat := 128 ^ 5 + UPPER_BOUND_4
def UPPER_BOUND_6 : Nat := 128 ^ 6 + UPPER_BOUND_5
def UPPER_BOUND_7 : Nat := 128 ^ 7 + UPPER_BOUND_6
def UPPER_BOUND_8 : Nat := 128 ^ 8 + UPPER_BOUND_7

/-- Loop of encode_int_len (rear_coded_list.rs lines 482-493), fuelled: ten
iterations cover every value a 64-bit machine can hold (after nine doublings
of the 7-bit budget the bound exceeds 2^70). -/
def encodeIntLenGo : Nat → Nat → Nat → Nat → Nat
  | 0, _, _, len => len
  | f + 1, value, max, len =>
    if value < max then len
    else encodeIntLenGo f (value - max) (max <<< 7) (len + 1)

/-- encode_int_len (rear_coded_list.rs lines 482-493). -/
def encode_int_len (value : Nat) : Nat := encodeIntLenGo 10 value 128 1

/-- encode_int (rear_coded_list.rs lines 504-590): the list of bytes pushed
into the data buffer.  `as u8` casts are modelled by `% 256`. -/
def encode_int (value : Nat) : List Nat :=
  if value < UPPER_BOUND_1 then [value % 256]
  else if value < UPPER_BOUND_2 then
    [0x80 ||| (((value - UPPER_BOUND_1) >>> 8) % 256), (value - UPPER_BOUND_1) % 256]
  else if value < UPPER_BOUND_3 then
    [0xC0 ||| (((value - UPPER_BOUND_2) >>> 16) % 256), ((value - UPPER_BOUND_2) >>> 8) % 256,
      (value - UPPER_BOUND_2) % 256]
  else if value < UPPER_BOUND_4 then
    [0xE0 ||| (((value - UPPER_BOUND_3) >>> 24) % 256), ((value - UPPER_BOUND_3) >>> 16) % 256,
      ((value - UPPER_BOUND_3) >>> 8) % 256, (value - UPPER_BOUND_3) % 256]
  else if value < UPPER_BOUND_5 then
    [0xF0 ||| (((value - UPPER_BOUND_4) >>> 32) % 256), ((value - UPPER_BOUND_4) >>> 24) % 256,
      ((value - UPPER_BOUND_4) >>> 16) % 256, ((value - UPPER_BOUND_4) >>> 8) % 256,
      (value - UPPER_BOUND_4) % 256]
  else if value < UPPER_BOUND_6 then
    [0xF8 ||| (((value - UPPER_BOUND_5) >>> 40) % 256), ((value - UPPER_BOUND_5) >>> 32) % 256,
      ((value - UPPER_BOUND_5) >>> 24) % 256, ((value - UPPER_BOUND_5) >>> 16) % 256,
      ((value - UPPER_BOUND_5) >>> 8) % 256, (value - UPPER_BOUND_5) % 256]
  else if value < UPPER_BOUND_7 then
    [0xFC ||| (((value - UPPER_BOUND_6) >>> 48) % 256), ((value - UPPER_BOUND_6) >>> 40) % 256,
      ((value - UPPER_BOUND_6) >>> 32) % 256, ((value - UPPER_BOUND_6) >>> 24) % 256,
      ((value - UPPER_BOUND_6) >>> 16) % 256, ((value - UPPER_BOUND_6) >>> 8) % 256,
      (value - UPPER_BOUND_6) % 256]
  else if value < UPPER_BOUND_8 then
    [0xFE, ((value - UPPER_BOUND_7) >>> 48) % 256, ((value - UPPER_BOUND_7) >>> 40) % 256,
      ((value - UPPER_BOUND_7) >>> 32) % 256, ((value - UPPER_BOUND_7) >>> 24) % 256,
      ((value - UPPER_BOUND_7) >>> 16) % 256, ((value - UPPER_BOUND_7) >>> 8) % 256,
      (value - UPPER_BOUND_7) % 256]
  else
    [0xFF, (value >>> 56) % 256, (value >>> 48) % 256, (value >>> 40) % 256,
      (value >>> 32) % 256, (value >>> 24) % 256, (value >>> 16) % 256,
      (value >>> 8) % 256, value % 256]

/-- decode_int (rear_coded_list.rs lines 592-666).  Out-of-range byte reads
(a panic in the source) are modelled by the default 0. -/
def decode_int (data : List Nat) : Nat × List Nat :=
  let x := data.getD 0 0
  if x < 0x80 then (x, data.drop 1)
  else if x < 0xC0 then
    (((x &&& 0x3F) <<< 8 ||| data.getD 1 0) + UPPER_BOUND_1, data.drop 2)
  else if x < 0xE0 then
    (((x &&& 0x1F) <<< 16 ||| data.getD 1 0 <<< 8 ||| data.getD 2 0) + UPPER_BOUND_2,
     data.drop 3)
  else if x < 0xF0 then
    (((x &&& 0x0F) <<< 24 ||| data.getD 1 0 <<< 16 ||| data.getD 2 0 <<< 8
        ||| data.getD 3 0) + UPPER_BOUND_3,
     data.drop 4)
  else if x < 0xF8 then
    (((x &&& 0x07) <<< 32 ||| data.getD 1 0 <<< 24 ||| data.getD 2 0 <<< 16
        ||| data.getD 3 0 <<< 8 ||| data.getD 4 0) + UPPER_BOUND_4,
     data.drop 5)
  else if x < 0xFC then
    (((x &&& 0x03) <<< 40 ||| data.getD 1 0 <<< 32 ||| data.getD 2 0 <<< 24
        ||| data.getD 3 0 <<< 16 ||| data.getD 4 0 <<< 8 ||| data.getD 5 0) + UPPER_BOUND_5,
     data.drop 6)
  else if x < 0xFE then
    (((x &&& 0x01) <<< 48 ||| data.getD 1 0 <<< 40 ||| data.getD 2 0 <<< 32
        ||| data.getD 3 0 <<< 24 ||| data.getD 4 0 <<< 16 ||| data.getD 5 0 <<< 8
        ||| data.getD 6 0) + UPPER_BOUND_6,
     data.drop 7)
  else if x < 0xFF then
    ((data.getD 1 0 <<< 48 ||| data.getD 2 0 <<< 40 ||| data.getD 3 0 <<< 32
        ||| data.getD 4 0 <<< 24 ||| data.getD 5 0 <<< 16 ||| data.getD 6 0 <<< 8
        ||| data.getD 7 0) + UPPER_BOUND_7,
     data.drop 8)
  else
    (data.getD 1 0 <<< 56 ||| data.getD 2 0 <<< 48 ||| data.getD 3 0 <<< 40
        ||| data.getD 4 0 <<< 32 ||| data.getD 5 0 <<< 24 ||| data.getD 6 0 <<< 16
        ||| data.getD 7 0 <<< 8 ||| data.getD 8 0,
     data.drop 9)

theorem or_of_mod_eq_zero (x y k : Nat) (hx : x % 2 ^ k = 0) (hy : y < 2 ^ k) :
    x ||| y = x + y := by
  have hfac : x = 2 ^ k * (x / 2 ^ k) := by
    have := Nat.div_add_mod x (2 ^ k)
    omega
  calc x ||| y = 2 ^ k * (x / 2 ^ k) ||| y := by rw [← hfac]
  _ = 2 ^ k * (x / 2 ^ k) + y := (Nat.mul_add_lt_is_or hy _).symm
  _ = x + y := by rw [← hfac]

theorem decode_int_shape1 (b0 : Nat) (rest : List Nat) (h1 : b0 < 0x80) :
    decode_int (b0 :: rest) = (b0, rest) := by
  simp only [decode_int, List.getD_cons_zero]
  rw [if_pos h1]
  rfl

theorem decode_int_shape2 (b0 : Nat) (b1 : Nat) (rest : List Nat)
    (h1 : 0x80 ≤ b0) (h2 : b0 < 0xC0) :
    decode_int (b0 :: b1 :: rest)
      = (((b0 &&& 0x3F) <<< 8 ||| b1) + UPPER_BOUND_1, rest) := by
  simp only [decode_int, List.getD_cons_zero]
  rw [if_neg (show ¬b0 < 0x80 by omega), if_pos h2]
  rfl

theorem decode_int_shape3 (b0 : Nat) (b1 : Nat) (b2 : Nat) (rest : List Nat)
    (h1 : 0xC0 ≤ b0) (h2 : b0 < 0xE0) :
    decode_int (b0 :: b1 :: b2 :: rest)
      = (((b0 &&& 0x1F) <<< 16 ||| b1 <<< 8 ||| b2) + UPPER_BOUND_2, rest) := by
  simp only [decode_int, List.getD_cons_zero]
  rw [if_neg (show ¬b0 < 0x80 by omega), if_neg (show ¬b0 < 0xC0 by omega), if_pos h2]
  rfl

theorem decode_int_shape4 (b0 : Nat) (b1 : Nat) (b2 : Nat) (b3 : Nat) (rest : List Nat)
    (h1 : 0xE0 ≤ b0) (h2 : b0 < 0xF0) :
    decode_int (b0 :: b1 :: b2 :: b3 :: rest)
      = (((b0 &&& 0x0F) <<< 24 ||| b1 <<< 16 ||| b2 <<< 8 ||| b3) + UPPER_BOUND_3, rest) := by
  simp only [decode_int, List.getD_cons_zero]
  rw [if_neg (show ¬b0 < 0x80 by omega), if_neg (show ¬b0 < 0xC0 by omega), if_neg (show ¬b0 < 0xE0 by omega), if_pos h2]
  rfl

theorem decode_int_shape5 (b0 : Nat) (b1 : Nat) (b2 : Nat) (b3 : Nat) (b4 : Nat) (rest : List Nat)
    (h1 : 0xF0 ≤ b0) (h2 : b0 < 0xF8) :
    decode_int (b0 :: b1 :: b2 :: b3 :: b4 :: rest)
      = (((b0 &&& 0x07) <<< 32 ||| b1 <<< 24 ||| b2 <<< 16 ||| b3 <<< 8 ||| b4) + UPPER_BOUND_4, rest) := by
  simp only [decode_int, List.getD_cons_zero]
  rw [if_neg (show ¬b0 < 0x80 by omega), if_neg (show ¬b0 < 0xC0 by omega), if_neg (show ¬b0 < 0xE0 by omega), if_neg (show ¬b0 < 0xF0 by omega), if_pos h2]
  rfl

theorem decode_int_shape6 (b0 : Nat) (b1 : Nat) (b2 : Nat) (b3 : Nat) (b4 : Nat) (b5 : Nat) (rest : List Nat)
    (h1 : 0xF8 ≤ b0) (h2 : b0 < 0xFC) :
    decode_int (b0 :: b1 :: b2 :: b3 :: b4 :: b5 :: rest)
      = (((b0 &&& 0x03) <<< 40 ||| b1 <<< 32 ||| b2 <<< 24 ||| b3 <<< 16 ||| b4 <<< 8 ||| b5) + UPPER_BOUND_5, rest) := by
  simp only [decode_int, List.getD_cons_zero]
  rw [if_neg (show ¬b0 < 0x80 by omega), if_neg (show ¬b0 < 0xC0 by omega), if_neg (show ¬b0 < 0xE0 by omega), if_neg (show ¬b0 < 0xF0 by omega), if_neg (show ¬b0 < 0xF8 by omega), if_pos h2]
  rfl

theorem decode_int_shape7 (b0 : Nat) (b1 : Nat) (b2 : Nat) (b3 : Nat) (b4 : Nat) (b5 : Nat) (b6 : Nat) (rest : List Nat)
    (h1 : 0xFC ≤ b0) (h2 : b0 < 0xFE) :
    decode_int (b0 :: b1 :: b2 :: b3 :: b4 :: b5 :: b6 :: rest)
      = (((b0 &&& 0x01) <<< 48 ||| b1 <<< 40 ||| b2 <<< 32 ||| b3 <<< 24 ||| b4 <<< 16 ||| b5 <<< 8 ||| b6) + UPPER_BOUND_6, rest) := by
  simp only [decode_int, List.getD_cons_zero]
  rw [if_neg (show ¬b0 < 0x80 by omega), if_neg (show ¬b0 < 0xC0 by omega), if_neg (show ¬b0 < 0xE0 by omega), if_neg (show ¬b0 < 0xF0 by omega), if_neg (show ¬b0 < 0xF8 by omega), if_neg (show ¬b0 < 0xFC by omega), if_pos h2]
  rfl

theorem decode_int_shape8 (b0 : Nat) (b1 : Nat) (b2 : Nat) (b3 : Nat) (b4 : Nat) (b5 : Nat) (b6 : Nat) (b7 : Nat) (rest : List Nat)
    (h1 : b0 = 0xFE) :
    decode_int (b0 :: b1 :: b2 :: b3 :: b4 :: b5 :: b6 :: b7 :: rest)
      = ((b1 <<< 48 ||| b2 <<< 40 ||| b3 <<< 32 ||| b4 <<< 24 ||| b5 <<< 16 ||| b6 <<< 8 ||| b7) + UPPER_BOUND_7, rest) := by
  subst h1
  simp only [decode_int, List.getD_cons_zero]
  rw [if_neg (by decide : ¬(0xFE : Nat) < 0x80), if_neg (by decide : ¬(0xFE : Nat) < 0xC0),
    if_neg (by decide : ¬(0xFE : Nat) < 0xE0), if_neg (by decide : ¬(0xFE : Nat) < 0xF0),
    if_neg (by decide : ¬(0xFE : Nat) < 0xF8), if_neg (by decide : ¬(0xFE : Nat) < 0xFC),
    if_pos (by decide : (0xFE : Nat) < 0xFF)]
  rfl

theorem bytes_or_2 (a : Nat) (b : Nat) (hb : b < 256) :
    a <<< 8 ||| b = a * 256 + b := by
  simp only [Nat.shiftLeft_eq]
  rw [or_of_mod_eq_zero (a * 2 ^ 8) (b) 8 (by omega) (by omega)]

theorem bytes_or_3 (a : Nat) (b : Nat) (c : Nat) (hb : b < 256) (hc : c < 256) :
    a <<< 16 ||| b <<< 8 ||| c = a * 65536 + b * 256 + c := by
  simp only [Nat.shiftLeft_eq]
  rw [or_of_mod_eq_zero (a * 2 ^ 16) (b * 2 ^ 8) 16 (by omega) (by omega)]
  rw [or_of_mod_eq_zero (a * 2 ^ 16 + b * 2 ^ 8) (c) 8 (by omega) (by omega)]

theorem bytes_or_4 (a : Nat) (b : Nat) (c : Nat) (d : Nat) (hb : b < 256) (hc : c < 256) (hd : d < 256) :
    a <<< 24 ||| b <<< 16 ||| c <<< 8 ||| d = a * 16777216 + b * 65536 + c * 256 + d := by
  simp only [Nat.shiftLeft_eq]
  rw [or_of_mod_eq_zero (a * 2 ^ 24) (b * 2 ^ 16) 24 (by omega) (by omega)]
  rw [or_of_mod_eq_zero (a * 2 ^ 24 + b * 2 ^ 16) (c * 2 ^ 8) 16 (by omega) (by omega)]
  rw [or_of_mod_eq_zero (a * 2 ^ 24 + b * 2 ^ 16 + c * 2 ^ 8) (d) 8 (by omega) (by omega)]

theorem bytes_or_5 (a : Nat) (b : Nat) (c : Nat) (d : Nat) (e : Nat) (hb : b < 256) (hc : c < 256) (hd : d < 256) (he : e < 256) :
    a <<< 32 ||| b <<< 24 ||| c <<< 16 ||| d <<< 8 ||| e = a * 4294967296 + b * 16777216 + c * 65536 + d * 256 + e := by
  simp only [Nat.shiftLeft_eq]
  rw [or_of_mod_eq_zero (a * 2 ^ 32) (b * 2 ^ 24) 32 (by omega) (by omega)]
  rw [or_of_mod_eq_zero (a * 2 ^ 32 + b * 2 ^ 24) (c * 2 ^ 16) 24 (by omega) (by omega)]
  rw [or_of_mod_eq_zero (a * 2 ^ 32 + b * 2 ^ 24 + c * 2 ^ 16) (d * 2 ^ 8) 16 (by omega) (by omega)]
  rw [or_of_mod_eq_zero (a * 2 ^ 32 + b * 2 ^ 24 + c * 2 ^ 16 + d * 2 ^ 8) (e) 8 (by omega) (by omega)]

theorem bytes_or_6 (a : Nat) (b : Nat) (c : Nat) (d : Nat) (e : Nat) (f : Nat) (hb : b < 256) (hc : c < 256) (hd : d < 256) (he : e < 256) (hf : f < 256) :
    a <<< 40 ||| b <<< 32 ||| c <<< 24 ||| d <<< 16 ||| e <<< 8 ||| f = a * 1099511627776 + b * 4294967296 + c * 16777216 + d * 65536 + e * 256 + f := by
  simp only [Nat.shiftLeft_eq]
  rw [or_of_mod_eq_zero (a * 2 ^ 40) (b * 2 ^ 32) 40 (by omega) (by omega)]
  rw [or_of_mod_eq_zero (a * 2 ^ 40 + b * 2 ^ 32) (c * 2 ^ 24) 32 (by omega) (by omega)]
  rw [or_of_mod_eq_zero (a * 2 ^ 40 + b * 2 ^ 32 + c * 2 ^ 24) (d * 2 ^ 16) 24 (by omega) (by omega)]
  rw [or_of_mod_eq_zero (a * 2 ^ 40 + b * 2 ^ 32 + c * 2 ^ 24 + d * 2 ^ 16) (e * 2 ^ 8) 16 (by omega) (by omega)]
  rw [or_of_mod_eq_zero (a * 2 ^ 40 + b * 2 ^ 32 + c * 2 ^ 24 + d * 2 ^ 16 + e * 2 ^ 8) (f) 8 (by omega) (by omega)]

theorem bytes_or_7 (a : Nat) (b : Nat) (c : Nat) (d : Nat) (e : Nat) (f : Nat) (g : Nat) (hb : b < 256) (hc : c < 256) (hd : d < 256) (he : e < 256) (hf : f < 256) (hg : g < 256) :
    a <<< 48 ||| b <<< 40 ||| c <<< 32 ||| d <<< 24 ||| e <<< 16 ||| f <<< 8 ||| g = a * 281474976710656 + b * 1099511627776 + c * 4294967296 + d * 16777216 + e * 65536 + f * 256 + g := by
  simp only [Nat.shiftLeft_eq]
  rw [or_of_mod_eq_zero (a * 2 ^ 48) (b * 2 ^ 40) 48 (by omega) (by omega)]
  rw [or_of_mod_eq_zero (a * 2 ^ 48 + b * 2 ^ 40) (c * 2 ^ 32) 40 (by omega) (by omega)]
  rw [or_of_mod_eq_zero (a * 2 ^ 48 + b * 2 ^ 40 + c * 2 ^ 32) (d * 2 ^ 24) 32 (by omega) (by omega)]
  rw [or_of_mod_eq_zero (a * 2 ^ 48 + b * 2 ^ 40 + c * 2 ^ 32 + d * 2 ^ 24) (e * 2 ^ 16) 24 (by omega) (by omega)]
  rw [or_of_mod_eq_zero (a * 2 ^ 48 + b * 2 ^ 40 + c * 2 ^ 32 + d * 2 ^ 24 + e * 2 ^ 16) (f * 2 ^ 8) 16 (by omega) (by omega)]
  rw [or_of_mod_eq_zero (a * 2 ^ 48 + b * 2 ^ 40 + c * 2 ^ 32 + d * 2 ^ 24 + e * 2 ^ 16 + f * 2 ^ 8) (g) 8 (by omega) (by omega)]

/-- Decoding right after encoding returns the value and the untouched rest of
the buffer, for every value below 2^56. -/
theorem decode_encode_int (v : Nat) (hv : v < 2 ^ 56) (rest : List Nat) :
    decode_int (encode_int v ++ rest) = (v, rest) := by
  have hB1 : UPPER_BOUND_1 = 128 := by norm_num [UPPER_BOUND_1]
  have hB2 : UPPER_BOUND_2 = 16512 := by norm_num [UPPER_BOUND_2, UPPER_BOUND_1]
  have hB3 : UPPER_BOUND_3 = 2113664 := by norm_num [UPPER_BOUND_3, UPPER_BOUND_2, UPPER_BOUND_1]
  have hB4 : UPPER_BOUND_4 = 270549120 := by norm_num [UPPER_BOUND_4, UPPER_BOUND_3, UPPER_BOUND_2, UPPER_BOUND_1]
  have hB5 : UPPER_BOUND_5 = 34630287488 := by norm_num [UPPER_BOUND_5, UPPER_BOUND_4, UPPER_BOUND_3, UPPER_BOUND_2, UPPER_BOUND_1]
  have hB6 : UPPER_BOUND_6 = 4432676798592 := by norm_num [UPPER_BOUND_6, UPPER_BOUND_5, UPPER_BOUND_4, UPPER_BOUND_3, UPPER_BOUND_2, UPPER_BOUND_1]
  have hB7 : UPPER_BOUND_7 = 567382630219904 := by norm_num [UPPER_BOUND_7, UPPER_BOUND_6, UPPER_BOUND_5, UPPER_BOUND_4, UPPER_BOUND_3, UPPER_BOUND_2, UPPER_BOUND_1]
  have hB8 : UPPER_BOUND_8 = 72624976668147840 := by norm_num [UPPER_BOUND_8, UPPER_BOUND_7, UPPER_BOUND_6, UPPER_BOUND_5, UPPER_BOUND_4, UPPER_BOUND_3, UPPER_BOUND_2, UPPER_BOUND_1]
  by_cases h1 : v < UPPER_BOUND_1
  · rw [encode_int, if_pos h1]
    simp only [List.cons_append, List.nil_append]
    have hm : v % 256 = v := Nat.mod_eq_of_lt (by omega)
    rw [hm, decode_int_shape1 _ _ (by omega)]
  by_cases h2 : v < UPPER_BOUND_2
  · rw [encode_int, if_neg h1, if_pos h2]
    simp only [List.cons_append, List.nil_append, Nat.shiftRight_eq_div_pow]
    rw [or_of_mod_eq_zero 0x80 (((v - UPPER_BOUND_1) / 2 ^ 8) % 256) 7 (by decide) (by omega)]
    rw [decode_int_shape2 _ _ _ (by omega) (by omega)]
    have hand : (0x80 + (((v - UPPER_BOUND_1) / 2 ^ 8) % 256)) &&& 0x3F
        = (0x80 + (((v - UPPER_BOUND_1) / 2 ^ 8) % 256)) % 64 := by
      rw [show (0x3F : Nat) = 2 ^ 6 - 1 by norm_num, Nat.and_pow_two_sub_one_eq_mod]
    rw [hand]
    rw [bytes_or_2 _ _ (by omega)]
    simp only [Prod.mk.injEq]
    refine ⟨?_, trivial⟩
    omega
  by_cases h3 : v < UPPER_BOUND_3
  · rw [encode_int, if_neg h1, if_neg h2, if_pos h3]
    simp only [List.cons_append, List.nil_append, Nat.shiftRight_eq_div_pow]
    rw [or_of_mod_eq_zero 0xC0 (((v - UPPER_BOUND_2) / 2 ^ 16) % 256) 6 (by decide) (by omega)]
    rw [decode_int_shape3 _ _ _ _ (by omega) (by omega)]
    have hand : (0xC0 + (((v - UPPER_BOUND_2) / 2 ^ 16) % 256)) &&& 0x1F
        = (0xC0 + (((v - UPPER_BOUND_2) / 2 ^ 16) % 256)) % 32 := by
      rw [show (0x1F : Nat) = 2 ^ 5 - 1 by norm_num, Nat.and_pow_two_sub_one_eq_mod]
    rw [hand]
    rw [bytes_or_3 _ _ _ (by omega) (by omega)]
    simp only [Prod.mk.injEq]
    refine ⟨?_, trivial⟩
    omega
  by_cases h4 : v < UPPER_BOUND_4
  · rw [encode_int, if_neg h1, if_neg h2, if_neg h3, if_pos h4]
    simp only [List.cons_append, List.nil_append, Nat.shiftRight_eq_div_pow]
    rw [or_of_mod_eq_zero 0xE0 (((v - UPPER_BOUND_3) / 2 ^ 24) % 256) 5 (by decide) (by omega)]
    rw [decode_int_shape4 _ _ _ _ _ (by omega) (by omega)]
    have hand : (0xE0 + (((v - UPPER_BOUND_3) / 2 ^ 24) % 256)) &&& 0x0F
        = (0xE0 + (((v - UPPER_BOUND_3) / 2 ^ 24) % 256)) % 16 := by
      rw [show (0x0F : Nat) = 2 ^ 4 - 1 by norm_num, Nat.and_pow_two_sub_one_eq_mod]
    rw [hand]
    rw [bytes_or_4 _ _ _ _ (by omega) (by omega) (by omega)]
    simp only [Prod.mk.injEq]
    refine ⟨?_, trivial⟩
    omega
  by_cases h5 : v < UPPER_BOUND_5
  · rw [encode_int, if_neg h1, if_neg h2, if_neg h3, if_neg h4, if_pos h5]
    simp only [List.cons_append, List.nil_append, Nat.shiftRight_eq_div_pow]
    rw [or_of_mod_eq_zero 0xF0 (((v - UPPER_BOUND_4) / 2 ^ 32) % 256) 4 (by decide) (by omega)]
    rw [decode_int_shape5 _ _ _ _ _ _ (by omega) (by omega)]
    have hand : (0xF0 + (((v - UPPER_BOUND_4) / 2 ^ 32) % 256)) &&& 0x07
        = (0xF0 + (((v - UPPER_BOUND_4) / 2 ^ 32) % 256)) % 8 := by
      rw [show (0x07 : Nat) = 2 ^ 3 - 1 by norm_num, Nat.and_pow_two_sub_one_eq_mod]
    rw [hand]
    rw [bytes_or_5 _ _ _ _ _ (by omega) (by omega) (by omega) (by omega)]
    simp only [Prod.mk.injEq]
    refine ⟨?_, trivial⟩
    omega
  by_cases h6 : v < UPPER_BOUND_6
  · rw [encode_int, if_neg h1, if_neg h2, if_neg h3, if_neg h4, if_neg h5, if_pos h6]
    simp only [List.cons_append, List.nil_append, Nat.shiftRight_eq_div_pow]
    rw [or_of_mod_eq_zero 0xF8 (((v - UPPER_BOUND_5) / 2 ^ 40) % 256) 3 (by decide) (by omega)]
    rw [decode_int_shape6 _ _ _ _ _ _ _ (by omega) (by omega)]
    have hand : (0xF8 + (((v - UPPER_BOUND_5) / 2 ^ 40) % 256)) &&& 0x03
        = (0xF8 + (((v - UPPER_BOUND_5) / 2 ^ 40) % 256)) % 4 := by
      rw [show (0x03 : Nat) = 2 ^ 2 - 1 by norm_num, Nat.and_pow_two_sub_one_eq_mod]
    rw [hand]
    rw [bytes_or_6 _ _ _ _ _ _ (by omega) (by omega) (by omega) (by omega) (by omega)]
    simp only [Prod.mk.injEq]
    refine ⟨?_, trivial⟩
    omega
  by_cases h7 : v < UPPER_BOUND_7
  · rw [encode_int, if_neg h1, if_neg h2, if_neg h3, if_neg h4, if_neg h5, if_neg h6, if_pos h7]
    simp only [List.cons_append, List.nil_append, Nat.shiftRight_eq_div_pow]
    rw [or_of_mod_eq_zero 0xFC (((v - UPPER_BOUND_6) / 2 ^ 48) % 256) 2 (by decide) (by omega)]
    rw [decode_int_shape7 _ _ _ _ _ _ _ _ (by omega) (by omega)]
    have hand : (0xFC + (((v - UPPER_BOUND_6) / 2 ^ 48) % 256)) &&& 0x01
        = (0xFC + (((v - UPPER_BOUND_6) / 2 ^ 48) % 256)) % 2 := by
      rw [show (0x01 : Nat) = 2 ^ 1 - 1 by norm_num, Nat.and_pow_two_sub_one_eq_mod]
    rw [hand]
    rw [bytes_or_7 _ _ _ _ _ _ _ (by omega) (by omega) (by omega) (by omega) (by omega) (by omega)]
    simp only [Prod.mk.injEq]
    refine ⟨?_, trivial⟩
    omega
  have h8 : v < UPPER_BOUND_8 := by omega
  rw [encode_int, if_neg h1, if_neg h2, if_neg h3, if_neg h4, if_neg h5, if_neg h6, if_neg h7, if_pos h8]
  simp only [List.cons_append, List.nil_append, Nat.shiftRight_eq_div_pow]
  rw [decode_int_shape8 _ _ _ _ _ _ _ _ _ rfl]
  rw [bytes_or_7 _ _ _ _ _ _ _ (by omega) (by omega) (by omega) (by omega) (by omega) (by omega)]
  simp only [Prod.mk.injEq]
  refine ⟨?_, trivial⟩
  omega

/-- The number of bytes written by encode_int matches encode_int_len. -/
theorem encode_len_eq (v : Nat) (hv : v < 2 ^ 56) :
    (encode_int v).length = encode_int_len v := by
  have hB1 : UPPER_BOUND_1 = 128 := by norm_num [UPPER_BOUND_1]
  have hB2 : UPPER_BOUND_2 = 16512 := by norm_num [UPPER_BOUND_2, UPPER_BOUND_1]
  have hB3 : UPPER_BOUND_3 = 2113664 := by norm_num [UPPER_BOUND_3, UPPER_BOUND_2, UPPER_BOUND_1]
  have hB4 : UPPER_BOUND_4 = 270549120 := by norm_num [UPPER_BOUND_4, UPPER_BOUND_3, UPPER_BOUND_2, UPPER_BOUND_1]
  have hB5 : UPPER_BOUND_5 = 34630287488 := by norm_num [UPPER_BOUND_5, UPPER_BOUND_4, UPPER_BOUND_3, UPPER_BOUND_2, UPPER_BOUND_1]
  have hB6 : UPPER_BOUND_6 = 4432676798592 := by norm_num [UPPER_BOUND_6, UPPER_BOUND_5, UPPER_BOUND_4, UPPER_BOUND_3, UPPER_BOUND_2, UPPER_BOUND_1]
  have hB7 : UPPER_BOUND_7 = 567382630219904 := by norm_num [UPPER_BOUND_7, UPPER_BOUND_6, UPPER_BOUND_5, UPPER_BOUND_4, UPPER_BOUND_3, UPPER_BOUND_2, UPPER_BOUND_1]
  have hB8 : UPPER_BOUND_8 = 72624976668147840 := by norm_num [UPPER_BOUND_8, UPPER_BOUND_7, UPPER_BOUND_6, UPPER_BOUND_5, UPPER_BOUND_4, UPPER_BOUND_3, UPPER_BOUND_2, UPPER_BOUND_1]
  by_cases h1 : v < UPPER_BOUND_1
  · rw [encode_int, if_pos h1]
    have hlen : encode_int_len v = 1 := by
      rw [show encode_int_len v = (if v < 128 then 1 else encodeIntLenGo 9 (v - 128) 16384 2) from rfl, if_pos (by omega)]
    rw [hlen]
    rfl
  by_cases h2 : v < UPPER_BOUND_2
  · rw [encode_int, if_neg h1, if_pos h2]
    have hlen : encode_int_len v = 2 := by
      rw [show encode_int_len v = (if v < 128 then 1 else encodeIntLenGo 9 (v - 128) 16384 2) from rfl, if_neg (by omega)]
      rw [show encodeIntLenGo 9 (v - 128) 16384 2 = (if v - 128 < 16384 then 2 else encodeIntLenGo 8 (v - 128 - 16384) 2097152 3) from rfl, if_pos (by omega)]
    rw [hlen]
    rfl
  by_cases h3 : v < UPPER_BOUND_3
  · rw [encode_int, if_neg h1, if_neg h2, if_pos h3]
    have hlen : encode_int_len v = 3 := by
      rw [show encode_int_len v = (if v < 128 then 1 else encodeIntLenGo 9 (v - 128) 16384 2) from rfl, if_neg (by omega)]
      rw [show encodeIntLenGo 9 (v - 128) 16384 2 = (if v - 128 < 16384 then 2 else encodeIntLenGo 8 (v - 128 - 16384) 2097152 3) from rfl, if_neg (by omega)]
      rw [show encodeIntLenGo 8 (v - 128 - 16384) 2097152 3 = (if v - 128 - 16384 < 2097152 then 3 else encodeIntLenGo 7 (v - 128 - 16384 - 2097152) 268435456 4) from rfl, if_pos (by omega)]
    rw [hlen]
    rfl
  by_cases h4 : v < UPPER_BOUND_4
  · rw [encode_int, if_neg h1, if_neg h2, if_neg h3, if_pos h4]
    have hlen : encode_int_len v = 4 := by
      rw [show encode_int_len v = (if v < 128 then 1 else encodeIntLenGo 9 (v - 128) 16384 2) from rfl, if_neg (by omega)]
      rw [show encodeIntLenGo 9 (v - 128) 16384 2 = (if v - 128 < 16384 then 2 else encodeIntLenGo 8 (v - 128 - 16384) 2097152 3) from rfl, if_neg (by omega)]
      rw [show encodeIntLenGo 8 (v - 128 - 16384) 2097152 3 = (if v - 128 - 16384 < 2097152 then 3 else encodeIntLenGo 7 (v - 128 - 16384 - 2097152) 268435456 4) from rfl, if_neg (by omega)]
      rw [show encodeIntLenGo 7 (v - 128 - 16384 - 2097152) 268435456 4 = (if v - 128 - 16384 - 2097152 < 268435456 then 4 else encodeIntLenGo 6 (v - 128 - 16384 - 2097152 - 268435456) 34359738368 5) from rfl, if_pos (by omega)]
    rw [hlen]
    rfl
  by_cases h5 : v < UPPER_BOUND_5
  · rw [encode_int, if_neg h1, if_neg h2, if_neg h3, if_neg h4, if_pos h5]
    have hlen : encode_int_len v = 5 := by
      rw [show encode_int_len v = (if v < 128 then 1 else encodeIntLenGo 9 (v - 128) 16384 2) from rfl, if_neg (by omega)]
      rw [show encodeIntLenGo 9 (v - 128) 16384 2 = (if v - 128 < 16384 then 2 else encodeIntLenGo 8 (v - 128 - 16384) 2097152 3) from rfl, if_neg (by omega)]
      rw [show encodeIntLenGo 8 (v - 128 - 16384) 2097152 3 = (if v - 128 - 16384 < 2097152 then 3 else encodeIntLenGo 7 (v - 128 - 16384 - 2097152) 268435456 4) from rfl, if_neg (by omega)]
      rw [show encodeIntLenGo 7 (v - 128 - 16384 - 2097152) 268435456 4 = (if v - 128 - 16384 - 2097152 < 268435456 then 4 else encodeIntLenGo 6 (v - 128 - 16384 - 2097152 - 268435456) 34359738368 5) from rfl, if_neg (by omega)]
      rw [show encodeIntLenGo 6 (v - 128 - 16384 - 2097152 - 268435456) 34359738368 5 = (if v - 128 - 16384 - 2097152 - 268435456 < 34359738368 then 5 else encodeIntLenGo 5 (v - 128 - 16384 - 2097152 - 268435456 - 34359738368) 4398046511104 6) from rfl, if_pos (by omega)]
    rw [hlen]
    rfl
  by_cases h6 : v < UPPER_BOUND_6
  · rw [encode_int, if_neg h1, if_neg h2, if_neg h3, if_neg h4, if_neg h5, if_pos h6]
    have hlen : encode_int_len v = 6 := by
      rw [show encode_int_len v = (if v < 128 then 1 else encodeIntLenGo 9 (v - 128) 16384 2) from rfl, if_neg (by omega)]
      rw [show encodeIntLenGo 9 (v - 128) 16384 2 = (if v - 128 < 16384 then 2 else encodeIntLenGo 8 (v - 128 - 16384) 2097152 3) from rfl, if_neg (by omega)]
      rw [show encodeIntLenGo 8 (v - 128 - 16384) 2097152 3 = (if v - 128 - 16384 < 2097152 then 3 else encodeIntLenGo 7 (v - 128 - 16384 - 2097152) 268435456 4) from rfl, if_neg (by omega)]
      rw [show encodeIntLenGo 7 (v - 128 - 16384 - 2097152) 268435456 4 = (if v - 128 - 16384 - 2097152 < 268435456 then 4 else encodeIntLenGo 6 (v - 128 - 16384 - 2097152 - 268435456) 34359738368 5) from rfl, if_neg (by omega)]
      rw [show encodeIntLenGo 6 (v - 128 - 16384 - 2097152 - 268435456) 34359738368 5 = (if v - 128 - 16384 - 2097152 - 268435456 < 34359738368 then 5 else encodeIntLenGo 5 (v - 128 - 16384 - 2097152 - 268435456 - 34359738368) 4398046511104 6) from rfl, if_neg (by omega)]
      rw [show encodeIntLenGo 5 (v - 128 - 16384 - 2097152 - 268435456 - 34359738368) 4398046511104 6 = (if v - 128 - 16384 - 2097152 - 268435456 - 34359738368 < 4398046511104 then 6 else encodeIntLenGo 4 (v - 128 - 16384 - 2097152 - 268435456 - 34359738368 - 4398046511104) 562949953421312 7) from rfl, if_pos (by omega)]
    rw [hlen]
    rfl
  by_cases h7 : v < UPPER_BOUND_7
  · rw [encode_int, if_neg h1, if_neg h2, if_neg h3, if_neg h4, if_neg h5, if_neg h6, if_pos h7]
    have hlen : encode_int_len v = 7 := by
      rw [show encode_int_len v = (if v < 128 then 1 else encodeIntLenGo 9 (v - 128) 16384 2) from rfl, if_neg (by omega)]
      rw [show encodeIntLenGo 9 (v - 128) 16384 2 = (if v - 128 < 16384 then 2 else encodeIntLenGo 8 (v - 128 - 16384) 2097152 3) from rfl, if_neg (by omega)]
      rw [show encodeIntLenGo 8 (v - 128 - 16384) 2097152 3 = (if v - 128 - 16384 < 2097152 then 3 else encodeIntLenGo 7 (v - 128 - 16384 - 2097152) 268435456 4) from rfl, if_neg (by omega)]
      rw [show encodeIntLenGo 7 (v - 128 - 16384 - 2097152) 268435456 4 = (if v - 128 - 16384 - 2097152 < 268435456 then 4 else encodeIntLenGo 6 (v - 128 - 16384 - 2097152 - 268435456) 34359738368 5) from rfl, if_neg (by omega)]
      rw [show encodeIntLenGo 6 (v - 128 - 16384 - 2097152 - 268435456) 34359738368 5 = (if v - 128 - 16384 - 2097152 - 268435456 < 34359738368 then 5 else encodeIntLenGo 5 (v - 128 - 16384 - 2097152 - 268435456 - 34359738368) 4398046511104 6) from rfl, if_neg (by omega)]
      rw [show encodeIntLenGo 5 (v - 128 - 16384 - 2097152 - 268435456 - 34359738368) 4398046511104 6 = (if v - 128 - 16384 - 2097152 - 268435456 - 34359738368 < 4398046511104 then 6 else encodeIntLenGo 4 (v - 128 - 16384 - 2097152 - 268435456 - 34359738368 - 4398046511104) 562949953421312 7) from rfl, if_neg (by omega)]
      rw [show encodeIntLenGo 4 (v - 128 - 16384 - 2097152 - 268435456 - 34359738368 - 4398046511104) 562949953421312 7 = (if v - 128 - 16384 - 2097152 - 268435456 - 34359738368 - 4398046511104 < 562949953421312 then 7 else encodeIntLenGo 3 (v - 128 - 16384 - 2097152 - 268435456 - 34359738368 - 4398046511104 - 562949953421312) 72057594037927936 8) from rfl, if_pos (by omega)]
    rw [hlen]
    rfl
  have h8 : v < UPPER_BOUND_8 := by omega
  rw [encode_int, if_neg h1, if_neg h2, if_neg h3, if_neg h4, if_neg h5, if_neg h6, if_neg h7, if_pos h8]
  have hlen : encode_int_len v = 8 := by
    rw [show encode_int_len v = (if v < 128 then 1 else encodeIntLenGo 9 (v - 128) 16384 2) from rfl, if_neg (by omega)]
    rw [show encodeIntLenGo 9 (v - 128) 16384 2 = (if v - 128 < 16384 then 2 else encodeIntLenGo 8 (v - 128 - 16384) 2097152 3) from rfl, if_neg (by omega)]
    rw [show encodeIntLenGo 8 (v - 128 - 16384) 2097152 3 = (if v - 128 - 16384 < 2097152 then 3 else encodeIntLenGo 7 (v - 128 - 16384 - 2097152) 268435456 4) from rfl, if_neg (by omega)]
    rw [show encodeIntLenGo 7 (v - 128 - 16384 - 2097152) 268435456 4 = (if v - 128 - 16384 - 2097152 < 268435456 then 4 else encodeIntLenGo 6 (v - 128 - 16384 - 2097152 - 268435456) 34359738368 5) from rfl, if_neg (by omega)]
    rw [show encodeIntLenGo 6 (v - 128 - 16384 - 2097152 - 268435456) 34359738368 5 = (if v - 128 - 16384 - 2097152 - 268435456 < 34359738368 then 5 else encodeIntLenGo 5 (v - 128 - 16384 - 2097152 - 268435456 - 34359738368) 4398046511104 6) from rfl, if_neg (by omega)]
    rw [show encodeIntLenGo 5 (v - 128 - 16384 - 2097152 - 268435456 - 34359738368) 4398046511104 6 = (if v - 128 - 16384 - 2097152 - 268435456 - 34359738368 < 4398046511104 then 6 else encodeIntLenGo 4 (v - 128 - 16384 - 2097152 - 268435456 - 34359738368 - 4398046511104) 562949953421312 7) from rfl, if_neg (by omega)]
    rw [show encodeIntLenGo 4 (v - 128 - 16384 - 2097152 - 268435456 - 34359738368 - 4398046511104) 562949953421312 7 = (if v - 128 - 16384 - 2097152 - 268435456 - 34359738368 - 4398046511104 < 562949953421312 then 7 else encodeIntLenGo 3 (v - 128 - 16384 - 2097152 - 268435456 - 34359738368 - 4398046511104 - 562949953421312) 72057594037927936 8) from rfl, if_neg (by omega)]
    rw [show encodeIntLenGo 3 (v - 128 - 16384 - 2097152 - 268435456 - 34359738368 - 4398046511104 - 562949953421312) 72057594037927936 8 = (if v - 128 - 16384 - 2097152 - 268435456 - 34359738368 - 4398046511104 - 562949953421312 < 72057594037927936 then 8 else encodeIntLenGo 2 (v - 128 - 16384 - 2097152 - 268435456 - 34359738368 - 4398046511104 - 562949953421312 - 72057594037927936) 9223372036854775808 9) from rfl, if_pos (by omega)]
  rw [hlen]
  rfl

/-- C7: the VByte codec round-trips: for every `v` in `[0, 2^56)`, decoding
the bytes produced by `encode_int v` yields `v` with an empty remainder, and
the number of emitted bytes equals `encode_int_len v`. -/
theorem C7_vbyte_round_trip (v : Nat) (hv : v < 2 ^ 56) :
    decode_int (encode_int v) = (v, ([] : List Nat))
      ∧ (encode_int v).length = encode_int_len v := by
  constructor
  · have h := decode_encode_int v hv []
    rwa [List.append_nil] at h
  · exact encode_len_eq v hv

/-- Witness for C7 at the boundary value 128, which encodes as the two bytes
`0x80 0x00` (scenario S5 of the spec). -/
theorem C7_vbyte_round_trip_witness :
    (decode_int (encode_int 128) = (128, ([] : List Nat))
      ∧ (encode_int 128).length = encode_int_len 128)
      ∧ encode_int 128 = [0x80, 0x00] :=
  ⟨C7_vbyte_round_trip 128 (by decide), by decide⟩

/-! ## Elias-Fano (src/dict/elias_fano.rs)

The builder's `low_bits` is a `CompactArray` and its `high_bits` a `BitVec`;
neither type's source is under src/.  Modelled from the spec: CompactArray is
a fixed-length sequence of `l`-bit values (`element i occupies bits
[i*l, i*l+l)`, stored value `< 2^l`), which we represent abstractly by the
list of stored values; BitVec is the same word layout as the in-src bitmap,
and its `set` performs the clear-then-OR word update of
src/bitmap.rs lines 396-410.  The width `l` is computed by the source with
floating-point arithmetic (`(u as f64 / n as f64).log2().floor()`), which a
shallow embedding cannot reproduce exactly; the builder model therefore takes
`l` as a parameter, and every theorem below holds for every `l`. -/

/-- BitMap::set_unchecked with value `true` (src/bitmap.rs lines 396-410). -/
def bitmapSetTrue (B : Bitmap) (index : Nat) : Bitmap :=
  ⟨B.data.set (index / 64) (setBitWord (wordOf B.data (index / 64)) (index % 64) 1), B.len⟩

structure EliasFanoBuilder where
  u : Nat
  n : Nat
  l : Nat
  low_bits : List Nat
  high_bits : Bitmap
  last_value : Nat
  count : Nat
deriving DecidableEq

/-- EliasFanoBuilder::new (elias_fano.rs lines 45-61) with `l` abstracted:
a CompactArray of width `l` and length `n` (all zeros), and a zeroed BitVec
of length `n + (u >> l) + 1`. -/
def EliasFanoBuilder.newWithL (n u l : Nat) : EliasFanoBuilder :=
  { u := u
    n := n
    l := l
    low_bits := List.replicate n 0
    high_bits := ⟨List.replicate ((n + (u >>> l) + 1 + 63) / 64) 0, n + (u >>> l) + 1⟩
    last_value := 0
    count := 0 }

/-- EliasFanoBuilder::push_unchecked (elias_fano.rs lines 88-97). -/
def EliasFanoBuilder.push_unchecked (b : EliasFanoBuilder) (value : Nat) : EliasFanoBuilder :=
  { b with
    low_bits := b.low_bits.set b.count (value &&& ((1 <<< b.l) - 1))
    high_bits := bitmapSetTrue b.high_bits ((value >>> b.l) + b.count)
    count := b.count + 1
    last_value := value }

/-- EliasFanoBuilder::push (elias_fano.rs lines 68-82).  The source takes
`&mut self` and returns `Result<()>`; the pair returned here is the builder
after the call together with the result, so that the untouched builder on
the `bail!` paths is explicit. -/
def EliasFanoBuilder.push (b : EliasFanoBuilder) (value : Nat) :
    EliasFanoBuilder × Except String Unit :=
  if b.count = b.n then (b, .error "Too many values")
  else if value ≥ b.u then (b, .error "Value too large")
  else if value < b.last_value then
    (b, .error "The values given to elias-fano are not monotone")
  else (b.push_unchecked value, .ok ())

structure EliasFano where
  u : Nat
  n : Nat
  l : Nat
  low_bits : List Nat
  high_bits : CountingBitmap
deriving DecidableEq

/-- EliasFanoBuilder::build (elias_fano.rs lines 99-107): wraps the high bits
with their known count `n` (BitMap::with_count, src/bitmap.rs lines 322-331). -/
def EliasFanoBuilder.build (b : EliasFanoBuilder) : EliasFano :=
  { u := b.u
    n := b.n
    l := b.l
    low_bits := b.low_bits
    high_bits := ⟨b.high_bits.data, b.high_bits.len, b.n⟩ }

/-- IndexedDict::get_unchecked for EliasFano (elias_fano.rs lines 269-274).
The high-bits `select_unchecked` is the in-src CountingBitmap implementation
(src/bitmap.rs lines 128-133); the CompactArray read is the stored value. -/
def EliasFano.get_unchecked (e : EliasFano) (index : Nat) : Nat :=
  let high := selectUnchecked e.high_bits.data index - index
  let low := e.low_bits.getD index 0
  (high <<< e.l) ||| low

/-- Pushing a whole list through the checked push, stopping at the first
error (the builder of the pair is the state reached so far). -/
def efbPushAll : EliasFanoBuilder → List Nat → EliasFanoBuilder × Except String Unit
  | b, [] => (b, .ok ())
  | b, v :: vs =>
    match b.push v with
    | (b', .ok _) => efbPushAll b' vs
    | (b', .error e) => (b', .error e)

/-- C6: EliasFanoBuilder::push errors exactly when the builder is full
(`count = n`), the value is out of range (`v ≥ u`) or the value is below the
last pushed one; an erroring push leaves every builder field untouched, and a
successful push performs exactly the push_unchecked update. -/
theorem C6_ef_push_errors (b : EliasFanoBuilder) (v : Nat) :
    ((∃ e, (b.push v).2 = .error e) ↔ (b.count = b.n ∨ b.u ≤ v ∨ v < b.last_value))
      ∧ (∀ e, (b.push v).2 = .error e → (b.push v).1 = b)
      ∧ ((b.push v).2 = .ok () → (b.push v).1 = b.push_unchecked v) := by
  rw [EliasFanoBuilder.push]
  by_cases h1 : b.count = b.n
  · rw [if_pos h1]
    exact ⟨⟨fun _ => Or.inl h1, fun _ => ⟨_, rfl⟩⟩, fun e _ => rfl, fun h => nomatch h⟩
  · rw [if_neg h1]
    by_cases h2 : v ≥ b.u
    · rw [if_pos h2]
      exact ⟨⟨fun _ => Or.inr (Or.inl h2), fun _ => ⟨_, rfl⟩⟩, fun e _ => rfl, fun h => nomatch h⟩
    · rw [if_neg h2]
      by_cases h3 : v < b.last_value
      · rw [if_pos h3]
        exact ⟨⟨fun _ => Or.inr (Or.inr h3), fun _ => ⟨_, rfl⟩⟩, fun e _ => rfl,
          fun h => nomatch h⟩
      · rw [if_neg h3]
        refine ⟨⟨fun he => ?_, fun hor => ?_⟩, ?_, ?_⟩
        · obtain ⟨e, he⟩ := he
          exact nomatch he
        · exact absurd hor (by
            push_neg
            exact ⟨h1, by omega, by omega⟩)
        · intro e he
          exact nomatch he
        · intro _
          rfl

/-- Witness for C6 on a fresh builder for two values below five: pushing 7
errors without touching the builder, pushing 3 succeeds. -/
theorem C6_ef_push_errors_witness :
    ((EliasFanoBuilder.newWithL 2 5 1).push 7).1 = EliasFanoBuilder.newWithL 2 5 1
      ∧ (∃ e, ((EliasFanoBuilder.newWithL 2 5 1).push 7).2 = Except.error e)
      ∧ ((EliasFanoBuilder.newWithL 2 5 1).push 3).2 = Except.ok () := by
  have h7 := C6_ef_push_errors (EliasFanoBuilder.newWithL 2 5 1) 7
  have h3 := C6_ef_push_errors (EliasFanoBuilder.newWithL 2 5 1) 3
  refine ⟨?_, ?_, ?_⟩
  · have he := h7.1.2 (by right; left; decide)
    obtain ⟨e, he⟩ := he
    exact h7.2.1 e he
  · exact h7.1.2 (by right; left; decide)
  · by_contra hne
    have : ∃ e, ((EliasFanoBuilder.newWithL 2 5 1).push 3).2 = Except.error e := by
      cases hpe : ((EliasFanoBuilder.newWithL 2 5 1).push 3).2 with
      | ok u => cases u; exact absurd hpe hne
      | error e => exact ⟨e, rfl⟩
    have := h3.1.1 this
    revert this
    decide

theorem wordsWF_set {data : List Nat} (h : WordsWF data) {w : Nat} (hw : w < 2 ^ 64)
    (k : Nat) : WordsWF (data.set k w) := by
  intro x hx
  rcases List.mem_or_eq_of_mem_set hx with h1 | h2
  · exact h x h1
  · omega

theorem wordOf_append_lt {l1 l2 : List Nat} {i : Nat} (h : i < l1.length) :
    wordOf (l1 ++ l2) i = wordOf l1 i := by
  rw [wordOf, wordOf]
  simp [List.getD_eq_getElem?_getD, List.getElem?_append_left h]

theorem wordOf_append_ge {l1 l2 : List Nat} {i : Nat} (h : l1.length ≤ i) :
    wordOf (l1 ++ l2) i = wordOf l2 (i - l1.length) := by
  rw [wordOf, wordOf]
  simp [List.getD_eq_getElem?_getD, List.getElem?_append_right h]

theorem wordOf_replicate_zero (k j : Nat) : wordOf (List.replicate k 0) j = 0 := by
  rw [wordOf]
  by_cases hj : j < k
  · rw [List.getD_eq_getElem _ _ (by simpa using hj)]
    simp
  · rw [List.getD_eq_default _ _ (by simpa using hj)]

/-- Invariant of the Elias-Fano builder after pushing the values `ws`. -/
structure EFInv (n u l : Nat) (ws : List Nat) (b : EliasFanoBuilder) : Prop where
  hu : b.u = u
  hn : b.n = n
  hl : b.l = l
  hcount : b.count = ws.length
  hlast : b.last_value = ws.getLastD 0
  hlowlen : b.low_bits.length = n
  hlow : ∀ i, i < ws.length → wordOf b.low_bits i = (wordOf ws i) &&& ((1 <<< l) - 1)
  hhlen : b.high_bits.len = n + (u >>> l) + 1
  hhdata : b.high_bits.data.length = (n + (u >>> l) + 1 + 63) / 64
  hwf : WordsWF b.high_bits.data
  hbits : ∀ q, bitGet b.high_bits.data q = true
    ↔ ∃ i, i < ws.length ∧ q = ((wordOf ws i) >>> l) + i

theorem ef_fold_inv (n u l : Nat) (ws : List Nat) :
    ws.length ≤ n → (∀ x ∈ ws, x < u) →
      EFInv n u l ws
        (ws.foldl EliasFanoBuilder.push_unchecked (EliasFanoBuilder.newWithL n u l)) := by
  induction ws using List.reverseRecOn with
  | nil =>
    intro _ _
    simp only [List.foldl_nil]
    refine ⟨rfl, rfl, rfl, rfl, rfl, ?_, ?_, rfl, ?_, ?_, ?_⟩
    · simp [EliasFanoBuilder.newWithL]
    · intro i hi
      simp at hi
    · simp [EliasFanoBuilder.newWithL]
    · intro x hx
      have := List.eq_of_mem_replicate hx
      subst this
      positivity
    · intro q
      constructor
      · intro hq
        rw [show (EliasFanoBuilder.newWithL n u l).high_bits.data
            = List.replicate ((n + (u >>> l) + 1 + 63) / 64) 0 from rfl] at hq
        rw [bitGet, wordOf_replicate_zero] at hq
        simp at hq
      · rintro ⟨i, hi, _⟩
        simp at hi
  | append_singleton ws v ih =>
    intro hlen hu
    have hlen' : ws.length ≤ n := by
      rw [List.length_append] at hlen
      simp at hlen
      omega
    have hu' : ∀ x ∈ ws, x < u := fun x hx => hu x (by simp [hx])
    have hv : v < u := hu v (by simp)
    obtain ⟨ihu, ihn, ihl, ihcount, ihlast, ihlowlen, ihlow, ihhlen, ihhdata, ihwf, ihbits⟩ :=
      ih hlen' hu'
    rw [List.foldl_append, List.foldl_cons, List.foldl_nil]
    set b := ws.foldl EliasFanoBuilder.push_unchecked (EliasFanoBuilder.newWithL n u l) with hb
    have hm : ws.length + 1 ≤ n := by
      rw [List.length_append] at hlen
      simpa using hlen
    -- the position of the new high bit, and its bound
    have hvu : v >>> l ≤ u >>> l := by
      rw [Nat.shiftRight_eq_div_pow, Nat.shiftRight_eq_div_pow]
      exact Nat.div_le_div_right (by omega)
    have hpos : (v >>> b.l) + b.count < 64 * b.high_bits.data.length := by
      rw [ihl, ihcount, ihhdata]
      omega
    have hposlen : (v >>> b.l) + b.count < b.high_bits.len := by
      rw [ihl, ihcount, ihhlen]
      omega
    refine ⟨ihu, ihn, ihl, ?_, ?_, ?_, ?_, ihhlen, ?_, ?_, ?_⟩
    · show b.count + 1 = (ws ++ [v]).length
      rw [ihcount, List.length_append]
      simp
    · show v = (ws ++ [v]).getLastD 0
      rw [List.getLastD_concat]
    · show (b.low_bits.set b.count (v &&& ((1 <<< b.l) - 1))).length = n
      rw [List.length_set, ihlowlen]
    · intro i hi
      rw [List.length_append] at hi
      simp at hi
      show wordOf (b.low_bits.set b.count (v &&& ((1 <<< b.l) - 1))) i = _
      by_cases hilt : i < ws.length
      · rw [wordOf_set_ne (by omega), ihlow i hilt, wordOf_append_lt hilt]
      · have hieq : i = ws.length := by omega
        subst hieq
        rw [wordOf_append_ge (le_refl _), Nat.sub_self, ← ihcount,
          wordOf_set_eq (by rw [ihlowlen, ihcount]; omega) _, ihl]
        rfl
    · show (b.high_bits.data.set _ _).length = _
      rw [List.length_set, ihhdata]
    · exact wordsWF_set ihwf
        (setBitWord_lt (wordOf_lt ihwf _) (by omega) (by omega)) _
    · intro q
      have hset := @bitGet_set_eq b.high_bits.data ((v >>> b.l) + b.count) 1
        ihwf hpos (by omega) q
      show bitGet (b.high_bits.data.set _ _) q = true ↔ _
      rw [hset]
      by_cases hq : q = (v >>> b.l) + b.count
      · rw [if_pos hq]
        constructor
        · intro _
          refine ⟨ws.length, ?_, ?_⟩
          · rw [List.length_append]
            simp
          · rw [wordOf_append_ge (le_refl _), Nat.sub_self]
            rw [hq, ihl, ihcount]
            rfl
        · intro _
          rfl
      · rw [if_neg hq]
        rw [ihbits]
        constructor
        · rintro ⟨i, hi, hqi⟩
          refine ⟨i, ?_, ?_⟩
          · rw [List.length_append]
            simp
            omega
          · rw [wordOf_append_lt hi]
            exact hqi
        · rintro ⟨i, hi, hqi⟩
          rw [List.length_append] at hi
          simp at hi
          have hine : i ≠ ws.length := by
            intro hieq
            subst hieq
            rw [wordOf_append_ge (le_refl _), Nat.sub_self] at hqi
            apply hq
            rw [hqi, ihl, ihcount]
            rfl
          have hilt : i < ws.length := by omega
          refine ⟨i, hilt, ?_⟩
          rw [wordOf_append_lt hilt] at hqi
          exact hqi

/-- All checked pushes succeed on in-range monotone input, and perform
exactly the unchecked pushes. -/
theorem efbPushAll_ok : ∀ (vs : List Nat) (b : EliasFanoBuilder),
    b.count + vs.length ≤ b.n → (∀ x ∈ vs, x < b.u) →
    List.Chain (· ≤ ·) b.last_value vs →
    efbPushAll b vs = (vs.foldl EliasFanoBuilder.push_unchecked b, Except.ok ()) := by
  intro vs
  induction vs with
  | nil =>
    intro b _ _ _
    rfl
  | cons v vs ih =>
    intro b hn hu hchain
    have hclt : b.count < b.n := by
      simp at hn
      omega
    have hvu : v < b.u := hu v (by simp)
    have hvlast : b.last_value ≤ v := (List.chain_cons.mp hchain).1
    have hpush : b.push v = (b.push_unchecked v, Except.ok ()) := by
      rw [EliasFanoBuilder.push, if_neg (by omega), if_neg (by omega), if_neg (by omega)]
    show (match b.push v with
      | (b', .ok _) => efbPushAll b' vs
      | (b', .error e) => (b', .error e)) = _
    rw [hpush]
    show efbPushAll (b.push_unchecked v) vs = _
    rw [List.foldl_cons]
    exact ih _ (by
        show b.count + 1 + vs.length ≤ b.n
        simp at hn
        omega)
      (fun x hx => hu x (by simp [hx]))
      ((List.chain_cons.mp hchain).2)

theorem mem_le_getLastD {vs : List Nat} (hs : vs.Pairwise (· ≤ ·)) :
    ∀ x ∈ vs, x ≤ vs.getLastD 0 := by
  induction vs using List.reverseRecOn with
  | nil =>
    intro x hx
    simp at hx
  | append_singleton ws a ih =>
    intro x hx
    rw [List.getLastD_concat]
    rcases List.mem_append.mp hx with h1 | h2
    · exact (List.pairwise_append.mp hs).2.2 x h1 a (by simp)
    · simp at h2
      omega

/-- If the set bits of `data` are exactly the injective positions `p 0 .. p (n-1)`,
counting below `Q` counts the positions below `Q`. -/
theorem countBelow_eq_card (data : List Nat) (n : Nat) (p : Nat → Nat)
    (hchar : ∀ q, bitGet data q = true ↔ ∃ i, i < n ∧ q = p i)
    (hinj : ∀ i j, i < n → j < n → p i = p j → i = j) :
    ∀ Q, countBelow data Q = ((Finset.range n).filter (fun i => p i < Q)).card := by
  intro Q
  induction Q with
  | zero =>
    simp [countBelow]
  | succ Q ih =>
    rw [countBelow_succ, ih]
    by_cases hbit : bitGet data Q
    · obtain ⟨i, hin, hqi⟩ := (hchar Q).mp hbit
      have hfil : (Finset.range n).filter (fun j => p j < Q + 1)
          = insert i ((Finset.range n).filter (fun j => p j < Q)) := by
        ext j
        simp only [Finset.mem_filter, Finset.mem_insert, Finset.mem_range]
        constructor
        · rintro ⟨hj, hpj⟩
          by_cases hji : j = i
          · exact Or.inl hji
          · refine Or.inr ⟨hj, ?_⟩
            have hne : p j ≠ Q := by
              intro hpq
              exact hji (hinj j i hj hin (by omega))
            omega
        · rintro (hji | ⟨hj, hpj⟩)
          · subst hji
            exact ⟨hin, by omega⟩
          · exact ⟨hj, by omega⟩
      rw [hfil, Finset.card_insert_of_not_mem (by
        simp only [Finset.mem_filter, Finset.mem_range, not_and]
        intro _
        omega)]
      simp [hbit]
    · have hnone : ∀ j, j < n → p j ≠ Q := by
        intro j hj hpj
        exact hbit ((hchar Q).mpr ⟨j, hj, hpj.symm⟩)
      have hfil : (Finset.range n).filter (fun j => p j < Q + 1)
          = (Finset.range n).filter (fun j => p j < Q) := by
        ext j
        simp only [Finset.mem_filter, Finset.mem_range]
        constructor
        · rintro ⟨hj, hpj⟩
          have := hnone j hj
          exact ⟨hj, by omega⟩
        · rintro ⟨hj, hpj⟩
          exact ⟨hj, by omega⟩
      rw [hfil]
      simp [hbit]

set_option maxHeartbeats 2000000 in
/-- C2: pushing a monotone sequence `v_0 ≤ ... ≤ v_{n-1} < u` through the
checked builder succeeds, and `get(i)` on the built EliasFano (computed as
`high_bits.select(i) - i` shifted by `l`, OR-ed with `low_bits.get(i)`)
returns exactly `v_i`, for every low-bit width `l` (the source derives `l`
from `u/n` in floating point; the theorem covers every possible outcome). -/
theorem C2_elias_fano_get (n u l : Nat) (vs : List Nat) (hlen : vs.length = n)
    (hmono : vs.Chain' (· ≤ ·)) (hlast : vs.getLastD 0 < u) :
    (efbPushAll (EliasFanoBuilder.newWithL n u l) vs).2 = Except.ok ()
    ∧ ∀ i, i < n →
      ((efbPushAll (EliasFanoBuilder.newWithL n u l) vs).1.build).get_unchecked i
        = wordOf vs i := by
  have hpair : vs.Pairwise (· ≤ ·) := List.chain'_iff_pairwise.mp hmono
  have hu : ∀ x ∈ vs, x < u := fun x hx =>
    lt_of_le_of_lt (mem_le_getLastD hpair x hx) hlast
  have hchain : List.Chain (· ≤ ·) (EliasFanoBuilder.newWithL n u l).last_value vs :=
    List.chain'_cons'.mpr ⟨fun h _ => Nat.zero_le h, hmono⟩
  have hok := efbPushAll_ok vs (EliasFanoBuilder.newWithL n u l)
    (by show 0 + vs.length ≤ n; omega) (fun x hx => hu x hx) hchain
  rw [hok]
  refine ⟨rfl, ?_⟩
  intro i hi
  obtain ⟨ihu, ihn, ihl, ihcount, ihlast, ihlowlen, ihlow, ihhlen, ihhdata, ihwf, ihbits⟩ :=
    ef_fold_inv n u l vs (by omega) hu
  set b := vs.foldl EliasFanoBuilder.push_unchecked (EliasFanoBuilder.newWithL n u l) with hb
  have hmemv : ∀ j, j < n → wordOf vs j ∈ vs := by
    intro j hj
    rw [wordOf, List.getD_eq_getElem _ _ (by omega)]
    exact List.getElem_mem _
  have hvu : ∀ j, j < n → wordOf vs j < u := fun j hj => hu _ (hmemv j hj)
  have hvmono : ∀ j k, j < k → k < n → wordOf vs j ≤ wordOf vs k := by
    intro j k hjk hk
    have h := List.pairwise_iff_getElem.mp hpair j k (by omega) (by omega) hjk
    rw [wordOf, wordOf, List.getD_eq_getElem _ _ (by omega),
      List.getD_eq_getElem _ _ (by omega)]
    exact h
  have hpmono : ∀ j k, j < k → k < n →
      ((wordOf vs j) >>> l) + j < ((wordOf vs k) >>> l) + k := by
    intro j k hjk hk
    have h1 := hvmono j k hjk hk
    have h2 : (wordOf vs j) >>> l ≤ (wordOf vs k) >>> l := by
      rw [Nat.shiftRight_eq_div_pow, Nat.shiftRight_eq_div_pow]
      exact Nat.div_le_div_right h1
    omega
  have hchar : ∀ q, bitGet b.high_bits.data q = true
      ↔ ∃ j, j < n ∧ q = ((wordOf vs j) >>> l) + j := by
    intro q
    rw [ihbits q, hlen]
  have hinj : ∀ j k, j < n → k < n →
      ((wordOf vs j) >>> l) + j = ((wordOf vs k) >>> l) + k → j = k := by
    intro j k hj hk hpe
    rcases Nat.lt_trichotomy j k with h | h | h
    · have := hpmono j k h hk
      omega
    · exact h
    · have := hpmono k j h hj
      omega
  have hcard := countBelow_eq_card b.high_bits.data n
    (fun j => ((wordOf vs j) >>> l) + j) hchar hinj
  have hcb : countBelow b.high_bits.data (((wordOf vs i) >>> l) + i) = i := by
    rw [hcard]
    have hfil : (Finset.range n).filter
        (fun j => ((wordOf vs j) >>> l) + j < ((wordOf vs i) >>> l) + i)
        = Finset.range i := by
      ext j
      simp only [Finset.mem_filter, Finset.mem_range]
      constructor
      · rintro ⟨hj, hpj⟩
        by_contra hge
        push_neg at hge
        rcases Nat.eq_or_lt_of_le hge with he | hlt
        · subst he
          omega
        · have := hpmono i j hlt hj
          omega
      · intro hj
        exact ⟨by omega, hpmono j i hj hi⟩
    rw [hfil, Finset.card_range]
  have hplt : ∀ j, j < n →
      ((wordOf vs j) >>> l) + j < 64 * b.high_bits.data.length := by
    intro j hj
    have h1 : (wordOf vs j) >>> l ≤ u >>> l := by
      rw [Nat.shiftRight_eq_div_pow, Nat.shiftRight_eq_div_pow]
      exact Nat.div_le_div_right (le_of_lt (hvu j hj))
    rw [ihhdata]
    omega
  have htot : totalOnes b.high_bits.data = n := by
    rw [totalOnes, hcard]
    rw [Finset.filter_true_of_mem (fun j hj => hplt j (Finset.mem_range.mp hj)),
      Finset.card_range]
  have hsel := selectUnchecked_correct ihwf
    (show i < totalOnes b.high_bits.data by rw [htot]; exact hi)
  have hisS : IsSelect b.high_bits.data i (((wordOf vs i) >>> l) + i) :=
    ⟨(hchar _).mpr ⟨i, hi, rfl⟩, hcb⟩
  have hseleq : selectUnchecked b.high_bits.data i = ((wordOf vs i) >>> l) + i :=
    isSelect_unique hsel hisS
  show (selectUnchecked b.high_bits.data i - i) <<< b.l ||| (b.low_bits.getD i 0)
    = wordOf vs i
  rw [hseleq, ihl, show b.low_bits.getD i 0 = wordOf b.low_bits i from rfl,
    ihlow i (by omega)]
  rw [show ((wordOf vs i) >>> l) + i - i = (wordOf vs i) >>> l from Nat.add_sub_cancel _ _]
  rw [show (1 <<< l) - 1 = 2 ^ l - 1 by rw [Nat.shiftLeft_eq, one_mul],
    Nat.and_pow_two_sub_one_eq_mod]
  rw [or_of_mod_eq_zero _ _ l (by rw [Nat.shiftLeft_eq]; exact Nat.mul_mod_left _ _)
    (Nat.mod_lt _ (by positivity))]
  rw [Nat.shiftLeft_eq, Nat.shiftRight_eq_div_pow, Nat.mul_comm]
  exact Nat.div_add_mod _ _

theorem C2_elias_fano_get_witness :
    (efbPushAll (EliasFanoBuilder.newWithL 6 12 1) [0, 1, 2, 5, 7, 11]).2 = Except.ok ()
    ∧ ((efbPushAll (EliasFanoBuilder.newWithL 6 12 1) [0, 1, 2, 5, 7, 11]).1.build).get_unchecked 3
      = 5 := by
  have hch : List.Chain' (· ≤ ·) [0, 1, 2, 5, 7, 11] :=
    .cons (by decide) (.cons (by decide) (.cons (by decide)
      (.cons (by decide) (.cons (by decide) .nil))))
  have h := C2_elias_fano_get 6 12 1 [0, 1, 2, 5, 7, 11] (by decide) hch (by decide)
  refine ⟨h.1, ?_⟩
  rw [h.2 3 (by decide)]
  rfl

/-- Modelled from the spec: the exact low-bit width `l = ⌊log₂(u/n)⌋` (0 when
`u < n`), taking the floor of the rational `u/n`: the largest `l` with
`2^l · n ≤ u`, which equals `⌊log₂⌊u/n⌋⌋`.  Fueled binary logarithm (64 bits
suffice for `usize`); the source computes the same quantity in `f64` floating
point. -/
def floorLog2Fuel : Nat → Nat → Nat
  | 0, _ => 0
  | f + 1, n => if n ≥ 2 then floorLog2Fuel f (n / 2) + 1 else 0

def efSpecL (n u : Nat) : Nat := if n ≤ u then floorLog2Fuel 64 (u / n) else 0

/-- C5: for every `n`, `u` and low-bit width `l`, the builder allocates a
high-bits bit vector of length `n + ⌊u/2^l⌋ + 1` (floor, not the ceiling the
claim states) and a low-bits array of `n` entries.  The claimed ceiling length
`n + ⌈u/2^l⌉ + 1` is refuted at `n = 6`, `u = 13` (where `l = 1`). -/
theorem C5_ef_builder_high_len (n u l : Nat) :
    (EliasFanoBuilder.newWithL n u l).high_bits.len = n + u / 2 ^ l + 1
    ∧ (EliasFanoBuilder.newWithL n u l).low_bits.length = n := by
  constructor
  · show n + (u >>> l) + 1 = n + u / 2 ^ l + 1
    rw [Nat.shiftRight_eq_div_pow]
  · show (List.replicate n 0).length = n
    simp

/-- At `n = 6`, `u = 13` the derived width is `l = ⌊log₂(13/6)⌋ = 1` and the
builder allocates `6 + ⌊13/2⌋ + 1 = 13` high bits, not the claimed
`6 + ⌈13/2⌉ + 1 = 14`. -/
theorem C5_ef_builder_high_len_counterexample :
    (EliasFanoBuilder.newWithL 6 13 (efSpecL 6 13)).high_bits.len
      ≠ 6 + (13 + 2 ^ efSpecL 6 13 - 1) / 2 ^ efSpecL 6 13 + 1 := by decide

/-! ## SimpleSelectConst (src/rank_sel/simple_select_const.rs) -/

/-- The two const generics of `SimpleSelectConst`. -/
structure SSCParams where
  log2_ones_per_inventory : Nat
  log2_u64_per_subinventory : Nat

def SSCParams.ones_per_inventory (P : SSCParams) : Nat := 1 <<< P.log2_ones_per_inventory

def SSCParams.u64_per_subinventory (P : SSCParams) : Nat := 1 <<< P.log2_u64_per_subinventory

def SSCParams.u64_per_inventory (P : SSCParams) : Nat := 1 + P.u64_per_subinventory

def SSCParams.log2_ones_per_sub64 (P : SSCParams) : Nat :=
  P.log2_ones_per_inventory - P.log2_u64_per_subinventory

def SSCParams.ones_per_sub64 (P : SSCParams) : Nat := 1 <<< P.log2_ones_per_sub64

def SSCParams.log2_ones_per_sub16 (P : SSCParams) : Nat := P.log2_ones_per_sub64 - 2

def SSCParams.ones_per_sub16 (P : SSCParams) : Nat := 1 <<< P.log2_ones_per_sub16

/-- Inner while-loop of the first phase of `SimpleSelectConst::new`
(simple_select_const.rs lines 191-203): push the position of the
`next_quantum`-th one of the current word, make room for the subinventory,
advance the quantum.  Fuelled; 65 units always suffice (at most 64 ones per
word, at least one one per quantum). -/
def phase1While (P : SSCParams) : Nat → List Nat → Nat → Nat → Nat → Nat → List Nat × Nat
  | 0, inv, _, _, _, nq => (inv, nq)
  | fuel + 1, inv, i, word, past, nq =>
    if past + popcount word > nq then
      phase1While P fuel
        (inv ++ (i * 64 + selectInWord word (nq - past)) :: List.replicate P.u64_per_subinventory 0)
        i word past (nq + P.ones_per_inventory)
    else (inv, nq)

/-- First phase of `SimpleSelectConst::new` (lines 188-206): scan the words,
pushing one inventory entry (followed by a zeroed subinventory) every
`ONES_PER_INVENTORY` ones. -/
def phase1Go (P : SSCParams) : List Nat → Nat → List Nat → Nat → Nat → List Nat
  | [], _, inv, _, _ => inv
  | w :: ws, i, inv, past, nq =>
    let r := phase1While P 65 inv i w past nq
    phase1Go P ws (i + 1) r.1 (past + popcount w) r.2

/-- Store value `v` into the 16-bit field `o` (0..3) of the word `w`, keeping
the other fields: the little-endian layout `align_to::<u16>` yields on the
64-bit targets the crate compiles for, written as digit surgery in base
`2^16`. -/
def store16 (w o v : Nat) : Nat :=
  w % 2 ^ (16 * o) + (v % 65536) * 2 ^ (16 * o) + w / 2 ^ (16 * (o + 1)) * 2 ^ (16 * (o + 1))

/-- The u16 store `subinventory[s] = v` of phase two, on the word list holding
the subinventory starting at word `base`. -/
def write16 (inv : List Nat) (base s v : Nat) : List Nat :=
  inv.set (base + s / 4) (store16 (wordOf inv (base + s / 4)) (s % 4) v)

/-- The u16 read `u16s[s]` of `select_unchecked`. -/
def read16 (inv : List Nat) (base s : Nat) : Nat :=
  ((wordOf inv (base + s / 4)) >>> (16 * (s % 4))) &&& 65535

/-- Inner while-loop of the second phase of `SimpleSelectConst::new`
(lines 252-290): write the offset of the `next_quantum`-th one from the start
of the inventory into the subinventory (as u16 or u64), breaking out of the
outer loop (`true` in the result) when the subinventory is full.  Fuelled; 65
units always suffice. -/
def phase2While (is16 : Bool) (startIdx startBit q slotMax wordIdx word past : Nat) :
    Nat → List Nat → Nat → Nat → List Nat × Nat × Nat × Bool
  | 0, inv, s, nq => (inv, s, nq, false)
  | fuel + 1, inv, s, nq =>
    if past + popcount word > nq then
      let bit_index := wordIdx * 64 + selectInWord word (nq - past)
      let sub_offset := bit_index - startBit
      let inv2 := if is16 then write16 inv (startIdx + 1) s sub_offset
        else inv.set (startIdx + 1 + s) sub_offset
      if s + 1 = slotMax then (inv2, s + 1, nq, true)
      else phase2While is16 startIdx startBit q slotMax wordIdx word past fuel inv2 (s + 1) (nq + q)
    else (inv, s, nq, false)

/-- Outer loop of the second phase (lines 251-302): scan the words of the
current inventory span, writing subinventory entries; stop at the end word or
when the subinventory is full.  Fuelled by the number of words left. -/
def phase2Outer (data : List Nat) (is16 : Bool)
    (startIdx startBit q slotMax endWord : Nat) :
    Nat → List Nat → Nat → Nat → Nat → Nat → Nat → List Nat
  | 0, inv, _, _, _, _, _ => inv
  | fuel + 1, inv, wordIdx, word, past, s, nq =>
    match phase2While is16 startIdx startBit q slotMax wordIdx word past 65 inv s nq with
    | (inv2, s2, nq2, broke) =>
      if broke then inv2
      else if wordIdx + 1 = endWord then inv2
      else phase2Outer data is16 startIdx startBit q slotMax endWord fuel
        inv2 (wordIdx + 1) (wordOf data (wordIdx + 1)) (past + popcount word) s2 nq2

/-- Body of the second-phase `for` over the inventories (lines 215-303):
read the span, choose u16 or u64 subinventory (setting the sign bit of the
first-level entry in the latter case) and run the scan. -/
def phase2Block (P : SSCParams) (data : List Nat) (inv : List Nat) (inventory_idx : Nat) :
    List Nat :=
  let start_idx := inventory_idx * P.u64_per_inventory
  let end_idx := start_idx + P.u64_per_inventory
  let start_bit_idx := wordOf inv start_idx
  let end_bit_idx := wordOf inv end_idx
  let span := end_bit_idx - start_bit_idx
  let word_idx := start_bit_idx / 64
  let bit_idx := start_bit_idx % 64
  let word := maskFrom (wordOf data word_idx) bit_idx
  let past := inventory_idx * P.ones_per_inventory
  let is16 := span ≤ 65535
  let quantum := if is16 then P.ones_per_sub16 else P.ones_per_sub64
  let inv2 := if is16 then inv else inv.set start_idx (start_bit_idx ||| (1 <<< 63))
  let end_word_idx := (end_bit_idx + 63) / 64
  let slotMax := P.ones_per_inventory / quantum
  phase2Outer data is16 start_idx start_bit_idx quantum slotMax end_word_idx
    (data.length + 1) inv2 word_idx word past 1 (past + quantum)

structure SimpleSelectConst where
  bits_data : List Nat
  bits_len : Nat
  inventory : List Nat
  num_ones : Nat

/-- `SimpleSelectConst::new` (lines 177-307): the backend's `count_ones()` is
passed in as `num_ones`; phase one builds the first-level inventory and the
final sentinel `len`, phase two fills the subinventories block by block. -/
def simpleSelectConstNew (P : SSCParams) (data : List Nat) (len num_ones : Nat) :
    SimpleSelectConst :=
  let inventory_size := (num_ones + P.ones_per_inventory - 1) / P.ones_per_inventory
  let inv1 := phase1Go P data 0 [] 0 0
  let inv2 := inv1 ++ [len]
  let inv3 := (List.range inventory_size).foldl (phase2Block P data) inv2
  ⟨data, len, inv3, num_ones⟩

/-- `Select::select_unchecked` for `SimpleSelectConst` (lines 311-353): read
the first-level entry, use its sign bit to pick the u16 or the u64
subinventory, and finish with the hinted linear scan of the backend (the
in-src CountingBitmap one, bitmap.rs lines 135-153). -/
def SimpleSelectConst.select_unchecked (st : SimpleSelectConst) (P : SSCParams)
    (rank : Nat) : Nat :=
  let inventory_index := rank / P.ones_per_inventory
  let subrank := rank % P.ones_per_inventory
  let start_idx := inventory_index * (1 + P.u64_per_subinventory)
  let inventory_rank := wordOf st.inventory start_idx
  let pr : Nat × Nat :=
    if inventory_rank < 2 ^ 63 then
      (inventory_rank + read16 st.inventory (start_idx + 1) (subrank / P.ones_per_sub16),
        subrank % P.ones_per_sub16)
    else
      ((inventory_rank &&& ((1 <<< 63) - 1))
          + wordOf st.inventory (start_idx + 1 + subrank / P.ones_per_sub64),
        subrank % P.ones_per_sub64)
  selectUncheckedHinted st.bits_data rank pr.1 (rank - pr.2)

/-- Modelled from the spec: the checked `select` of the `Select` trait (the
trait's default is not under src/): absent (`none`) for
`rank ≥ count_ones()`, otherwise the unchecked select; `count_ones()` for
`SimpleSelectConst` returns the stored `num_ones` (lines 166-169). -/
def SimpleSelectConst.select (st : SimpleSelectConst) (P : SSCParams)
    (rank : Nat) : Option Nat :=
  if rank < st.num_ones then some (st.select_unchecked P rank) else none


/-! ## Lemmas for SimpleSelectConst -/

theorem SSCParams.opi_pos (P : SSCParams) : 0 < P.ones_per_inventory := by
  rw [SSCParams.ones_per_inventory, Nat.shiftLeft_eq, one_mul]
  positivity

/-- Under the padding invariant, all ones lie below the logical length. -/
theorem countBelow_len_eq_total (B : Bitmap) (hwf : B.WF) :
    countBelow B.data B.len = totalOnes B.data := by
  obtain ⟨hlen, hw, hpad⟩ := hwf
  have h64 : B.len ≤ 64 * B.data.length := by
    rw [hlen]
    omega
  have h1 : countBelow B.data B.len + ∑ i ∈ Finset.Ico B.len (64 * B.data.length),
      (if bitGet B.data i then (1 : Nat) else 0) = countBelow B.data (64 * B.data.length) :=
    Finset.sum_range_add_sum_Ico (fun i => if bitGet B.data i then (1 : Nat) else 0) h64
  have hz : ∑ i ∈ Finset.Ico B.len (64 * B.data.length),
      (if bitGet B.data i then (1 : Nat) else 0) = 0 := by
    refine Finset.sum_eq_zero ?_
    intro i hi
    rw [hpad i (Finset.mem_Ico.mp hi).1]
    simp
  rw [totalOnes]
  omega

/-- Select positions are strictly increasing in the rank. -/
theorem selectUnchecked_strictMono {data : List Nat} (hwf : WordsWF data) {j k : Nat}
    (hjk : j < k) (hk : k < totalOnes data) :
    selectUnchecked data j < selectUnchecked data k := by
  have hj := selectUnchecked_correct hwf (show j < totalOnes data by omega)
  have hk' := selectUnchecked_correct hwf hk
  rcases Nat.lt_trichotomy (selectUnchecked data j) (selectUnchecked data k) with h | h | h
  · exact h
  · exfalso
    have h2 := hj.2
    rw [h, hk'.2] at h2
    omega
  · exfalso
    have hlt := countBelow_lt_of_bit hk'.1 h
    rw [hj.2, hk'.2] at hlt
    omega

theorem countBelow_word_succ (data : List Nat) (hwf : WordsWF data) (i : Nat) :
    countBelow data (64 * (i + 1)) = countBelow data (64 * i) + popcount (wordOf data i) := by
  have h := countBelow_split data i (le_refl 64)
  rw [show 64 * (i + 1) = 64 * i + 64 by ring, h, popcount_eq_bitsBelow (wordOf_lt hwf i)]

theorem store16_field_eq (w o v : Nat) :
    store16 w o v / 2 ^ (16 * o) % 65536 = v % 65536 := by
  have hE : 0 < (2 : Nat) ^ (16 * o) := by positivity
  have hM : (2 : Nat) ^ (16 * (o + 1)) = 2 ^ (16 * o) * 65536 := by
    rw [show 16 * (o + 1) = 16 * o + 16 by ring, pow_add]
    norm_num
  have hre : store16 w o v
      = w % 2 ^ (16 * o)
        + 2 ^ (16 * o) * (v % 65536 + 65536 * (w / 2 ^ (16 * (o + 1)))) := by
    rw [store16, hM]
    ring
  rw [hre, Nat.add_mul_div_left _ _ hE, Nat.div_eq_of_lt (Nat.mod_lt _ hE), Nat.zero_add,
    Nat.add_mul_mod_self_left]
  exact Nat.mod_mod_of_dvd v (dvd_refl 65536)

theorem store16_field_lt (w o v o' : Nat) (ho' : o' < o) :
    store16 w o v / 2 ^ (16 * o') % 65536 = w / 2 ^ (16 * o') % 65536 := by
  have hpow : (2 : Nat) ^ (16 * o') * 65536 = 2 ^ (16 * (o' + 1)) := by
    rw [show 16 * (o' + 1) = 16 * o' + 16 by ring, pow_add]
    norm_num
  have hdvd1 : (2 : Nat) ^ (16 * o') * 65536 ∣ 2 ^ (16 * o) := by
    rw [hpow]
    exact pow_dvd_pow 2 (by omega)
  have hdvd2 : (2 : Nat) ^ (16 * o') * 65536 ∣ 2 ^ (16 * (o + 1)) := by
    rw [hpow]
    exact pow_dvd_pow 2 (by omega)
  rw [Nat.div_mod_eq_mod_mul_div, Nat.div_mod_eq_mod_mul_div]
  have hmod : store16 w o v % (2 ^ (16 * o') * 65536) = w % (2 ^ (16 * o') * 65536) := by
    have hb : (v % 65536) * 2 ^ (16 * o) % (2 ^ (16 * o') * 65536) = 0 :=
      Nat.mod_eq_zero_of_dvd (Dvd.dvd.mul_left hdvd1 _)
    have hc : w / 2 ^ (16 * (o + 1)) * 2 ^ (16 * (o + 1)) % (2 ^ (16 * o') * 65536) = 0 :=
      Nat.mod_eq_zero_of_dvd (Dvd.dvd.mul_left hdvd2 _)
    rw [store16, Nat.add_mod, hc, Nat.add_zero, Nat.mod_mod_of_dvd _ (dvd_refl _),
      Nat.add_mod, hb, Nat.add_zero, Nat.mod_mod_of_dvd _ (dvd_refl _),
      Nat.mod_mod_of_dvd w hdvd1]
  rw [hmod]

theorem store16_field_gt (w o v o' : Nat) (ho' : o < o') :
    store16 w o v / 2 ^ (16 * o') % 65536 = w / 2 ^ (16 * o') % 65536 := by
  have hM : (2 : Nat) ^ (16 * (o + 1)) = 2 ^ (16 * o) * 65536 := by
    rw [show 16 * (o + 1) = 16 * o + 16 by ring, pow_add]
    norm_num
  have hy : w % 2 ^ (16 * o) + (v % 65536) * 2 ^ (16 * o) < 2 ^ (16 * (o + 1)) := by
    have h1 : w % 2 ^ (16 * o) < 2 ^ (16 * o) := Nat.mod_lt _ (by positivity)
    have h2 : (v % 65536) * 2 ^ (16 * o) ≤ 65535 * 2 ^ (16 * o) :=
      Nat.mul_le_mul_right _ (by omega)
    have h3 : 2 ^ (16 * o) + 65535 * 2 ^ (16 * o) = 2 ^ (16 * o) * 65536 := by ring
    rw [hM]
    omega
  have hdiv1 : store16 w o v / 2 ^ (16 * (o + 1)) = w / 2 ^ (16 * (o + 1)) := by
    rw [store16, Nat.add_mul_div_right _ _ (show 0 < (2 : Nat) ^ (16 * (o + 1)) by positivity),
      Nat.div_eq_of_lt hy, Nat.zero_add]
  have hsplit : (2 : Nat) ^ (16 * o') = 2 ^ (16 * (o + 1)) * 2 ^ (16 * o' - 16 * (o + 1)) := by
    rw [← pow_add, show 16 * (o + 1) + (16 * o' - 16 * (o + 1)) = 16 * o' by omega]
  rw [hsplit, ← Nat.div_div_eq_div_mul, ← Nat.div_div_eq_div_mul, hdiv1]

theorem read16_eq_field (inv : List Nat) (base s : Nat) :
    read16 inv base s = wordOf inv (base + s / 4) / 2 ^ (16 * (s % 4)) % 65536 := by
  rw [read16, Nat.shiftRight_eq_div_pow, show (65535 : Nat) = 2 ^ 16 - 1 by norm_num,
    Nat.and_pow_two_sub_one_eq_mod]

theorem write16_length (inv : List Nat) (base s v : Nat) :
    (write16 inv base s v).length = inv.length := by
  rw [write16]
  simp

theorem wordOf_write16_ne (inv : List Nat) (base s v k : Nat) (h : k ≠ base + s / 4) :
    wordOf (write16 inv base s v) k = wordOf inv k := by
  rw [write16, wordOf_set_ne (fun hh => h hh.symm)]

theorem read16_write16_eq (inv : List Nat) (base s v : Nat)
    (hlt : base + s / 4 < inv.length) :
    read16 (write16 inv base s v) base s = v % 65536 := by
  rw [read16_eq_field, write16, wordOf_set_eq hlt, store16_field_eq]

theorem read16_write16_ne (inv : List Nat) (base s s' v : Nat)
    (hlt : base + s / 4 < inv.length) (hne : s' ≠ s) :
    read16 (write16 inv base s v) base s' = read16 inv base s' := by
  by_cases hw : base + s' / 4 = base + s / 4
  · have hdiv : s' / 4 = s / 4 := by omega
    have hmod : s' % 4 ≠ s % 4 := by
      intro hm
      exact hne (by omega)
    rw [read16_eq_field, read16_eq_field, hw, write16, wordOf_set_eq hlt]
    rcases Nat.lt_or_ge (s' % 4) (s % 4) with h | h
    · exact store16_field_lt _ _ _ _ h
    · exact store16_field_gt _ _ _ _ (by omega)
  · rw [read16_eq_field, read16_eq_field, write16, wordOf_set_ne (by omega)]

/-- The inventory the first phase produces, block by block: each block holds
the select position of its first quantum followed by a zeroed subinventory. -/
def blocksSpec (data : List Nat) (opi ups : Nat) : Nat → Nat → List Nat
  | _, 0 => []
  | c, k + 1 =>
    (selectUnchecked data (c * opi) :: List.replicate ups 0)
      ++ blocksSpec data opi ups (c + 1) k

theorem blocksSpec_length (data : List Nat) (opi ups : Nat) :
    ∀ k c, (blocksSpec data opi ups c k).length = k * (1 + ups) := by
  intro k
  induction k with
  | zero =>
    intro c
    simp [blocksSpec]
  | succ k ih =>
    intro c
    show ((selectUnchecked data (c * opi) :: List.replicate ups 0)
      ++ blocksSpec data opi ups (c + 1) k).length = (k + 1) * (1 + ups)
    rw [List.length_append, ih, List.length_cons, List.length_replicate]
    ring

theorem blocksSpec_append (data : List Nat) (opi ups : Nat) :
    ∀ k c j, blocksSpec data opi ups c (k + j)
      = blocksSpec data opi ups c k ++ blocksSpec data opi ups (c + k) j := by
  intro k
  induction k with
  | zero =>
    intro c j
    simp [blocksSpec]
  | succ k ih =>
    intro c j
    rw [show k + 1 + j = (k + j) + 1 by omega]
    show (selectUnchecked data (c * opi) :: List.replicate ups 0)
        ++ blocksSpec data opi ups (c + 1) (k + j)
      = ((selectUnchecked data (c * opi) :: List.replicate ups 0)
        ++ blocksSpec data opi ups (c + 1) k) ++ blocksSpec data opi ups (c + (k + 1)) j
    rw [ih (c + 1) j, List.append_assoc, show c + 1 + k = c + (k + 1) by omega]

theorem blocksSpec_head (data : List Nat) (opi ups : Nat) (c j : Nat) (hj : 0 < j) :
    wordOf (blocksSpec data opi ups c j) 0 = selectUnchecked data (c * opi) := by
  cases j with
  | zero => omega
  | succ j => rfl

theorem blocksSpec_sub_head (data : List Nat) (opi ups : Nat) (c j t : Nat) (hj : 0 < j)
    (ht : t < ups) :
    wordOf (blocksSpec data opi ups c j) (1 + t) = 0 := by
  cases j with
  | zero => omega
  | succ j =>
    rw [show (1 + t) = t + 1 by omega]
    show wordOf (List.replicate ups 0 ++ blocksSpec data opi ups (c + 1) j) t = 0
    rw [wordOf_append_lt (by simp [ht])]
    exact wordOf_replicate_zero _ _

theorem blocksSpec_wordOf_head (data : List Nat) (opi ups : Nat) {m k : Nat} (c : Nat)
    (hm : m < k) :
    wordOf (blocksSpec data opi ups c k) (m * (1 + ups))
      = selectUnchecked data ((c + m) * opi) := by
  rw [show k = m + (k - m) by omega, blocksSpec_append, wordOf_append_ge
    (by rw [blocksSpec_length]), blocksSpec_length, Nat.sub_self,
    blocksSpec_head _ _ _ _ _ (by omega)]

theorem blocksSpec_wordOf_sub (data : List Nat) (opi ups : Nat) {m k : Nat} (c : Nat)
    (hm : m < k) {t : Nat} (ht : t < ups) :
    wordOf (blocksSpec data opi ups c k) (m * (1 + ups) + 1 + t) = 0 := by
  rw [show k = m + (k - m) by omega, blocksSpec_append, wordOf_append_ge
    (by rw [blocksSpec_length]; omega), blocksSpec_length,
    show m * (1 + ups) + 1 + t - m * (1 + ups) = 1 + t by omega,
    blocksSpec_sub_head _ _ _ _ _ _ (by omega) ht]


/-- One word of the first phase: the inner while pushes one block per quantum
that falls inside the current word, each holding the select position of its
quantum. -/
theorem phase1While_spec (P : SSCParams) (data : List Nat) (hwf : WordsWF data)
    (i : Nat) (hi : i < data.length) :
    ∀ fuel c inv,
      countBelow data (64 * i) ≤ c * P.ones_per_inventory →
      countBelow data (64 * (i + 1)) ≤ (c + fuel) * P.ones_per_inventory →
      ∃ k,
        phase1While P fuel inv i (wordOf data i) (countBelow data (64 * i))
            (c * P.ones_per_inventory)
          = (inv ++ blocksSpec data P.ones_per_inventory P.u64_per_subinventory c k,
             (c + k) * P.ones_per_inventory)
        ∧ countBelow data (64 * (i + 1)) ≤ (c + k) * P.ones_per_inventory
        ∧ (k = 0 ∨ 0 < k ∧ (c + k - 1) * P.ones_per_inventory
            < countBelow data (64 * (i + 1))) := by
  intro fuel
  induction fuel with
  | zero =>
    intro c inv hle hfuel
    refine ⟨0, ?_, hfuel, Or.inl rfl⟩
    show (inv, c * P.ones_per_inventory) = _
    rw [show blocksSpec data P.ones_per_inventory P.u64_per_subinventory c 0 = [] from rfl,
      List.append_nil, Nat.add_zero]
  | succ fuel ih =>
    intro c inv hle hfuel
    have hopi := P.opi_pos
    have hcw := countBelow_word_succ data hwf i
    by_cases hcond : c * P.ones_per_inventory
        < countBelow data (64 * i) + popcount (wordOf data i)
    · have hres : c * P.ones_per_inventory - countBelow data (64 * i)
          < popcount (wordOf data i) := by omega
      obtain ⟨hbit, hcnt, hlt64⟩ := selectInWord_spec (wordOf_lt hwf i) hres
      set sPos := selectInWord (wordOf data i)
        (c * P.ones_per_inventory - countBelow data (64 * i)) with hsdef
      have hisS : IsSelect data (c * P.ones_per_inventory) (i * 64 + sPos) := by
        constructor
        · rw [bitGet, show (i * 64 + sPos) / 64 = i by omega,
            show (i * 64 + sPos) % 64 = sPos by omega]
          exact hbit
        · rw [show i * 64 + sPos = 64 * i + sPos by omega,
            countBelow_split data i (show sPos ≤ 64 by omega)]
          omega
      have hcOPIlt : c * P.ones_per_inventory < totalOnes data := by
        have h1 : countBelow data (64 * (i + 1)) ≤ totalOnes data := by
          rw [totalOnes]
          exact countBelow_mono data (by omega)
        omega
      have hsel : selectUnchecked data (c * P.ones_per_inventory) = i * 64 + sPos :=
        isSelect_unique (selectUnchecked_correct hwf hcOPIlt) hisS
      have hstep : phase1While P (fuel + 1) inv i (wordOf data i)
            (countBelow data (64 * i)) (c * P.ones_per_inventory)
          = phase1While P fuel
              (inv ++ (i * 64 + sPos) :: List.replicate P.u64_per_subinventory 0)
              i (wordOf data i) (countBelow data (64 * i))
              ((c + 1) * P.ones_per_inventory) := by
        simp only [phase1While]
        rw [if_pos hcond, show c * P.ones_per_inventory + P.ones_per_inventory
          = (c + 1) * P.ones_per_inventory by ring]
      rw [hstep]
      have hle' : countBelow data (64 * i) ≤ (c + 1) * P.ones_per_inventory := by
        have he : (c + 1) * P.ones_per_inventory
            = c * P.ones_per_inventory + P.ones_per_inventory := by ring
        omega
      have hfuel' : countBelow data (64 * (i + 1))
          ≤ (c + 1 + fuel) * P.ones_per_inventory := by
        rw [show c + 1 + fuel = c + (fuel + 1) by omega]
        exact hfuel
      obtain ⟨k, heq, hge, hk⟩ := ih (c + 1)
        (inv ++ (i * 64 + sPos) :: List.replicate P.u64_per_subinventory 0) hle' hfuel'
      refine ⟨k + 1, ?_, ?_, ?_⟩
      · rw [heq]
        have hA : (inv ++ (i * 64 + sPos) :: List.replicate P.u64_per_subinventory 0)
            ++ blocksSpec data P.ones_per_inventory P.u64_per_subinventory (c + 1) k
            = inv ++ blocksSpec data P.ones_per_inventory P.u64_per_subinventory c (k + 1) := by
          rw [List.append_assoc,
            show blocksSpec data P.ones_per_inventory P.u64_per_subinventory c (k + 1)
              = (selectUnchecked data (c * P.ones_per_inventory)
                  :: List.replicate P.u64_per_subinventory 0)
                ++ blocksSpec data P.ones_per_inventory P.u64_per_subinventory (c + 1) k
              from rfl, hsel]
        rw [hA, show c + 1 + k = c + (k + 1) by omega]
      · rw [show c + (k + 1) = c + 1 + k by omega]
        exact hge
      · right
        refine ⟨by omega, ?_⟩
        rw [show c + (k + 1) - 1 = c + k by omega]
        rcases hk with h0 | ⟨hkpos, hlt⟩
        · subst h0
          rw [Nat.add_zero]
          omega
        · rw [show c + k = c + 1 + k - 1 by omega]
          exact hlt
    · refine ⟨0, ?_, (by
        have hj : (c + 0) * P.ones_per_inventory = c * P.ones_per_inventory := by ring
        omega), Or.inl rfl⟩
      simp only [phase1While]
      rw [if_neg hcond, show blocksSpec data P.ones_per_inventory P.u64_per_subinventory c 0
        = [] from rfl, List.append_nil, Nat.add_zero]

/-- The first phase produces exactly one block per quantum of the whole
vector: starting from word `i` with `c` blocks already pushed, it appends the
remaining blocks. -/
theorem phase1Go_spec (P : SSCParams) (data : List Nat) (hwf : WordsWF data) :
    ∀ ws i inv c,
      data.drop i = ws →
      countBelow data (64 * i) ≤ c * P.ones_per_inventory →
      (c = 0 ∧ countBelow data (64 * i) = 0
        ∨ 0 < c ∧ (c - 1) * P.ones_per_inventory < countBelow data (64 * i)) →
      phase1Go P ws i inv (countBelow data (64 * i)) (c * P.ones_per_inventory)
        = inv ++ blocksSpec data P.ones_per_inventory P.u64_per_subinventory c
            ((totalOnes data + P.ones_per_inventory - 1) / P.ones_per_inventory - c) := by
  intro ws
  induction ws with
  | nil =>
    intro i inv c hdrop hle hchar
    have hopi := P.opi_pos
    have hiL : data.length ≤ i := by
      have hlen := congrArg List.length hdrop
      simp at hlen
      omega
    have htot : countBelow data (64 * i) = totalOnes data :=
      countBelow_eq_total (by omega)
    have hcsize : (totalOnes data + P.ones_per_inventory - 1) / P.ones_per_inventory ≤ c := by
      have h1 : totalOnes data + P.ones_per_inventory - 1
          ≤ c * P.ones_per_inventory + (P.ones_per_inventory - 1) := by omega
      have h2 : (c * P.ones_per_inventory + (P.ones_per_inventory - 1))
          / P.ones_per_inventory = c := by
        rw [Nat.mul_comm, Nat.mul_add_div hopi, Nat.div_eq_of_lt (by omega), Nat.add_zero]
      calc (totalOnes data + P.ones_per_inventory - 1) / P.ones_per_inventory
          ≤ (c * P.ones_per_inventory + (P.ones_per_inventory - 1))
            / P.ones_per_inventory := Nat.div_le_div_right h1
        _ = c := h2
    rw [show (totalOnes data + P.ones_per_inventory - 1) / P.ones_per_inventory - c = 0
      by omega]
    show inv = inv ++ blocksSpec data P.ones_per_inventory P.u64_per_subinventory c 0
    rw [show blocksSpec data P.ones_per_inventory P.u64_per_subinventory c 0 = [] from rfl,
      List.append_nil]
  | cons w ws' ih =>
    intro i inv c hdrop hle hchar
    have hopi := P.opi_pos
    have hiL : i < data.length := by
      by_contra hcon
      rw [List.drop_eq_nil_of_le (by omega)] at hdrop
      simp at hdrop
    have hw : wordOf data i = w := by
      have hgot : (data.drop i).getD 0 0 = w := by
        rw [hdrop]
        rfl
      rw [wordOf, ← hgot, List.getD_eq_getElem?_getD, List.getD_eq_getElem?_getD,
        List.getElem?_drop, Nat.add_zero]
    have hws' : data.drop (i + 1) = ws' := by
      have h2 := congrArg (List.drop 1) hdrop
      rw [List.drop_drop] at h2
      simpa using h2
    have hcw := countBelow_word_succ data hwf i
    show phase1Go P (w :: ws') i inv (countBelow data (64 * i)) (c * P.ones_per_inventory)
      = _
    simp only [phase1Go]
    rw [← hw]
    have hpc : popcount (wordOf data i) ≤ 64 := popcount_le _
    have h65 : countBelow data (64 * (i + 1)) ≤ (c + 65) * P.ones_per_inventory := by
      have he : (c + 65) * P.ones_per_inventory
          = c * P.ones_per_inventory + 65 * P.ones_per_inventory := by ring
      have h1 : 64 < 65 * P.ones_per_inventory := by omega
      omega
    obtain ⟨k, heq, hge, hk⟩ := phase1While_spec P data hwf i hiL 65 c inv hle h65
    rw [heq]
    show phase1Go P ws' (i + 1)
        (inv ++ blocksSpec data P.ones_per_inventory P.u64_per_subinventory c k)
        (countBelow data (64 * i) + popcount (wordOf data i)) ((c + k) * P.ones_per_inventory)
      = inv ++ blocksSpec data P.ones_per_inventory P.u64_per_subinventory c
          ((totalOnes data + P.ones_per_inventory - 1) / P.ones_per_inventory - c)
    rw [show countBelow data (64 * i) + popcount (wordOf data i)
      = countBelow data (64 * (i + 1)) by omega]
    have hchar' : (c + k = 0 ∧ countBelow data (64 * (i + 1)) = 0
        ∨ 0 < c + k ∧ (c + k - 1) * P.ones_per_inventory
            < countBelow data (64 * (i + 1))) := by
      rcases hk with h0 | ⟨hkpos, hlt⟩
      · subst h0
        rcases hchar with ⟨hc0, hcb0⟩ | ⟨hcpos, hclt⟩
        · subst hc0
          left
          have hge' := hge
          simp at hge'
          omega
        · right
          refine ⟨by omega, ?_⟩
          rw [Nat.add_zero]
          omega
      · right
        refine ⟨by omega, hlt⟩
    rw [ih (i + 1) (inv ++ blocksSpec data P.ones_per_inventory P.u64_per_subinventory c k)
      (c + k) hws' hge hchar', List.append_assoc]
    have hck : c + k ≤ (totalOnes data + P.ones_per_inventory - 1) / P.ones_per_inventory := by
      rcases hchar' with ⟨h0, _⟩ | ⟨hpos, hltt⟩
      · rw [h0]
        exact Nat.zero_le _
      · have htle : countBelow data (64 * (i + 1)) ≤ totalOnes data := by
          rw [totalOnes]
          exact countBelow_mono data (by omega)
        rw [Nat.le_div_iff_mul_le hopi]
        have he : (c + k) * P.ones_per_inventory
            = (c + k - 1) * P.ones_per_inventory + P.ones_per_inventory := by
          obtain ⟨m, hm⟩ : ∃ m, c + k = m + 1 := ⟨c + k - 1, by omega⟩
          rw [hm, Nat.add_sub_cancel]
          ring
        omega
    rw [show (totalOnes data + P.ones_per_inventory - 1) / P.ones_per_inventory - c
      = k + ((totalOnes data + P.ones_per_inventory - 1) / P.ones_per_inventory - (c + k))
      by omega]
    rw [blocksSpec_append]


/-- Reading subinventory slot `s` of the block starting at `startIdx`, as u16
or u64 depending on the block type (simple_select_const.rs lines 336-350). -/
def subSlotVal (inv : List Nat) (is16 : Bool) (startIdx s : Nat) : Nat :=
  if is16 then read16 inv (startIdx + 1) s else wordOf inv (startIdx + 1 + s)

theorem maskFrom_of_zero (b : Nat) : maskFrom 0 b = 0 := by
  rw [maskFrom]
  simp

theorem popcount_of_zero : popcount 0 = 0 := popcountFuel_zero 64

/-- Counting up to a masked word boundary: the count below `64*wordIdx + b`
plus the ones of the masked word is the count below the next word boundary. -/
theorem countBelow_masked (data : List Nat) (hwf : WordsWF data) (wordIdx : Nat) {b : Nat}
    (hb : b ≤ 64) :
    countBelow data (64 * wordIdx + b) + popcount (maskFrom (wordOf data wordIdx) b)
      = countBelow data (64 * (wordIdx + 1)) := by
  have hw := wordOf_lt hwf wordIdx
  have h1 := countBelow_split data wordIdx hb
  have h2 := countBelow_split data wordIdx (le_refl 64)
  have h3 := bitsBelow_maskFrom_add (wordOf data wordIdx) hb
  have h4 : popcount (maskFrom (wordOf data wordIdx) b)
      = bitsBelow (maskFrom (wordOf data wordIdx) b) 64 :=
    popcount_eq_bitsBelow (maskFrom_lt hw b)
  rw [show 64 * (wordIdx + 1) = 64 * wordIdx + 64 by ring, h2]
  omega

/-- Selecting inside a masked word: if the residual rank falls inside the
masked word, the found position is a select position for the global rank. -/
theorem maskedWord_isSelect {data : List Nat} (hwf : WordsWF data)
    {wordIdx b residual K : Nat} (hb : b ≤ 64)
    (hcnt : residual + countBelow data (64 * wordIdx + b) = K)
    (hres : residual < popcount (maskFrom (wordOf data wordIdx) b)) :
    IsSelect data K
      (wordIdx * 64 + selectInWord (maskFrom (wordOf data wordIdx) b) residual) := by
  have hw0 : wordOf data wordIdx < 2 ^ 64 := wordOf_lt hwf wordIdx
  have hmlt : maskFrom (wordOf data wordIdx) b < 2 ^ 64 := maskFrom_lt hw0 b
  obtain ⟨hbit, hcnt2, hlt⟩ := selectInWord_spec hmlt hres
  have hbs : b ≤ selectInWord (maskFrom (wordOf data wordIdx) b) residual
      ∧ (wordOf data wordIdx).testBit
          (selectInWord (maskFrom (wordOf data wordIdx) b) residual) = true := by
    have h := hbit
    rw [maskFrom_testBit] at h
    by_cases hcs : b ≤ selectInWord (maskFrom (wordOf data wordIdx) b) residual
    · rw [decide_eq_true hcs] at h
      simp at h
      exact ⟨hcs, h⟩
    · rw [decide_eq_false hcs] at h
      simp at h
  have hsum : bitsBelow (wordOf data wordIdx) b
      + bitsBelow (maskFrom (wordOf data wordIdx) b)
          (selectInWord (maskFrom (wordOf data wordIdx) b) residual)
      = bitsBelow (wordOf data wordIdx)
          (selectInWord (maskFrom (wordOf data wordIdx) b) residual) :=
    bitsBelow_maskFrom_add (wordOf data wordIdx) hbs.1
  have hcb : countBelow data (64 * wordIdx + b)
      = countBelow data (64 * wordIdx) + bitsBelow (wordOf data wordIdx) b :=
    countBelow_split data wordIdx hb
  constructor
  · rw [bitGet,
      show (wordIdx * 64 + selectInWord (maskFrom (wordOf data wordIdx) b) residual) / 64
        = wordIdx by omega,
      show (wordIdx * 64 + selectInWord (maskFrom (wordOf data wordIdx) b) residual) % 64
        = selectInWord (maskFrom (wordOf data wordIdx) b) residual by omega]
    exact hbs.2
  · rw [show wordIdx * 64 + selectInWord (maskFrom (wordOf data wordIdx) b) residual
      = 64 * wordIdx + selectInWord (maskFrom (wordOf data wordIdx) b) residual by omega,
      countBelow_split data wordIdx
        (show selectInWord (maskFrom (wordOf data wordIdx) b) residual ≤ 64 by omega)]
    omega


/-- The subinventory store of phase two, u16 or u64 (the two write paths of
simple_select_const.rs lines 265-280). -/
def slotWrite (inv : List Nat) (is16 : Bool) (startIdx s v : Nat) : List Nat :=
  if is16 then write16 inv (startIdx + 1) s v else inv.set (startIdx + 1 + s) v

theorem slotWrite_length (inv : List Nat) (is16 : Bool) (startIdx s v : Nat) :
    (slotWrite inv is16 startIdx s v).length = inv.length := by
  cases is16
  · show (inv.set (startIdx + 1 + s) v).length = inv.length
    simp
  · show (write16 inv (startIdx + 1) s v).length = inv.length
    exact write16_length _ _ _ _

theorem subSlotVal_slotWrite_eq (inv : List Nat) (is16 : Bool) (startIdx s v : Nat)
    (h : startIdx + 1 + (if is16 then s / 4 else s) < inv.length) :
    subSlotVal (slotWrite inv is16 startIdx s v) is16 startIdx s
      = if is16 then v % 65536 else v := by
  cases is16
  · show wordOf (inv.set (startIdx + 1 + s) v) (startIdx + 1 + s) = v
    exact wordOf_set_eq (by exact h) v
  · show read16 (write16 inv (startIdx + 1) s v) (startIdx + 1) s = v % 65536
    exact read16_write16_eq _ _ _ _ (by exact h)

theorem subSlotVal_slotWrite_ne (inv : List Nat) (is16 : Bool) (startIdx s s' v : Nat)
    (h : startIdx + 1 + (if is16 then s / 4 else s) < inv.length) (hne : s' ≠ s) :
    subSlotVal (slotWrite inv is16 startIdx s v) is16 startIdx s'
      = subSlotVal inv is16 startIdx s' := by
  cases is16
  · show wordOf (inv.set (startIdx + 1 + s) v) (startIdx + 1 + s')
      = wordOf inv (startIdx + 1 + s')
    exact wordOf_set_ne (by omega) v
  · show read16 (write16 inv (startIdx + 1) s v) (startIdx + 1) s'
      = read16 inv (startIdx + 1) s'
    exact read16_write16_ne _ _ _ _ _ (by exact h) hne

theorem wordOf_slotWrite_ne (inv : List Nat) (is16 : Bool) (startIdx s v t : Nat)
    (h : t ≠ startIdx + 1 + (if is16 then s / 4 else s)) :
    wordOf (slotWrite inv is16 startIdx s v) t = wordOf inv t := by
  cases is16
  · show wordOf (inv.set (startIdx + 1 + s) v) t = wordOf inv t
    have h2 : t ≠ startIdx + 1 + s := h
    exact wordOf_set_ne (by omega) v
  · show wordOf (write16 inv (startIdx + 1) s v) t = wordOf inv t
    exact wordOf_write16_ne _ _ _ _ _ (by exact h)

/-- Invariant of the inner while-loop of phase two: writes fill consecutive
slots with the select offsets of their quanta, stay inside the block region,
and the loop either fills the subinventory (`broke`) or exhausts the word. -/
theorem phase2While_spec (P : SSCParams) (data : List Nat) (hwf : WordsWF data)
    (is16 : Bool) (i1 q slotMax startBit wordIdx b : Nat) (N : Nat)
    (hb : b ≤ 64)
    (hqpos : 0 < q)
    (hNreg : (i1 + 1) * P.u64_per_inventory ≤ N)
    (hups : P.u64_per_inventory = 1 + P.u64_per_subinventory)
    (hwr : ∀ t, t < slotMax → (if is16 then t / 4 else t) < P.u64_per_subinventory)
    (hfits : is16 = true → ∀ m, i1 * P.ones_per_inventory ≤ m →
      m < i1 * P.ones_per_inventory + slotMax * q → m < totalOnes data →
      selectUnchecked data m - startBit < 65536) :
    ∀ fuel inv s nq,
      inv.length = N →
      nq = i1 * P.ones_per_inventory + s * q →
      s < slotMax →
      countBelow data (64 * wordIdx + b) ≤ nq →
      countBelow data (64 * wordIdx + b) + popcount (maskFrom (wordOf data wordIdx) b)
        ≤ nq + fuel * q →
      (∀ j, j < s → i1 * P.ones_per_inventory + j * q < totalOnes data
        ∧ subSlotVal inv is16 (i1 * P.u64_per_inventory) j
          = selectUnchecked data (i1 * P.ones_per_inventory + j * q) - startBit) →
      ∃ inv2 s2 nq2 broke,
        phase2While is16 (i1 * P.u64_per_inventory) startBit q slotMax wordIdx
            (maskFrom (wordOf data wordIdx) b) (countBelow data (64 * wordIdx + b))
            fuel inv s nq
          = (inv2, s2, nq2, broke)
        ∧ inv2.length = N
        ∧ s ≤ s2
        ∧ (∀ j, j < s2 → i1 * P.ones_per_inventory + j * q < totalOnes data
            ∧ subSlotVal inv2 is16 (i1 * P.u64_per_inventory) j
              = selectUnchecked data (i1 * P.ones_per_inventory + j * q) - startBit)
        ∧ (∀ t, t ≤ i1 * P.u64_per_inventory
              ∨ i1 * P.u64_per_inventory + 1 + P.u64_per_subinventory ≤ t →
            wordOf inv2 t = wordOf inv t)
        ∧ (broke = true ∧ s2 = slotMax
          ∨ broke = false ∧ s2 < slotMax ∧ nq2 = i1 * P.ones_per_inventory + s2 * q
            ∧ countBelow data (64 * wordIdx + b)
                + popcount (maskFrom (wordOf data wordIdx) b) ≤ nq2) := by
  intro fuel
  induction fuel with
  | zero =>
    intro inv s nq hlen hnq hslt hple hfuel hW4
    refine ⟨inv, s, nq, false, rfl, hlen, le_refl s, hW4, fun t _ => rfl,
      Or.inr ⟨rfl, hslt, hnq, by omega⟩⟩
  | succ fuel ih =>
    intro inv s nq hlen hnq hslt hple hfuel hW4
    by_cases hcond : nq < countBelow data (64 * wordIdx + b)
        + popcount (maskFrom (wordOf data wordIdx) b)
    · have hwlt : wordIdx < data.length := by
        by_contra hcon
        have h0 : wordOf data wordIdx = 0 := by
          rw [wordOf, List.getD_eq_default _ _ (by omega)]
        rw [h0, maskFrom_of_zero, popcount_of_zero] at hcond
        omega
      have hres : nq - countBelow data (64 * wordIdx + b)
          < popcount (maskFrom (wordOf data wordIdx) b) := by omega
      have hcmask := countBelow_masked data hwf wordIdx hb
      have hnqtot : nq < totalOnes data := by
        have hmono : countBelow data (64 * (wordIdx + 1)) ≤ totalOnes data := by
          rw [totalOnes]
          exact countBelow_mono data (by omega)
        omega
      have hisS := maskedWord_isSelect hwf hb
        (show nq - countBelow data (64 * wordIdx + b) + countBelow data (64 * wordIdx + b)
          = nq by omega) hres
      have hseleq : selectUnchecked data nq
          = wordIdx * 64 + selectInWord (maskFrom (wordOf data wordIdx) b)
              (nq - countBelow data (64 * wordIdx + b)) :=
        isSelect_unique (selectUnchecked_correct hwf hnqtot) hisS
      set SOff := wordIdx * 64 + selectInWord (maskFrom (wordOf data wordIdx) b)
          (nq - countBelow data (64 * wordIdx + b)) - startBit with hSOff
      have hSOffeq : SOff = selectUnchecked data nq - startBit := by
        rw [hseleq]
      set INV2 := slotWrite inv is16 (i1 * P.u64_per_inventory) s SOff with hINV2
      have hwrS := hwr s hslt
      have hbase : i1 * P.u64_per_inventory + 1 + P.u64_per_subinventory ≤ N := by
        have he : (i1 + 1) * P.u64_per_inventory
            = i1 * P.u64_per_inventory + P.u64_per_inventory := by ring
        omega
      have hbound : i1 * P.u64_per_inventory + 1 + (if is16 then s / 4 else s)
          < inv.length := by omega
      have hINV2len : INV2.length = N := by
        rw [hINV2, slotWrite_length, hlen]
      have hval : subSlotVal INV2 is16 (i1 * P.u64_per_inventory) s
          = selectUnchecked data nq - startBit := by
        rw [hINV2, subSlotVal_slotWrite_eq inv is16 _ s SOff hbound]
        by_cases h16 : is16 = true
        · rw [if_pos h16]
          have hmul : s * q < slotMax * q := (Nat.mul_lt_mul_right hqpos).mpr hslt
          have hlt16 : SOff < 65536 := by
            rw [hSOffeq]
            exact hfits h16 nq (by omega) (by omega) hnqtot
          rw [Nat.mod_eq_of_lt hlt16]
          exact hSOffeq
        · rw [if_neg h16]
          exact hSOffeq
      have hW4new : ∀ j, j < s + 1 → i1 * P.ones_per_inventory + j * q < totalOnes data
          ∧ subSlotVal INV2 is16 (i1 * P.u64_per_inventory) j
            = selectUnchecked data (i1 * P.ones_per_inventory + j * q) - startBit := by
        intro j hj
        rcases Nat.lt_or_ge j s with hjs | hjs
        · obtain ⟨hq1, hq2⟩ := hW4 j hjs
          refine ⟨hq1, ?_⟩
          rw [hINV2, subSlotVal_slotWrite_ne inv is16 _ s j SOff hbound (by omega)]
          exact hq2
        · have hjeq : j = s := by omega
          subst hjeq
          constructor
          · rw [← hnq]
            exact hnqtot
          · rw [← hnq]
            exact hval
      have hframe2 : ∀ t, t ≤ i1 * P.u64_per_inventory
            ∨ i1 * P.u64_per_inventory + 1 + P.u64_per_subinventory ≤ t →
          wordOf INV2 t = wordOf inv t := by
        intro t ht
        rw [hINV2]
        refine wordOf_slotWrite_ne _ _ _ _ _ _ ?_
        rcases ht with h | h
        · omega
        · omega
      have hstep0 : phase2While is16 (i1 * P.u64_per_inventory) startBit q slotMax wordIdx
            (maskFrom (wordOf data wordIdx) b) (countBelow data (64 * wordIdx + b))
            (fuel + 1) inv s nq
          = if countBelow data (64 * wordIdx + b)
              + popcount (maskFrom (wordOf data wordIdx) b) > nq then
              (if s + 1 = slotMax then (INV2, s + 1, nq, true)
               else phase2While is16 (i1 * P.u64_per_inventory) startBit q slotMax wordIdx
                 (maskFrom (wordOf data wordIdx) b) (countBelow data (64 * wordIdx + b))
                 fuel INV2 (s + 1) (nq + q))
            else (inv, s, nq, false) := rfl
      rw [if_pos hcond] at hstep0
      by_cases hfull : s + 1 = slotMax
      · rw [if_pos hfull] at hstep0
        exact ⟨INV2, s + 1, nq, true, hstep0, hINV2len, by omega, hW4new, hframe2,
          Or.inl ⟨rfl, hfull⟩⟩
      · rw [if_neg hfull] at hstep0
        obtain ⟨inv3, s3, nq3, broke3, heq3, hlen3, hs3, hW43, hframe3, hdisj3⟩ :=
          ih INV2 (s + 1) (nq + q) hINV2len (by rw [hnq]; ring) (by omega) (by omega)
            (by
              have hq1 : (fuel + 1) * q = fuel * q + q := by ring
              omega)
            hW4new
        refine ⟨inv3, s3, nq3, broke3, ?_, hlen3, by omega, hW43, ?_, ?_⟩
        · rw [hstep0]
          exact heq3
        · intro t ht
          rw [hframe3 t ht, hframe2 t ht]
        · rcases hdisj3 with ⟨hb3, hs3e⟩ | ⟨hb3, hs3l, hnq3, hc3⟩
          · exact Or.inl ⟨hb3, hs3e⟩
          · exact Or.inr ⟨hb3, hs3l, hnq3, by omega⟩
    · have hstep0 : phase2While is16 (i1 * P.u64_per_inventory) startBit q slotMax wordIdx
            (maskFrom (wordOf data wordIdx) b) (countBelow data (64 * wordIdx + b))
            (fuel + 1) inv s nq
          = if countBelow data (64 * wordIdx + b)
              + popcount (maskFrom (wordOf data wordIdx) b) > nq then
              (if s + 1 = slotMax
               then (slotWrite inv is16 (i1 * P.u64_per_inventory) s
                  (wordIdx * 64 + selectInWord (maskFrom (wordOf data wordIdx) b)
                    (nq - countBelow data (64 * wordIdx + b)) - startBit), s + 1, nq, true)
               else phase2While is16 (i1 * P.u64_per_inventory) startBit q slotMax wordIdx
                 (maskFrom (wordOf data wordIdx) b) (countBelow data (64 * wordIdx + b))
                 fuel (slotWrite inv is16 (i1 * P.u64_per_inventory) s
                  (wordIdx * 64 + selectInWord (maskFrom (wordOf data wordIdx) b)
                    (nq - countBelow data (64 * wordIdx + b)) - startBit)) (s + 1) (nq + q))
            else (inv, s, nq, false) := rfl
      rw [if_neg hcond] at hstep0
      exact ⟨inv, s, nq, false, hstep0, hlen, le_refl s, hW4, fun t _ => rfl,
        Or.inr ⟨rfl, hslt, hnq, by omega⟩⟩


/-- Invariant of the outer loop of phase two: scanning words from the block
start fills every subinventory slot whose quantum exists, touching only the
block's own region. -/
theorem phase2Outer_spec (P : SSCParams) (data : List Nat) (hwf : WordsWF data)
    (is16 : Bool) (i1 q slotMax startBit endWord : Nat) (N : Nat)
    (hqpos : 0 < q)
    (hNreg : (i1 + 1) * P.u64_per_inventory ≤ N)
    (hups : P.u64_per_inventory = 1 + P.u64_per_subinventory)
    (hwr : ∀ t, t < slotMax → (if is16 then t / 4 else t) < P.u64_per_subinventory)
    (hfits : is16 = true → ∀ m, i1 * P.ones_per_inventory ≤ m →
      m < i1 * P.ones_per_inventory + slotMax * q → m < totalOnes data →
      selectUnchecked data m - startBit < 65536)
    (hslotq : slotMax * q = P.ones_per_inventory)
    (hcbEnd : min ((i1 + 1) * P.ones_per_inventory) (totalOnes data)
      ≤ countBelow data (64 * endWord)) :
    ∀ fuel wordIdx b inv s nq,
      b ≤ 64 →
      inv.length = N →
      nq = i1 * P.ones_per_inventory + s * q →
      s < slotMax →
      countBelow data (64 * wordIdx + b) ≤ nq →
      wordIdx < endWord →
      endWord ≤ wordIdx + fuel →
      (∀ j, j < s → i1 * P.ones_per_inventory + j * q < totalOnes data
        ∧ subSlotVal inv is16 (i1 * P.u64_per_inventory) j
          = selectUnchecked data (i1 * P.ones_per_inventory + j * q) - startBit) →
      (phase2Outer data is16 (i1 * P.u64_per_inventory) startBit q slotMax endWord
          fuel inv wordIdx (maskFrom (wordOf data wordIdx) b)
          (countBelow data (64 * wordIdx + b)) s nq).length = N
      ∧ (∀ j, j < slotMax → i1 * P.ones_per_inventory + j * q < totalOnes data →
          subSlotVal (phase2Outer data is16 (i1 * P.u64_per_inventory) startBit q slotMax
              endWord fuel inv wordIdx (maskFrom (wordOf data wordIdx) b)
              (countBelow data (64 * wordIdx + b)) s nq)
            is16 (i1 * P.u64_per_inventory) j
            = selectUnchecked data (i1 * P.ones_per_inventory + j * q) - startBit)
      ∧ (∀ t, t ≤ i1 * P.u64_per_inventory
            ∨ i1 * P.u64_per_inventory + 1 + P.u64_per_subinventory ≤ t →
          wordOf (phase2Outer data is16 (i1 * P.u64_per_inventory) startBit q slotMax
              endWord fuel inv wordIdx (maskFrom (wordOf data wordIdx) b)
              (countBelow data (64 * wordIdx + b)) s nq) t = wordOf inv t) := by
  intro fuel
  induction fuel with
  | zero =>
    intro wordIdx b inv s nq hb hlen hnq hslt hple hwe hfuel hW4
    omega
  | succ fuel ih =>
    intro wordIdx b inv s nq hb hlen hnq hslt hple hwe hfuel hW4
    have hfuel65 : countBelow data (64 * wordIdx + b)
        + popcount (maskFrom (wordOf data wordIdx) b) ≤ nq + 65 * q := by
      have hpc := popcount_le (maskFrom (wordOf data wordIdx) b)
      omega
    obtain ⟨inv2, s2, nq2, broke, heqW, hlen2, hs2, hW42, hframe2, hdisj⟩ :=
      phase2While_spec P data hwf is16 i1 q slotMax startBit wordIdx b N hb hqpos hNreg
        hups hwr hfits 65 inv s nq hlen hnq hslt hple hfuel65 hW4
    have hstep : phase2Outer data is16 (i1 * P.u64_per_inventory) startBit q slotMax endWord
          (fuel + 1) inv wordIdx (maskFrom (wordOf data wordIdx) b)
          (countBelow data (64 * wordIdx + b)) s nq
        = if broke then inv2
          else if wordIdx + 1 = endWord then inv2
          else phase2Outer data is16 (i1 * P.u64_per_inventory) startBit q slotMax endWord
            fuel inv2 (wordIdx + 1) (wordOf data (wordIdx + 1))
            (countBelow data (64 * wordIdx + b)
              + popcount (maskFrom (wordOf data wordIdx) b)) s2 nq2 := by
      show (match phase2While is16 (i1 * P.u64_per_inventory) startBit q slotMax wordIdx
          (maskFrom (wordOf data wordIdx) b) (countBelow data (64 * wordIdx + b))
          65 inv s nq with
        | (inv2, s2, nq2, broke) =>
          if broke then inv2
          else if wordIdx + 1 = endWord then inv2
          else phase2Outer data is16 (i1 * P.u64_per_inventory) startBit q slotMax endWord
            fuel inv2 (wordIdx + 1) (wordOf data (wordIdx + 1))
            (countBelow data (64 * wordIdx + b)
              + popcount (maskFrom (wordOf data wordIdx) b)) s2 nq2) = _
      rw [heqW]
    rcases hdisj with ⟨hb3, hs2e⟩ | ⟨hb3, hs2lt, hnq2, hc2⟩
    · rw [hstep, if_pos hb3]
      refine ⟨hlen2, ?_, hframe2⟩
      intro j hj hjn
      rw [← hs2e] at hj
      exact (hW42 j hj).2
    · rw [hstep, if_neg (by simp [hb3])]
      by_cases hend : wordIdx + 1 = endWord
      · rw [if_pos hend]
        have hcmask := countBelow_masked data hwf wordIdx hb
        rcases Nat.le_total ((i1 + 1) * P.ones_per_inventory) (totalOnes data)
          with hmin | hmin
        · exfalso
          have hminle := hcbEnd
          rw [min_eq_left hmin, ← hend] at hminle
          have h1 : (i1 + 1) * P.ones_per_inventory ≤ nq2 := by omega
          have hq2 : s2 * q < slotMax * q := (Nat.mul_lt_mul_right hqpos).mpr hs2lt
          have he : (i1 + 1) * P.ones_per_inventory
              = i1 * P.ones_per_inventory + slotMax * q := by
            rw [hslotq]
            ring
          omega
        · refine ⟨hlen2, ?_, hframe2⟩
          intro j hj hjnum
          rcases Nat.lt_or_ge j s2 with hjs | hjs
          · exact (hW42 j hjs).2
          · exfalso
            have hminle := hcbEnd
            rw [min_eq_right hmin, ← hend] at hminle
            have h2 : s2 * q ≤ j * q := Nat.mul_le_mul_right q hjs
            omega
      · rw [if_neg hend]
        have hcmask := countBelow_masked data hwf wordIdx hb
        have hrec := ih (wordIdx + 1) 0 inv2 s2 nq2 (by omega) hlen2 hnq2 hs2lt
          (by
            have hz : countBelow data (64 * (wordIdx + 1) + 0)
                = countBelow data (64 * (wordIdx + 1)) := by
              rw [Nat.add_zero]
            omega)
          (by omega) (by omega) hW42
        obtain ⟨hlen3, hslots3, hframe3⟩ := hrec
        rw [show countBelow data (64 * wordIdx + b)
          + popcount (maskFrom (wordOf data wordIdx) b)
          = countBelow data (64 * (wordIdx + 1)) from hcmask]
        exact ⟨hlen3, hslots3, fun t ht => (hframe3 t ht).trans (hframe2 t ht)⟩


theorem ceil_div_le (tot opi c : Nat) (hopi : 0 < opi) (h : tot ≤ c * opi) :
    (tot + opi - 1) / opi ≤ c := by
  have h1 : tot + opi - 1 ≤ c * opi + (opi - 1) := by omega
  have h2 : (c * opi + (opi - 1)) / opi = c := by
    rw [Nat.mul_comm, Nat.mul_add_div hopi, Nat.div_eq_of_lt (by omega), Nat.add_zero]
  calc (tot + opi - 1) / opi ≤ (c * opi + (opi - 1)) / opi := Nat.div_le_div_right h1
    _ = c := h2

theorem lt_tot_of_lt_ceil (tot opi c : Nat) (hopi : 0 < opi)
    (h : c < (tot + opi - 1) / opi) : c * opi < tot := by
  by_contra hcon
  have := ceil_div_le tot opi c hopi (by omega)
  omega

theorem SSCParams.opi_eq (P : SSCParams) :
    P.ones_per_inventory = 2 ^ P.log2_ones_per_inventory := by
  rw [SSCParams.ones_per_inventory, Nat.shiftLeft_eq, one_mul]

theorem SSCParams.ups_eq (P : SSCParams) :
    P.u64_per_subinventory = 2 ^ P.log2_u64_per_subinventory := by
  rw [SSCParams.u64_per_subinventory, Nat.shiftLeft_eq, one_mul]

theorem SSCParams.sub16_eq (P : SSCParams) : P.ones_per_sub16
    = 2 ^ (P.log2_ones_per_inventory - P.log2_u64_per_subinventory - 2) := by
  rw [SSCParams.ones_per_sub16, SSCParams.log2_ones_per_sub16, SSCParams.log2_ones_per_sub64,
    Nat.shiftLeft_eq, one_mul]

theorem SSCParams.sub64_eq (P : SSCParams) : P.ones_per_sub64
    = 2 ^ (P.log2_ones_per_inventory - P.log2_u64_per_subinventory) := by
  rw [SSCParams.ones_per_sub64, SSCParams.log2_ones_per_sub64, Nat.shiftLeft_eq, one_mul]

theorem SSCParams.sub16_pos (P : SSCParams) : 0 < P.ones_per_sub16 := by
  rw [P.sub16_eq]
  positivity

theorem SSCParams.sub64_pos (P : SSCParams) : 0 < P.ones_per_sub64 := by
  rw [P.sub64_eq]
  positivity

theorem SSCParams.div_sub16 (P : SSCParams)
    (h : P.log2_u64_per_subinventory + 2 ≤ P.log2_ones_per_inventory) :
    P.ones_per_inventory / P.ones_per_sub16 = 2 ^ (P.log2_u64_per_subinventory + 2) := by
  rw [P.opi_eq, P.sub16_eq, show (2 : Nat) ^ P.log2_ones_per_inventory
    = 2 ^ (P.log2_ones_per_inventory - P.log2_u64_per_subinventory - 2)
      * 2 ^ (P.log2_u64_per_subinventory + 2) by rw [← pow_add]; congr 1; omega]
  exact Nat.mul_div_cancel_left (2 ^ (P.log2_u64_per_subinventory + 2))
    (show 0 < (2 : Nat) ^ (P.log2_ones_per_inventory - P.log2_u64_per_subinventory - 2)
      by positivity)

theorem SSCParams.div_sub64 (P : SSCParams)
    (h : P.log2_u64_per_subinventory ≤ P.log2_ones_per_inventory) :
    P.ones_per_inventory / P.ones_per_sub64 = 2 ^ P.log2_u64_per_subinventory := by
  rw [P.opi_eq, P.sub64_eq, show (2 : Nat) ^ P.log2_ones_per_inventory
    = 2 ^ (P.log2_ones_per_inventory - P.log2_u64_per_subinventory)
      * 2 ^ P.log2_u64_per_subinventory by rw [← pow_add]; congr 1; omega]
  exact Nat.mul_div_cancel_left (2 ^ P.log2_u64_per_subinventory)
    (show 0 < (2 : Nat) ^ (P.log2_ones_per_inventory - P.log2_u64_per_subinventory)
      by positivity)

theorem SSCParams.slotq16 (P : SSCParams)
    (h : P.log2_u64_per_subinventory + 2 ≤ P.log2_ones_per_inventory) :
    P.ones_per_inventory / P.ones_per_sub16 * P.ones_per_sub16 = P.ones_per_inventory := by
  rw [P.div_sub16 h, P.sub16_eq, ← pow_add, P.opi_eq,
    show P.log2_u64_per_subinventory + 2
      + (P.log2_ones_per_inventory - P.log2_u64_per_subinventory - 2)
      = P.log2_ones_per_inventory by omega]

theorem SSCParams.slotq64 (P : SSCParams)
    (h : P.log2_u64_per_subinventory ≤ P.log2_ones_per_inventory) :
    P.ones_per_inventory / P.ones_per_sub64 * P.ones_per_sub64 = P.ones_per_inventory := by
  rw [P.div_sub64 h, P.sub64_eq, ← pow_add, P.opi_eq,
    show P.log2_u64_per_subinventory
      + (P.log2_ones_per_inventory - P.log2_u64_per_subinventory)
      = P.log2_ones_per_inventory by omega]

theorem SSCParams.slot16_eq_4ups (P : SSCParams) :
    (2 : Nat) ^ (P.log2_u64_per_subinventory + 2) = 4 * P.u64_per_subinventory := by
  rw [pow_add, P.ups_eq, show (2 : Nat) ^ 2 = 4 from rfl]
  omega

/-- What phase two guarantees for one processed block: the first-level entry
holds the select position of the block's first quantum (sign-marked for a u64
subinventory), and every subinventory slot whose quantum exists holds its
select offset. -/
def ProcessedBlock (P : SSCParams) (data : List Nat) (len csize : Nat)
    (inv : List Nat) (i1 : Nat) : Prop :=
  let pos1 := selectUnchecked data (i1 * P.ones_per_inventory)
  let endB := if i1 + 1 < csize then selectUnchecked data ((i1 + 1) * P.ones_per_inventory)
    else len
  let is16 : Bool := decide (endB - pos1 ≤ 65535)
  let q := if endB - pos1 ≤ 65535 then P.ones_per_sub16 else P.ones_per_sub64
  wordOf inv (i1 * P.u64_per_inventory) = (if endB - pos1 ≤ 65535 then pos1
      else pos1 ||| (1 <<< 63))
    ∧ ∀ j, j < P.ones_per_inventory / q →
        i1 * P.ones_per_inventory + j * q < totalOnes data →
        subSlotVal inv is16 (i1 * P.u64_per_inventory) j
          = selectUnchecked data (i1 * P.ones_per_inventory + j * q) - pos1

/-- `phase2Outer_spec` with the initial ones count abstracted. -/
theorem phase2Outer_use (P : SSCParams) (data : List Nat) (hwf : WordsWF data)
    (is16 : Bool) (i1 q slotMax startBit endWord : Nat) (N : Nat)
    (hqpos : 0 < q)
    (hNreg : (i1 + 1) * P.u64_per_inventory ≤ N)
    (hups : P.u64_per_inventory = 1 + P.u64_per_subinventory)
    (hwr : ∀ t, t < slotMax → (if is16 then t / 4 else t) < P.u64_per_subinventory)
    (hfits : is16 = true → ∀ m, i1 * P.ones_per_inventory ≤ m →
      m < i1 * P.ones_per_inventory + slotMax * q → m < totalOnes data →
      selectUnchecked data m - startBit < 65536)
    (hslotq : slotMax * q = P.ones_per_inventory)
    (hcbEnd : min ((i1 + 1) * P.ones_per_inventory) (totalOnes data)
      ≤ countBelow data (64 * endWord))
    (fuel wordIdx b : Nat) (inv : List Nat) (s nq past : Nat)
    (hpast : past = countBelow data (64 * wordIdx + b))
    (hb : b ≤ 64)
    (hlen : inv.length = N)
    (hnq : nq = i1 * P.ones_per_inventory + s * q)
    (hslt : s < slotMax)
    (hple : past ≤ nq)
    (hwe : wordIdx < endWord)
    (hfuel : endWord ≤ wordIdx + fuel)
    (hW4 : ∀ j, j < s → i1 * P.ones_per_inventory + j * q < totalOnes data
      ∧ subSlotVal inv is16 (i1 * P.u64_per_inventory) j
        = selectUnchecked data (i1 * P.ones_per_inventory + j * q) - startBit) :
    (phase2Outer data is16 (i1 * P.u64_per_inventory) startBit q slotMax endWord
        fuel inv wordIdx (maskFrom (wordOf data wordIdx) b) past s nq).length = N
    ∧ (∀ j, j < slotMax → i1 * P.ones_per_inventory + j * q < totalOnes data →
        subSlotVal (phase2Outer data is16 (i1 * P.u64_per_inventory) startBit q slotMax
            endWord fuel inv wordIdx (maskFrom (wordOf data wordIdx) b) past s nq)
          is16 (i1 * P.u64_per_inventory) j
          = selectUnchecked data (i1 * P.ones_per_inventory + j * q) - startBit)
    ∧ (∀ t, t ≤ i1 * P.u64_per_inventory
          ∨ i1 * P.u64_per_inventory + 1 + P.u64_per_subinventory ≤ t →
        wordOf (phase2Outer data is16 (i1 * P.u64_per_inventory) startBit q slotMax
            endWord fuel inv wordIdx (maskFrom (wordOf data wordIdx) b) past s nq) t
          = wordOf inv t) := by
  subst hpast
  exact phase2Outer_spec P data hwf is16 i1 q slotMax startBit endWord N hqpos hNreg hups
    hwr hfits hslotq hcbEnd fuel wordIdx b inv s nq hb hlen hnq hslt hple hwe hfuel hW4


/-- One block of phase two: starting from phase-one state (first-level select
position, zeroed subinventory), the block scan produces the processed block
and touches nothing outside its region. -/
theorem phase2Block_spec (P : SSCParams) (data : List Nat)
    (hls1 : 1 ≤ P.log2_u64_per_subinventory)
    (hls2 : P.log2_u64_per_subinventory + 2 ≤ P.log2_ones_per_inventory)
    (hwf : WordsWF data) (len csize : Nat)
    (hcsize : csize = (totalOnes data + P.ones_per_inventory - 1) / P.ones_per_inventory)
    (hpad : ∀ p, bitGet data p = true → p < len)
    (hlen64 : len ≤ 64 * data.length)
    (hcblen : countBelow data len = totalOnes data)
    (i1 : Nat) (hi1 : i1 < csize) (inv : List Nat)
    (hlen0 : inv.length = csize * P.u64_per_inventory + 1)
    (hfirst : wordOf inv (i1 * P.u64_per_inventory)
      = selectUnchecked data (i1 * P.ones_per_inventory))
    (hend : wordOf inv ((i1 + 1) * P.u64_per_inventory)
      = if i1 + 1 < csize then selectUnchecked data ((i1 + 1) * P.ones_per_inventory)
        else len)
    (hzero : ∀ t, t < P.u64_per_subinventory →
      wordOf inv (i1 * P.u64_per_inventory + 1 + t) = 0) :
    (phase2Block P data inv i1).length = inv.length
    ∧ (∀ t, t < i1 * P.u64_per_inventory ∨ (i1 + 1) * P.u64_per_inventory ≤ t →
        wordOf (phase2Block P data inv i1) t = wordOf inv t)
    ∧ ProcessedBlock P data len csize (phase2Block P data inv i1) i1 := by
  have hopi := P.opi_pos
  have hups : P.u64_per_inventory = 1 + P.u64_per_subinventory := rfl
  have hupspos : 2 ≤ P.u64_per_subinventory := by
    rw [P.ups_eq]
    calc (2 : Nat) = 2 ^ 1 := rfl
    _ ≤ 2 ^ P.log2_u64_per_subinventory := Nat.pow_le_pow_right (by norm_num) hls1
  have hi1opi : i1 * P.ones_per_inventory < totalOnes data :=
    lt_tot_of_lt_ceil _ _ _ hopi (hcsize ▸ hi1)
  have hIS1 := selectUnchecked_correct hwf hi1opi
  have hpos1len : selectUnchecked data (i1 * P.ones_per_inventory) < len := hpad _ hIS1.1
  have hcb1 : countBelow data (selectUnchecked data (i1 * P.ones_per_inventory))
      = i1 * P.ones_per_inventory := hIS1.2
  set pos1 := selectUnchecked data (i1 * P.ones_per_inventory) with hp1
  set endB := (if i1 + 1 < csize then selectUnchecked data ((i1 + 1) * P.ones_per_inventory)
    else len) with hEB
  have hE : pos1 < endB
      ∧ min ((i1 + 1) * P.ones_per_inventory) (totalOnes data) ≤ countBelow data endB
      ∧ endB ≤ 64 * data.length
      ∧ (∀ m, m < totalOnes data → i1 * P.ones_per_inventory ≤ m →
          m < (i1 + 1) * P.ones_per_inventory → selectUnchecked data m < endB) := by
    rw [hEB]
    by_cases hnext : i1 + 1 < csize
    · rw [if_pos hnext]
      have hn1 : (i1 + 1) * P.ones_per_inventory < totalOnes data :=
        lt_tot_of_lt_ceil _ _ _ hopi (hcsize ▸ hnext)
      have hISn := selectUnchecked_correct hwf hn1
      have hlt : i1 * P.ones_per_inventory < (i1 + 1) * P.ones_per_inventory := by
        have he : (i1 + 1) * P.ones_per_inventory
            = i1 * P.ones_per_inventory + P.ones_per_inventory := by ring
        omega
      refine ⟨?_, ?_, ?_, ?_⟩
      · rw [hp1]
        exact selectUnchecked_strictMono hwf hlt hn1
      · rw [hISn.2]
        exact min_le_left _ _
      · have := hpad _ hISn.1
        omega
      · intro m hm hge hltm
        exact selectUnchecked_strictMono hwf hltm hn1
    · rw [if_neg hnext]
      refine ⟨?_, ?_, hlen64, ?_⟩
      · rw [hp1]
        exact hpos1len
      · rw [hcblen]
        exact min_le_right _ _
      · intro m hm hge hltm
        exact hpad _ (selectUnchecked_correct hwf hm).1
  obtain ⟨hE1, hE3, hE4, hE2⟩ := hE
  have hend2 : wordOf inv (i1 * P.u64_per_inventory + P.u64_per_inventory) = endB := by
    rw [show i1 * P.u64_per_inventory + P.u64_per_inventory
      = (i1 + 1) * P.u64_per_inventory by ring]
    exact hend
  have hblock : phase2Block P data inv i1
      = phase2Outer data
          (decide (wordOf inv (i1 * P.u64_per_inventory + P.u64_per_inventory)
            - wordOf inv (i1 * P.u64_per_inventory) ≤ 65535))
          (i1 * P.u64_per_inventory) (wordOf inv (i1 * P.u64_per_inventory))
          (if wordOf inv (i1 * P.u64_per_inventory + P.u64_per_inventory)
              - wordOf inv (i1 * P.u64_per_inventory) ≤ 65535
            then P.ones_per_sub16 else P.ones_per_sub64)
          (P.ones_per_inventory
            / (if wordOf inv (i1 * P.u64_per_inventory + P.u64_per_inventory)
                - wordOf inv (i1 * P.u64_per_inventory) ≤ 65535
              then P.ones_per_sub16 else P.ones_per_sub64))
          ((wordOf inv (i1 * P.u64_per_inventory + P.u64_per_inventory) + 63) / 64)
          (data.length + 1)
          (if wordOf inv (i1 * P.u64_per_inventory + P.u64_per_inventory)
              - wordOf inv (i1 * P.u64_per_inventory) ≤ 65535
            then inv
            else inv.set (i1 * P.u64_per_inventory)
              (wordOf inv (i1 * P.u64_per_inventory) ||| (1 <<< 63)))
          (wordOf inv (i1 * P.u64_per_inventory) / 64)
          (maskFrom (wordOf data (wordOf inv (i1 * P.u64_per_inventory) / 64))
            (wordOf inv (i1 * P.u64_per_inventory) % 64))
          (i1 * P.ones_per_inventory) 1
          (i1 * P.ones_per_inventory
            + (if wordOf inv (i1 * P.u64_per_inventory + P.u64_per_inventory)
                - wordOf inv (i1 * P.u64_per_inventory) ≤ 65535
              then P.ones_per_sub16 else P.ones_per_sub64)) := rfl
  rw [hblock, hend2, hfirst]
  have hNreg : (i1 + 1) * P.u64_per_inventory ≤ csize * P.u64_per_inventory + 1 := by
    have := Nat.mul_le_mul_right P.u64_per_inventory (show i1 + 1 ≤ csize by omega)
    omega
  have hUPIe : (i1 + 1) * P.u64_per_inventory
      = i1 * P.u64_per_inventory + P.u64_per_inventory := by ring
  have hUPIpos : 0 < P.u64_per_inventory := by
    rw [hups]
    omega
  have hpast : i1 * P.ones_per_inventory
      = countBelow data (64 * (pos1 / 64) + pos1 % 64) := by
    rw [show 64 * (pos1 / 64) + pos1 % 64 = pos1 by omega, hcb1]
  set endW := (endB + 63) / 64 with hEW
  have hcbEnd : min ((i1 + 1) * P.ones_per_inventory) (totalOnes data)
      ≤ countBelow data (64 * endW) := by
    have hcm := countBelow_mono data (show endB ≤ 64 * endW by rw [hEW]; omega)
    omega
  have hwe : pos1 / 64 < endW := by
    rw [hEW]
    omega
  have hfuel : endW ≤ pos1 / 64 + (data.length + 1) := by
    rw [hEW]
    omega
  by_cases hsp : endB - pos1 ≤ 65535
  · have hD : decide (endB - pos1 ≤ 65535) = true := decide_eq_true hsp
    have hQ : (if endB - pos1 ≤ 65535 then P.ones_per_sub16 else P.ones_per_sub64)
        = P.ones_per_sub16 := if_pos hsp
    have hIV : (if endB - pos1 ≤ 65535 then inv
        else inv.set (i1 * P.u64_per_inventory) (pos1 ||| (1 <<< 63))) = inv := if_pos hsp
    rw [hD, hQ, hIV]
    have hq16 := P.sub16_pos
    have hslotq := P.slotq16 hls2
    have hwr16 : ∀ t, t < P.ones_per_inventory / P.ones_per_sub16 →
        (if (true : Bool) then t / 4 else t) < P.u64_per_subinventory := by
      intro t ht
      show t / 4 < P.u64_per_subinventory
      rw [P.div_sub16 hls2, P.slot16_eq_4ups] at ht
      omega
    have hfits16 : (true : Bool) = true → ∀ m, i1 * P.ones_per_inventory ≤ m →
        m < i1 * P.ones_per_inventory
          + P.ones_per_inventory / P.ones_per_sub16 * P.ones_per_sub16 →
        m < totalOnes data → selectUnchecked data m - pos1 < 65536 := by
      intro _ m hge hlt hm
      rw [hslotq] at hlt
      have h1 : selectUnchecked data m < endB := hE2 m hm hge (by
        have he : (i1 + 1) * P.ones_per_inventory
            = i1 * P.ones_per_inventory + P.ones_per_inventory := by ring
        omega)
      omega
    have hslot1 : 1 < P.ones_per_inventory / P.ones_per_sub16 := by
      rw [P.div_sub16 hls2]
      have h4 : (4 : Nat) ≤ 2 ^ (P.log2_u64_per_subinventory + 2) := by
        calc (4 : Nat) = 2 ^ 2 := rfl
        _ ≤ 2 ^ (P.log2_u64_per_subinventory + 2) :=
          Nat.pow_le_pow_right (by norm_num) (by omega)
      omega
    have hW40 : ∀ j, j < 1 →
        i1 * P.ones_per_inventory + j * P.ones_per_sub16 < totalOnes data
        ∧ subSlotVal inv true (i1 * P.u64_per_inventory) j
          = selectUnchecked data (i1 * P.ones_per_inventory + j * P.ones_per_sub16)
            - pos1 := by
      intro j hj
      have hj0 : j = 0 := by omega
      subst hj0
      rw [Nat.zero_mul, Nat.add_zero]
      refine ⟨hi1opi, ?_⟩
      rw [← hp1, Nat.sub_self]
      show read16 inv (i1 * P.u64_per_inventory + 1) 0 = 0
      rw [read16_eq_field, show (0 : Nat) / 4 = 0 from rfl, show (0 : Nat) % 4 = 0 from rfl,
        hzero 0 (by omega)]
      simp
    obtain ⟨hlenR, hslotsR, hframeR⟩ := phase2Outer_use P data hwf true i1 P.ones_per_sub16
      (P.ones_per_inventory / P.ones_per_sub16) pos1 endW (csize * P.u64_per_inventory + 1)
      hq16 hNreg hups hwr16 hfits16 hslotq hcbEnd
      (data.length + 1) (pos1 / 64) (pos1 % 64) inv 1
      (i1 * P.ones_per_inventory + P.ones_per_sub16) (i1 * P.ones_per_inventory)
      hpast (by omega) hlen0 (by ring) hslot1 (by omega) hwe hfuel hW40
    refine ⟨?_, ?_, ?_⟩
    · rw [hlenR, hlen0]
    · intro t ht
      refine hframeR t ?_
      rcases ht with h | h
      · exact Or.inl (by omega)
      · right
        have he : (i1 + 1) * P.u64_per_inventory
            = i1 * P.u64_per_inventory + 1 + P.u64_per_subinventory := by
          rw [hups]
          ring
        omega
    · simp only [ProcessedBlock]
      rw [← hEB, ← hp1, hD, hQ, if_pos hsp]
      refine ⟨?_, ?_⟩
      · rw [hframeR (i1 * P.u64_per_inventory) (Or.inl (le_refl _)), hfirst]
      · intro j hj hjq
        exact hslotsR j hj hjq
  · have hD : decide (endB - pos1 ≤ 65535) = false := decide_eq_false hsp
    have hQ : (if endB - pos1 ≤ 65535 then P.ones_per_sub16 else P.ones_per_sub64)
        = P.ones_per_sub64 := if_neg hsp
    have hIV : (if endB - pos1 ≤ 65535 then inv
        else inv.set (i1 * P.u64_per_inventory) (pos1 ||| (1 <<< 63)))
        = inv.set (i1 * P.u64_per_inventory) (pos1 ||| (1 <<< 63)) := if_neg hsp
    rw [hD, hQ, hIV]
    set INV2 := inv.set (i1 * P.u64_per_inventory) (pos1 ||| (1 <<< 63)) with hIV2
    have hlen2 : INV2.length = csize * P.u64_per_inventory + 1 := by
      rw [hIV2, List.length_set, hlen0]
    have hfirst2 : wordOf INV2 (i1 * P.u64_per_inventory) = pos1 ||| (1 <<< 63) := by
      rw [hIV2]
      exact wordOf_set_eq (by omega) _
    have hzero2 : ∀ t, t < P.u64_per_subinventory →
        wordOf INV2 (i1 * P.u64_per_inventory + 1 + t) = 0 := by
      intro t ht
      rw [hIV2, wordOf_set_ne (by omega) _]
      exact hzero t ht
    have hq64 := P.sub64_pos
    have hslotq := P.slotq64 (by omega)
    have hwr64 : ∀ t, t < P.ones_per_inventory / P.ones_per_sub64 →
        (if (false : Bool) then t / 4 else t) < P.u64_per_subinventory := by
      intro t ht
      show t < P.u64_per_subinventory
      rw [P.div_sub64 (by omega)] at ht
      rw [P.ups_eq]
      exact ht
    have hfits64 : (false : Bool) = true → ∀ m, i1 * P.ones_per_inventory ≤ m →
        m < i1 * P.ones_per_inventory
          + P.ones_per_inventory / P.ones_per_sub64 * P.ones_per_sub64 →
        m < totalOnes data → selectUnchecked data m - pos1 < 65536 := by
      intro h
      simp at h
    have hslot1 : 1 < P.ones_per_inventory / P.ones_per_sub64 := by
      rw [P.div_sub64 (by omega)]
      have h2 : (2 : Nat) ≤ 2 ^ P.log2_u64_per_subinventory := by
        calc (2 : Nat) = 2 ^ 1 := rfl
        _ ≤ 2 ^ P.log2_u64_per_subinventory := Nat.pow_le_pow_right (by norm_num) hls1
      omega
    have hW40 : ∀ j, j < 1 →
        i1 * P.ones_per_inventory + j * P.ones_per_sub64 < totalOnes data
        ∧ subSlotVal INV2 false (i1 * P.u64_per_inventory) j
          = selectUnchecked data (i1 * P.ones_per_inventory + j * P.ones_per_sub64)
            - pos1 := by
      intro j hj
      have hj0 : j = 0 := by omega
      subst hj0
      rw [Nat.zero_mul, Nat.add_zero]
      refine ⟨hi1opi, ?_⟩
      rw [← hp1, Nat.sub_self]
      show wordOf INV2 (i1 * P.u64_per_inventory + 1 + 0) = 0
      exact hzero2 0 (by omega)
    obtain ⟨hlenR, hslotsR, hframeR⟩ := phase2Outer_use P data hwf false i1 P.ones_per_sub64
      (P.ones_per_inventory / P.ones_per_sub64) pos1 endW (csize * P.u64_per_inventory + 1)
      hq64 hNreg hups hwr64 hfits64 hslotq hcbEnd
      (data.length + 1) (pos1 / 64) (pos1 % 64) INV2 1
      (i1 * P.ones_per_inventory + P.ones_per_sub64) (i1 * P.ones_per_inventory)
      hpast (by omega) hlen2 (by ring) hslot1 (by omega) hwe hfuel hW40
    refine ⟨?_, ?_, ?_⟩
    · rw [hlenR, hlen0]
    · intro t ht
      have h1 : wordOf INV2 t = wordOf inv t := by
        rw [hIV2]
        refine wordOf_set_ne ?_ _
        rcases ht with h | h
        · omega
        · have he : (i1 + 1) * P.u64_per_inventory
              = i1 * P.u64_per_inventory + 1 + P.u64_per_subinventory := by
            rw [hups]
            ring
          omega
      rw [← h1]
      refine hframeR t ?_
      rcases ht with h | h
      · exact Or.inl (by omega)
      · right
        have he : (i1 + 1) * P.u64_per_inventory
            = i1 * P.u64_per_inventory + 1 + P.u64_per_subinventory := by
          rw [hups]
          ring
        omega
    · simp only [ProcessedBlock]
      rw [← hEB, ← hp1, hD, hQ, if_neg hsp]
      refine ⟨?_, ?_⟩
      · rw [hframeR (i1 * P.u64_per_inventory) (Or.inl (le_refl _)), hfirst2]
      · intro j hj hjq
        exact hslotsR j hj hjq


theorem subSlotVal_congr16 (inv inv2 : List Nat) (startIdx j : Nat)
    (h16 : wordOf inv2 (startIdx + 1 + j / 4) = wordOf inv (startIdx + 1 + j / 4)) :
    subSlotVal inv2 true startIdx j = subSlotVal inv true startIdx j := by
  show read16 inv2 (startIdx + 1) j = read16 inv (startIdx + 1) j
  rw [read16_eq_field, read16_eq_field, h16]

theorem subSlotVal_congr64 (inv inv2 : List Nat) (startIdx j : Nat)
    (h64 : wordOf inv2 (startIdx + 1 + j) = wordOf inv (startIdx + 1 + j)) :
    subSlotVal inv2 false startIdx j = subSlotVal inv false startIdx j := by
  show wordOf inv2 (startIdx + 1 + j) = wordOf inv (startIdx + 1 + j)
  exact h64

/-- A processed block stays processed if its region is untouched. -/
theorem ProcessedBlock_frame (P : SSCParams) (data : List Nat)
    (hls2 : P.log2_u64_per_subinventory + 2 ≤ P.log2_ones_per_inventory)
    (len csize : Nat) (inv inv2 : List Nat) (m : Nat)
    (hfr : ∀ t, t < (m + 1) * P.u64_per_inventory → wordOf inv2 t = wordOf inv t)
    (hpb : ProcessedBlock P data len csize inv m) :
    ProcessedBlock P data len csize inv2 m := by
  have hups : P.u64_per_inventory = 1 + P.u64_per_subinventory := rfl
  have hUPIe : (m + 1) * P.u64_per_inventory
      = m * P.u64_per_inventory + 1 + P.u64_per_subinventory := by
    rw [hups]
    ring
  simp only [ProcessedBlock] at hpb ⊢
  obtain ⟨h1, h2⟩ := hpb
  refine ⟨?_, ?_⟩
  · rw [hfr (m * P.u64_per_inventory) (by omega)]
    exact h1
  · intro j hj hq
    by_cases hsp : (if m + 1 < csize
        then selectUnchecked data ((m + 1) * P.ones_per_inventory) else len)
        - selectUnchecked data (m * P.ones_per_inventory) ≤ 65535
    · have hj2 := hj
      rw [if_pos hsp, P.div_sub16 hls2, P.slot16_eq_4ups] at hj2
      have h2x := h2 j hj hq
      rw [decide_eq_true hsp] at h2x
      rw [decide_eq_true hsp, ← h2x]
      exact subSlotVal_congr16 inv inv2 _ j (hfr _ (by omega))
    · have hj2 := hj
      rw [if_neg hsp, P.div_sub64 (by omega), ← P.ups_eq] at hj2
      have h2x := h2 j hj hq
      rw [decide_eq_false hsp] at h2x
      rw [decide_eq_false hsp, ← h2x]
      exact subSlotVal_congr64 inv inv2 _ j (hfr _ (by omega))

/-- Folding phase two over the blocks: processed blocks accumulate, untouched
blocks keep their phase-one state, and the final length sentinel survives. -/
theorem phase2Fold_spec (P : SSCParams) (data : List Nat)
    (hls1 : 1 ≤ P.log2_u64_per_subinventory)
    (hls2 : P.log2_u64_per_subinventory + 2 ≤ P.log2_ones_per_inventory)
    (hwf : WordsWF data) (len csize : Nat)
    (hcsize : csize = (totalOnes data + P.ones_per_inventory - 1) / P.ones_per_inventory)
    (hpad : ∀ p, bitGet data p = true → p < len)
    (hlen64 : len ≤ 64 * data.length)
    (hcblen : countBelow data len = totalOnes data) :
    ∀ j, j ≤ csize →
      ((List.range j).foldl (phase2Block P data)
          (blocksSpec data P.ones_per_inventory P.u64_per_subinventory 0 csize
            ++ [len])).length = csize * P.u64_per_inventory + 1
      ∧ (∀ m, j ≤ m → m < csize →
          wordOf ((List.range j).foldl (phase2Block P data)
              (blocksSpec data P.ones_per_inventory P.u64_per_subinventory 0 csize
                ++ [len])) (m * P.u64_per_inventory)
            = selectUnchecked data (m * P.ones_per_inventory)
          ∧ ∀ t, t < P.u64_per_subinventory →
            wordOf ((List.range j).foldl (phase2Block P data)
                (blocksSpec data P.ones_per_inventory P.u64_per_subinventory 0 csize
                  ++ [len])) (m * P.u64_per_inventory + 1 + t) = 0)
      ∧ wordOf ((List.range j).foldl (phase2Block P data)
          (blocksSpec data P.ones_per_inventory P.u64_per_subinventory 0 csize
            ++ [len])) (csize * P.u64_per_inventory) = len
      ∧ (∀ m, m < j → ProcessedBlock P data len csize
          ((List.range j).foldl (phase2Block P data)
            (blocksSpec data P.ones_per_inventory P.u64_per_subinventory 0 csize
              ++ [len])) m) := by
  have hups : P.u64_per_inventory = 1 + P.u64_per_subinventory := rfl
  have hupspos : 0 < P.u64_per_inventory := by
    rw [hups]
    omega
  intro j
  induction j with
  | zero =>
    intro _
    simp only [List.range_zero, List.foldl_nil]
    refine ⟨?_, ?_, ?_, ?_⟩
    · rw [List.length_append, blocksSpec_length, hups]
      rfl
    · intro m _ hmc
      have hlt : m * (1 + P.u64_per_subinventory)
          < csize * (1 + P.u64_per_subinventory) :=
        (Nat.mul_lt_mul_right (by omega)).mpr hmc
      constructor
      · rw [hups, wordOf_append_lt (by rw [blocksSpec_length]; exact hlt),
          blocksSpec_wordOf_head data P.ones_per_inventory P.u64_per_subinventory 0 hmc,
          Nat.zero_add]
      · intro t ht
        have hlt2 : m * (1 + P.u64_per_subinventory) + 1 + t
            < csize * (1 + P.u64_per_subinventory) := by
          have he1 : (m + 1) * (1 + P.u64_per_subinventory)
              = m * (1 + P.u64_per_subinventory) + (1 + P.u64_per_subinventory) := by ring
          have he2 : (m + 1) * (1 + P.u64_per_subinventory)
              ≤ csize * (1 + P.u64_per_subinventory) :=
            Nat.mul_le_mul_right _ (by omega)
          omega
        rw [hups, wordOf_append_lt (by rw [blocksSpec_length]; exact hlt2),
          blocksSpec_wordOf_sub data P.ones_per_inventory P.u64_per_subinventory 0 hmc ht]
    · rw [hups, wordOf_append_ge
        (blocksSpec_length data P.ones_per_inventory P.u64_per_subinventory csize 0).le,
        blocksSpec_length, Nat.sub_self]
      rfl
    · intro m hm
      omega
  | succ j ih =>
    intro hj1
    obtain ⟨ihlen, ihunt, ihlenE, ihpro⟩ := ih (by omega)
    have hfold : (List.range (j + 1)).foldl (phase2Block P data)
          (blocksSpec data P.ones_per_inventory P.u64_per_subinventory 0 csize ++ [len])
        = phase2Block P data ((List.range j).foldl (phase2Block P data)
            (blocksSpec data P.ones_per_inventory P.u64_per_subinventory 0 csize ++ [len]))
          j := by
      rw [List.range_succ, List.foldl_append]
      rfl
    have hfirstJ := (ihunt j (le_refl j) (by omega)).1
    have hzeroJ := (ihunt j (le_refl j) (by omega)).2
    have hendJ : wordOf ((List.range j).foldl (phase2Block P data)
          (blocksSpec data P.ones_per_inventory P.u64_per_subinventory 0 csize ++ [len]))
          ((j + 1) * P.u64_per_inventory)
        = if j + 1 < csize then selectUnchecked data ((j + 1) * P.ones_per_inventory)
          else len := by
      by_cases hn : j + 1 < csize
      · rw [if_pos hn]
        exact (ihunt (j + 1) (by omega) hn).1
      · rw [if_neg hn]
        have hceq : j + 1 = csize := by omega
        rw [hceq]
        exact ihlenE
    obtain ⟨hBlen, hBframe, hBpro⟩ := phase2Block_spec P data hls1 hls2 hwf len csize
      hcsize hpad hlen64 hcblen j (by omega) _ ihlen hfirstJ hendJ hzeroJ
    rw [hfold]
    refine ⟨?_, ?_, ?_, ?_⟩
    · rw [hBlen, ihlen]
    · intro m hm hmc
      have hge : (j + 1) * P.u64_per_inventory ≤ m * P.u64_per_inventory :=
        Nat.mul_le_mul_right _ hm
      constructor
      · rw [hBframe _ (Or.inr hge)]
        exact (ihunt m (by omega) hmc).1
      · intro t ht
        rw [hBframe _ (Or.inr (by omega))]
        exact (ihunt m (by omega) hmc).2 t ht
    · rw [hBframe _ (Or.inr (Nat.mul_le_mul_right _ hj1))]
      exact ihlenE
    · intro m hm
      rcases Nat.lt_or_ge m j with hmj | hmj
      · refine ProcessedBlock_frame P data hls2 len csize _ _ m ?_ (ihpro m hmj)
        intro t htle
        refine hBframe t (Or.inl ?_)
        have := Nat.mul_le_mul_right P.u64_per_inventory (show m + 1 ≤ j by omega)
        omega
      · have hmeq : m = j := by omega
        subst hmeq
        exact hBpro


theorem ceil_mul_ge (tot opi : Nat) (hopi : 0 < opi) :
    tot ≤ (tot + opi - 1) / opi * opi := by
  rcases Nat.eq_zero_or_pos tot with h0 | h0
  · subst h0
    exact Nat.zero_le _
  · have he : tot + opi - 1 = (tot - 1) + opi := by omega
    rw [he, Nat.add_div_right _ hopi]
    have hdm := Nat.div_add_mod (tot - 1) opi
    have hmlt : (tot - 1) % opi < opi := Nat.mod_lt _ hopi
    have hre : ((tot - 1) / opi + 1) * opi = opi * ((tot - 1) / opi) + opi := by ring
    omega

theorem or_pow63_eq_add (x : Nat) (hx : x < 2 ^ 63) :
    x ||| (1 <<< 63) = x + 2 ^ 63 := by
  rw [show (1 : Nat) <<< 63 = 2 ^ 63 by rw [Nat.shiftLeft_eq, one_mul], Nat.lor_comm,
    or_of_mod_eq_zero (2 ^ 63) x 63 (Nat.mod_self _) hx, Nat.add_comm]

theorem or_and_mask63 (x : Nat) (hx : x < 2 ^ 63) :
    (x ||| (1 <<< 63)) &&& ((1 <<< 63) - 1) = x := by
  rw [or_pow63_eq_add x hx,
    show (1 : Nat) <<< 63 - 1 = 2 ^ 63 - 1 by rw [Nat.shiftLeft_eq, one_mul],
    Nat.and_pow_two_sub_one_eq_mod, Nat.add_mod_right, Nat.mod_eq_of_lt hx]

/-- Evaluation of `select_unchecked` through a u16 subinventory (first-level
entry without the sign bit). -/
theorem ssc_select_eval16 (st : SimpleSelectConst) (P : SSCParams) (rank : Nat)
    (h16 : wordOf st.inventory
        (rank / P.ones_per_inventory * (1 + P.u64_per_subinventory)) < 2 ^ 63) :
    st.select_unchecked P rank
      = selectUncheckedHinted st.bits_data rank
          (wordOf st.inventory (rank / P.ones_per_inventory * (1 + P.u64_per_subinventory))
            + read16 st.inventory
              (rank / P.ones_per_inventory * (1 + P.u64_per_subinventory) + 1)
              (rank % P.ones_per_inventory / P.ones_per_sub16))
          (rank - rank % P.ones_per_inventory % P.ones_per_sub16) := by
  simp only [SimpleSelectConst.select_unchecked]
  rw [if_pos h16]

/-- Evaluation of `select_unchecked` through a u64 subinventory (first-level
entry with the sign bit set). -/
theorem ssc_select_eval64 (st : SimpleSelectConst) (P : SSCParams) (rank : Nat)
    (h64 : ¬ wordOf st.inventory
        (rank / P.ones_per_inventory * (1 + P.u64_per_subinventory)) < 2 ^ 63) :
    st.select_unchecked P rank
      = selectUncheckedHinted st.bits_data rank
          ((wordOf st.inventory (rank / P.ones_per_inventory * (1 + P.u64_per_subinventory))
              &&& ((1 <<< 63) - 1))
            + wordOf st.inventory
              (rank / P.ones_per_inventory * (1 + P.u64_per_subinventory) + 1
                + rank % P.ones_per_inventory / P.ones_per_sub64))
          (rank - rank % P.ones_per_inventory % P.ones_per_sub64) := by
  simp only [SimpleSelectConst.select_unchecked]
  rw [if_neg h64]

/-- The inventory produced by `SimpleSelectConst::new`: correct length and
every block processed. -/
theorem sscInventory_spec (P : SSCParams) (data : List Nat)
    (hls1 : 1 ≤ P.log2_u64_per_subinventory)
    (hls2 : P.log2_u64_per_subinventory + 2 ≤ P.log2_ones_per_inventory)
    (hwf : WordsWF data) (len : Nat)
    (hpad : ∀ p, bitGet data p = true → p < len)
    (hlen64 : len ≤ 64 * data.length)
    (hcblen : countBelow data len = totalOnes data) :
    (simpleSelectConstNew P data len (totalOnes data)).inventory.length
      = (totalOnes data + P.ones_per_inventory - 1) / P.ones_per_inventory
        * P.u64_per_inventory + 1
    ∧ ∀ m, m < (totalOnes data + P.ones_per_inventory - 1) / P.ones_per_inventory →
        ProcessedBlock P data len
          ((totalOnes data + P.ones_per_inventory - 1) / P.ones_per_inventory)
          (simpleSelectConstNew P data len (totalOnes data)).inventory m := by
  have hopi := P.opi_pos
  have hc0 : countBelow data (64 * 0) = 0 := by
    simp [countBelow]
  have hph1 : phase1Go P data 0 [] 0 0
      = blocksSpec data P.ones_per_inventory P.u64_per_subinventory 0
          ((totalOnes data + P.ones_per_inventory - 1) / P.ones_per_inventory) := by
    have h := phase1Go_spec P data hwf data 0 [] 0 (by simp)
      (by rw [hc0]; exact Nat.zero_le _) (Or.inl ⟨rfl, hc0⟩)
    rw [hc0, Nat.zero_mul, Nat.sub_zero, List.nil_append] at h
    exact h
  obtain ⟨h1, h2, h3, h4⟩ := phase2Fold_spec P data hls1 hls2 hwf len
    ((totalOnes data + P.ones_per_inventory - 1) / P.ones_per_inventory) rfl
    hpad hlen64 hcblen
    ((totalOnes data + P.ones_per_inventory - 1) / P.ones_per_inventory) (le_refl _)
  have hinv : (simpleSelectConstNew P data len (totalOnes data)).inventory
      = (List.range
          ((totalOnes data + P.ones_per_inventory - 1) / P.ones_per_inventory)).foldl
          (phase2Block P data)
          (blocksSpec data P.ones_per_inventory P.u64_per_subinventory 0
            ((totalOnes data + P.ones_per_inventory - 1) / P.ones_per_inventory)
            ++ [len]) := by
    show (List.range
        ((totalOnes data + P.ones_per_inventory - 1) / P.ones_per_inventory)).foldl
        (phase2Block P data) (phase1Go P data 0 [] 0 0 ++ [len]) = _
    rw [hph1]
  rw [hinv]
  exact ⟨h1, h4⟩

set_option maxHeartbeats 1000000 in
/-- Correctness of `select_unchecked` over the structure built by
`SimpleSelectConst::new`: it returns the position of the `(rank+1)`-th one. -/
theorem ssc_select_isSelect (P : SSCParams)
    (hls1 : 1 ≤ P.log2_u64_per_subinventory)
    (hls2 : P.log2_u64_per_subinventory + 2 ≤ P.log2_ones_per_inventory)
    (B : Bitmap) (hwf : B.WF) (hlen63 : B.len < 2 ^ 63)
    (rank : Nat) (hrank : rank < totalOnes B.data) :
    IsSelect B.data rank
      ((simpleSelectConstNew P B.data B.len (totalOnes B.data)).select_unchecked P rank) := by
  have hopi := P.opi_pos
  have hwfw : WordsWF B.data := hwf.2.1
  have hpad : ∀ p, bitGet B.data p = true → p < B.len := by
    intro p hp
    by_contra hc
    rw [hwf.2.2 p (by omega)] at hp
    simp at hp
  have hlen64 : B.len ≤ 64 * B.data.length := by
    have h := hwf.1
    omega
  have hcblen : countBelow B.data B.len = totalOnes B.data := countBelow_len_eq_total B hwf
  obtain ⟨hlenI, hpro⟩ := sscInventory_spec P B.data hls1 hls2 hwfw B.len hpad hlen64 hcblen
  have hceil : totalOnes B.data
      ≤ (totalOnes B.data + P.ones_per_inventory - 1) / P.ones_per_inventory
        * P.ones_per_inventory := ceil_mul_ge _ _ hopi
  have hi1 : rank / P.ones_per_inventory
      < (totalOnes B.data + P.ones_per_inventory - 1) / P.ones_per_inventory := by
    rw [Nat.div_lt_iff_lt_mul hopi]
    omega
  have hpb := hpro (rank / P.ones_per_inventory) hi1
  simp only [ProcessedBlock] at hpb
  obtain ⟨hfirst, hslots⟩ := hpb
  rw [show rank / P.ones_per_inventory * P.u64_per_inventory
    = rank / P.ones_per_inventory * (1 + P.u64_per_subinventory) from rfl] at hfirst hslots
  have hq1 : rank / P.ones_per_inventory * P.ones_per_inventory ≤ rank :=
    Nat.div_mul_le_self rank P.ones_per_inventory
  have hq1lt : rank / P.ones_per_inventory * P.ones_per_inventory < totalOnes B.data := by
    omega
  have hpos1 := selectUnchecked_correct hwfw hq1lt
  have hpos1len : selectUnchecked B.data (rank / P.ones_per_inventory * P.ones_per_inventory)
      < B.len := hpad _ hpos1.1
  have hpos1lt63 : selectUnchecked B.data
      (rank / P.ones_per_inventory * P.ones_per_inventory) < 2 ^ 63 := by omega
  have hdm : P.ones_per_inventory * (rank / P.ones_per_inventory)
      + rank % P.ones_per_inventory = rank := Nat.div_add_mod rank P.ones_per_inventory
  have hcommd : P.ones_per_inventory * (rank / P.ones_per_inventory)
      = rank / P.ones_per_inventory * P.ones_per_inventory := Nat.mul_comm _ _
  by_cases hsp : (if rank / P.ones_per_inventory + 1
        < (totalOnes B.data + P.ones_per_inventory - 1) / P.ones_per_inventory
      then selectUnchecked B.data
        ((rank / P.ones_per_inventory + 1) * P.ones_per_inventory)
      else B.len)
      - selectUnchecked B.data (rank / P.ones_per_inventory * P.ones_per_inventory)
      ≤ 65535
  · rw [if_pos hsp] at hfirst
    rw [if_pos hsp, decide_eq_true hsp] at hslots
    have h16lt : wordOf (simpleSelectConstNew P B.data B.len (totalOnes B.data)).inventory
        (rank / P.ones_per_inventory * (1 + P.u64_per_subinventory)) < 2 ^ 63 := by
      rw [hfirst]
      exact hpos1lt63
    have hdvd : P.ones_per_sub16 ∣ P.ones_per_inventory :=
      ⟨P.ones_per_inventory / P.ones_per_sub16, by rw [Nat.mul_comm, P.slotq16 hls2]⟩
    have hj : rank % P.ones_per_inventory / P.ones_per_sub16
        < P.ones_per_inventory / P.ones_per_sub16 :=
      Nat.div_lt_div_of_lt_of_dvd hdvd (Nat.mod_lt rank hopi)
    have hjm : rank % P.ones_per_inventory / P.ones_per_sub16 * P.ones_per_sub16
        ≤ rank % P.ones_per_inventory := Nat.div_mul_le_self _ _
    have hquant : rank / P.ones_per_inventory * P.ones_per_inventory
        + rank % P.ones_per_inventory / P.ones_per_sub16 * P.ones_per_sub16
        < totalOnes B.data := by omega
    have hslot := hslots (rank % P.ones_per_inventory / P.ones_per_sub16) hj hquant
    have hs : read16 (simpleSelectConstNew P B.data B.len (totalOnes B.data)).inventory
        (rank / P.ones_per_inventory * (1 + P.u64_per_subinventory) + 1)
        (rank % P.ones_per_inventory / P.ones_per_sub16)
        = selectUnchecked B.data (rank / P.ones_per_inventory * P.ones_per_inventory
            + rank % P.ones_per_inventory / P.ones_per_sub16 * P.ones_per_sub16)
          - selectUnchecked B.data
            (rank / P.ones_per_inventory * P.ones_per_inventory) := hslot
    have hmono : selectUnchecked B.data (rank / P.ones_per_inventory * P.ones_per_inventory)
        ≤ selectUnchecked B.data (rank / P.ones_per_inventory * P.ones_per_inventory
            + rank % P.ones_per_inventory / P.ones_per_sub16 * P.ones_per_sub16) := by
      rcases Nat.eq_zero_or_pos (rank % P.ones_per_inventory / P.ones_per_sub16
          * P.ones_per_sub16) with h0 | h0
      · rw [h0, Nat.add_zero]
      · exact (selectUnchecked_strictMono hwfw (by omega) hquant).le
    have hnq := (selectUnchecked_correct hwfw hquant).2
    have hdm16 : P.ones_per_sub16 * (rank % P.ones_per_inventory / P.ones_per_sub16)
        + rank % P.ones_per_inventory % P.ones_per_sub16 = rank % P.ones_per_inventory :=
      Nat.div_add_mod _ _
    have hcomm16 : P.ones_per_sub16 * (rank % P.ones_per_inventory / P.ones_per_sub16)
        = rank % P.ones_per_inventory / P.ones_per_sub16 * P.ones_per_sub16 :=
      Nat.mul_comm _ _
    have hrap : rank - rank % P.ones_per_inventory % P.ones_per_sub16
        = rank / P.ones_per_inventory * P.ones_per_inventory
          + rank % P.ones_per_inventory / P.ones_per_sub16 * P.ones_per_sub16 := by
      omega
    have hposarg : wordOf (simpleSelectConstNew P B.data B.len (totalOnes B.data)).inventory
          (rank / P.ones_per_inventory * (1 + P.u64_per_subinventory))
        + read16 (simpleSelectConstNew P B.data B.len (totalOnes B.data)).inventory
          (rank / P.ones_per_inventory * (1 + P.u64_per_subinventory) + 1)
          (rank % P.ones_per_inventory / P.ones_per_sub16)
        = selectUnchecked B.data (rank / P.ones_per_inventory * P.ones_per_inventory
            + rank % P.ones_per_inventory / P.ones_per_sub16 * P.ones_per_sub16) := by
      rw [hfirst, hs]
      omega
    rw [ssc_select_eval16 _ P rank h16lt, hposarg, hrap]
    exact selectUncheckedHinted_correct hwfw (by omega) hnq hrank
  · rw [if_neg hsp] at hfirst
    rw [if_neg hsp, decide_eq_false hsp] at hslots
    have h64ge : ¬ wordOf (simpleSelectConstNew P B.data B.len (totalOnes B.data)).inventory
        (rank / P.ones_per_inventory * (1 + P.u64_per_subinventory)) < 2 ^ 63 := by
      rw [hfirst, or_pow63_eq_add _ hpos1lt63]
      omega
    have hmask : wordOf (simpleSelectConstNew P B.data B.len (totalOnes B.data)).inventory
        (rank / P.ones_per_inventory * (1 + P.u64_per_subinventory)) &&& ((1 <<< 63) - 1)
        = selectUnchecked B.data
          (rank / P.ones_per_inventory * P.ones_per_inventory) := by
      rw [hfirst]
      exact or_and_mask63 _ hpos1lt63
    have hdvd : P.ones_per_sub64 ∣ P.ones_per_inventory :=
      ⟨P.ones_per_inventory / P.ones_per_sub64, by rw [Nat.mul_comm, P.slotq64 (by omega)]⟩
    have hj : rank % P.ones_per_inventory / P.ones_per_sub64
        < P.ones_per_inventory / P.ones_per_sub64 :=
      Nat.div_lt_div_of_lt_of_dvd hdvd (Nat.mod_lt rank hopi)
    have hjm : rank % P.ones_per_inventory / P.ones_per_sub64 * P.ones_per_sub64
        ≤ rank % P.ones_per_inventory := Nat.div_mul_le_self _ _
    have hquant : rank / P.ones_per_inventory * P.ones_per_inventory
        + rank % P.ones_per_inventory / P.ones_per_sub64 * P.ones_per_sub64
        < totalOnes B.data := by omega
    have hslot := hslots (rank % P.ones_per_inventory / P.ones_per_sub64) hj hquant
    have hs : wordOf (simpleSelectConstNew P B.data B.len (totalOnes B.data)).inventory
        (rank / P.ones_per_inventory * (1 + P.u64_per_subinventory) + 1
          + rank % P.ones_per_inventory / P.ones_per_sub64)
        = selectUnchecked B.data (rank / P.ones_per_inventory * P.ones_per_inventory
            + rank % P.ones_per_inventory / P.ones_per_sub64 * P.ones_per_sub64)
          - selectUnchecked B.data
            (rank / P.ones_per_inventory * P.ones_per_inventory) := hslot
    have hmono : selectUnchecked B.data (rank / P.ones_per_inventory * P.ones_per_inventory)
        ≤ selectUnchecked B.data (rank / P.ones_per_inventory * P.ones_per_inventory
            + rank % P.ones_per_inventory / P.ones_per_sub64 * P.ones_per_sub64) := by
      rcases Nat.eq_zero_or_pos (rank % P.ones_per_inventory / P.ones_per_sub64
          * P.ones_per_sub64) with h0 | h0
      · rw [h0, Nat.add_zero]
      · exact (selectUnchecked_strictMono hwfw (by omega) hquant).le
    have hnq := (selectUnchecked_correct hwfw hquant).2
    have hdm64 : P.ones_per_sub64 * (rank % P.ones_per_inventory / P.ones_per_sub64)
        + rank % P.ones_per_inventory % P.ones_per_sub64 = rank % P.ones_per_inventory :=
      Nat.div_add_mod _ _
    have hcomm64 : P.ones_per_sub64 * (rank % P.ones_per_inventory / P.ones_per_sub64)
        = rank % P.ones_per_inventory / P.ones_per_sub64 * P.ones_per_sub64 :=
      Nat.mul_comm _ _
    have hrap : rank - rank % P.ones_per_inventory % P.ones_per_sub64
        = rank / P.ones_per_inventory * P.ones_per_inventory
          + rank % P.ones_per_inventory / P.ones_per_sub64 * P.ones_per_sub64 := by
      omega
    have hposarg : (wordOf (simpleSelectConstNew P B.data B.len (totalOnes B.data)).inventory
          (rank / P.ones_per_inventory * (1 + P.u64_per_subinventory))
          &&& ((1 <<< 63) - 1))
        + wordOf (simpleSelectConstNew P B.data B.len (totalOnes B.data)).inventory
          (rank / P.ones_per_inventory * (1 + P.u64_per_subinventory) + 1
            + rank % P.ones_per_inventory / P.ones_per_sub64)
        = selectUnchecked B.data (rank / P.ones_per_inventory * P.ones_per_inventory
            + rank % P.ones_per_inventory / P.ones_per_sub64 * P.ones_per_sub64) := by
      rw [hmask, hs]
      omega
    rw [ssc_select_eval64 _ P rank h64ge, hposarg, hrap]
    exact selectUncheckedHinted_correct hwfw (by omega) hnq hrank


/-- C3: for every bit vector `B` (any word content, any logical length below
the sign-bit threshold) and admissible const generics, the structure built by
`SimpleSelectConst::new` answers `select(r)` with the position of the
`(r+1)`-th set bit whenever `B` has at least `r+1` ones, and returns absent
(`none`) for every `r ≥ popcount(B)`. -/
theorem C3_simple_select (P : SSCParams)
    (hls1 : 1 ≤ P.log2_u64_per_subinventory)
    (hls2 : P.log2_u64_per_subinventory + 2 ≤ P.log2_ones_per_inventory)
    (B : Bitmap) (hwf : B.WF) (hlen63 : B.len < 2 ^ 63) :
    (∀ r p, IsSelect B.data r p →
        (simpleSelectConstNew P B.data B.len (totalOnes B.data)).select P r = some p)
    ∧ ∀ r, totalOnes B.data ≤ r →
        (simpleSelectConstNew P B.data B.len (totalOnes B.data)).select P r = none := by
  constructor
  · intro r p hsel
    have hplen : p < 64 * B.data.length := by
      by_contra hc
      have hz := @bitGet_ge_length B.data p (by omega)
      rw [hsel.1] at hz
      simp at hz
    have hr : r < totalOnes B.data := by
      have h1 := countBelow_lt_of_bit hsel.1 hplen
      rw [hsel.2] at h1
      exact h1
    have hu := ssc_select_isSelect P hls1 hls2 B hwf hlen63 r hr
    simp only [SimpleSelectConst.select]
    rw [if_pos (show r
      < (simpleSelectConstNew P B.data B.len (totalOnes B.data)).num_ones from hr)]
    exact congrArg some (isSelect_unique hu hsel)
  · intro r hr
    simp only [SimpleSelectConst.select]
    rw [if_neg (show ¬ r
      < (simpleSelectConstNew P B.data B.len (totalOnes B.data)).num_ones from by
        show ¬ r < totalOnes B.data
        omega)]

theorem C3_simple_select_witness :
    (1 ≤ (1 : Nat) ∧ 1 + 2 ≤ (3 : Nat) ∧ Bitmap.WF ⟨[173], 8⟩ ∧ (8 : Nat) < 2 ^ 63
      ∧ IsSelect [173] 4 7 ∧ totalOnes [173] ≤ 5)
    ∧ (simpleSelectConstNew ⟨3, 1⟩ [173] 8 (totalOnes [173])).select ⟨3, 1⟩ 4 = some 7
    ∧ (simpleSelectConstNew ⟨3, 1⟩ [173] 8 (totalOnes [173])).select ⟨3, 1⟩ 5 = none := by
  have h := C3_simple_select ⟨3, 1⟩ (by decide) (by decide) ⟨[173], 8⟩ (by decide) (by decide)
  exact ⟨⟨by decide, by decide, by decide, by decide, ⟨by decide, by decide⟩, by decide⟩,
    h.1 4 7 ⟨by decide, by decide⟩, h.2 5 (by decide)⟩


/-- Under the padding invariant, every set bit lies below the logical length. -/
theorem bitGet_lt_len (B : Bitmap) (hwf : B.WF) :
    ∀ p, bitGet B.data p = true → p < B.len := by
  intro p hp
  by_contra hc
  rw [hwf.2.2 p (by omega)] at hp
  simp at hp

/-- C4: Rank9 and SimpleSelectConst over the same bit vector are mutually
inverse: `rank(select(i)) = i` for every `i < popcount(B)`, and
`select(rank(p)) ≥ p` (indeed `= p`) whenever bit `p` is set. -/
theorem C4_rank_select_inverse (P : SSCParams)
    (hls1 : 1 ≤ P.log2_u64_per_subinventory)
    (hls2 : P.log2_u64_per_subinventory + 2 ≤ P.log2_ones_per_inventory)
    (B : Bitmap) (hwf : B.WF) (hlen63 : B.len < 2 ^ 63) :
    (∀ i, i < totalOnes B.data →
        (Rank9.new B).rank
          ((simpleSelectConstNew P B.data B.len (totalOnes B.data)).select_unchecked P i)
          = i)
    ∧ ∀ p, bitGet B.data p = true →
        p ≤ (simpleSelectConstNew P B.data B.len (totalOnes B.data)).select_unchecked P
          ((Rank9.new B).rank p) := by
  have hpad := bitGet_lt_len B hwf
  constructor
  · intro i hi
    have hsel := ssc_select_isSelect P hls1 hls2 B hwf hlen63 i hi
    have hplen : (simpleSelectConstNew P B.data B.len (totalOnes B.data)).select_unchecked P i
        < B.len := hpad _ hsel.1
    have hr9 := rank9_rank_eq B hwf
      ((simpleSelectConstNew P B.data B.len (totalOnes B.data)).select_unchecked P i)
    rw [show min ((simpleSelectConstNew P B.data B.len
        (totalOnes B.data)).select_unchecked P i) B.len
      = (simpleSelectConstNew P B.data B.len (totalOnes B.data)).select_unchecked P i
      by omega] at hr9
    rw [hr9]
    exact hsel.2
  · intro p hp
    have hplen : p < B.len := hpad p hp
    have hplen64 : p < 64 * B.data.length := by
      have h := hwf.1
      omega
    have hr9 := rank9_rank_eq B hwf p
    rw [show min p B.len = p by omega] at hr9
    have hrlt : countBelow B.data p < totalOnes B.data :=
      countBelow_lt_of_bit hp hplen64
    have hq := ssc_select_isSelect P hls1 hls2 B hwf hlen63 (countBelow B.data p) hrlt
    have hpIs : IsSelect B.data (countBelow B.data p) p := ⟨hp, rfl⟩
    rw [hr9]
    exact le_of_eq (isSelect_unique hpIs hq)

theorem C4_rank_select_inverse_witness :
    (1 ≤ (1 : Nat) ∧ 1 + 2 ≤ (3 : Nat) ∧ Bitmap.WF ⟨[173], 8⟩ ∧ (8 : Nat) < 2 ^ 63
      ∧ (2 : Nat) < totalOnes [173] ∧ bitGet [173] 5 = true)
    ∧ (Rank9.new ⟨[173], 8⟩).rank
        ((simpleSelectConstNew ⟨3, 1⟩ [173] 8 (totalOnes [173])).select_unchecked ⟨3, 1⟩ 2)
        = 2
    ∧ 5 ≤ (simpleSelectConstNew ⟨3, 1⟩ [173] 8 (totalOnes [173])).select_unchecked ⟨3, 1⟩
        ((Rank9.new ⟨[173], 8⟩).rank 5) := by
  have h := C4_rank_select_inverse ⟨3, 1⟩ (by decide) (by decide) ⟨[173], 8⟩
    (by decide) (by decide)
  exact ⟨⟨by decide, by decide, by decide, by decide, by decide, by decide⟩,
    h.1 2 (by decide), h.2 5 (by decide)⟩


/-! ## RearCodedList (src/dict/rear_coded_list.rs) -/

/-- `longest_common_prefix` (rear_coded_list.rs lines 460-470). -/
def lcp : List Nat → List Nat → Nat
  | a :: as, b :: bs => if a = b then lcp as bs + 1 else 0
  | _, _ => 0

/-- `strcpy` (lines 74-86): copy bytes from `data` into `result` until the
first NUL, returning the new accumulator and the remaining data.  The source
indexes `data[0]` unconditionally; on empty data (out of bounds in the
source) the model returns a junk pair, shown unreachable under the builder
invariant. -/
def strcpy : List Nat → List Nat → List Nat × List Nat
  | [], result => (result, [])
  | c :: rest, result => if c = 0 then (result, rest) else strcpy rest (result ++ [c])

/-- One iteration of the decode loops of `get_inplace` (lines 224-231) and
`contains` (lines 258-264): decode the rear length, truncate the previous
string and copy the new suffix. -/
def rclStep (data result : List Nat) : List Nat × List Nat :=
  let pr := decode_int data
  strcpy pr.2 (result.take (result.length - pr.1))

/-- The decode loop, `offset` iterations of `rclStep`. -/
def rclDecodeLoop : Nat → List Nat → List Nat → List Nat × List Nat
  | 0, data, result => (result, data)
  | n + 1, data, result =>
    let st := rclStep data result
    rclDecodeLoop n st.2 st.1

/-- Decoding state after `off` delta steps from byte position `start`:
first string of the block via `strcpy`, then `off` rear-coding steps. -/
def rclDecodeAt (data : List Nat) (start off : Nat) : List Nat × List Nat :=
  let st := strcpy (data.drop start) []
  rclDecodeLoop off st.2 st.1

/-- The fields of `RearCodedList` that affect `get_inplace` and `contains`
(the `stats` field only gathers statistics and initial capacities). -/
structure RearCodedList where
  data : List Nat
  pointers : List Nat
  k : Nat
  len : Nat
  last_str : List Nat

/-- `RearCodedList::new` (lines 125-135). -/
def RearCodedList.new (k : Nat) : RearCodedList := ⟨[], [], k, 0, []⟩

/-- `RearCodedList::push` (lines 143-198), without the stats updates: at a
block boundary record a pointer and write the string verbatim, otherwise
write the rear length followed by the new suffix; either way NUL-terminate
and remember the string. -/
def RearCodedList.push (rcl : RearCodedList) (s : List Nat) : RearCodedList :=
  if rcl.len % rcl.k = 0 then
    { data := rcl.data ++ s ++ [0]
      pointers := rcl.pointers ++ [rcl.data.length]
      k := rcl.k
      len := rcl.len + 1
      last_str := s }
  else
    { data := rcl.data ++ encode_int (rcl.last_str.length - lcp rcl.last_str s)
        ++ s.drop (lcp rcl.last_str s) ++ [0]
      pointers := rcl.pointers
      k := rcl.k
      len := rcl.len + 1
      last_str := s }

/-- `RearCodedList::get_inplace` (lines 211-232).  The source indexes
`pointers[block]`; the model reads a junk 0 out of bounds, shown unreachable
under the builder invariant. -/
def RearCodedList.get_inplace (rcl : RearCodedList) (index : Nat) : List Nat :=
  let block := index / rcl.k
  let offset := index % rcl.k
  let start := rcl.pointers.getD block 0
  let d := rcl.data.drop start
  let st := strcpy d []
  (rclDecodeLoop offset st.2 st.1).1

/-- Reference lexicographic comparison of byte strings (shortlex on equal
prefixes), used to state what the `strcmp` variants compute. -/
def lexCmp : List Nat → List Nat → Ordering
  | [], [] => .eq
  | [], _ :: _ => .lt
  | _ :: _, [] => .gt
  | a :: as, b :: bs =>
    match compare a b with
    | .eq => lexCmp as bs
    | ord => ord

/-- Lexicographic `≤` on byte strings. -/
def lexLe (a b : List Nat) : Prop := lexCmp a b ≠ .gt

instance instDecidableLexLe (a b : List Nat) : Decidable (lexLe a b) := by
  unfold lexLe
  infer_instance

/-- Loop of `strcmp` (lines 89-98): compare a plain string against a
NUL-terminated region byte by byte, `none` meaning the loop ran through. -/
def strcmpAux : List Nat → List Nat → Option Ordering
  | [], _ => none
  | c :: s, data =>
    match compare (data.getD 0 0) c with
    | .eq => strcmpAux s (data.drop 1)
    | ord => some ord

/-- `strcmp` (lines 89-98): the final comparison reads the byte of `data` at
the string length (a junk 0 when out of bounds, unreachable under the
invariant). -/
def strcmp (string data : List Nat) : Ordering :=
  match strcmpAux string data with
  | some ord => ord
  | none => compare ((data.drop string.length).getD 0 0) 0

/-- Loop of `strcmp_rust` (lines 101-110): out-of-range bytes of `other`
read as 0 (`unwrap_or`). -/
def strcmpRustAux : List Nat → List Nat → Option Ordering
  | [], _ => none
  | c :: s, other =>
    match compare (other.getD 0 0) c with
    | .eq => strcmpRustAux s (other.drop 1)
    | ord => some ord

/-- `strcmp_rust` (lines 101-110): on a full run the lengths decide. -/
def strcmpRust (string other : List Nat) : Ordering :=
  match strcmpRustAux string other with
  | some ord => ord
  | none => compare other.length string.length

/-- Modelled from the spec: the bisection of Rust `slice::binary_search_by`
(`ok` on an element comparing equal, otherwise `error` with the insertion
point), fuelled; `len + 1` units always suffice. -/
def binarySearchGo (f : Nat → Ordering) : Nat → Nat → Nat → Except Nat Nat
  | 0, left, _ => .error left
  | fuel + 1, left, right =>
    if left < right then
      let mid := (left + right) / 2
      match f mid with
      | .lt => binarySearchGo f fuel (mid + 1) right
      | .gt => binarySearchGo f fuel left mid
      | .eq => .ok mid
    else .error left

/-- Modelled from the spec: `binary_search_by` over indices `0..len`. -/
def binarySearch (f : Nat → Ordering) (len : Nat) : Except Nat Nat :=
  binarySearchGo f (len + 1) 0 len

/-- The in-block linear scan of `contains` (lines 256-272). -/
def containsGo (string : List Nat) : Nat → List Nat → List Nat → Bool
  | 0, _, _ => false
  | n + 1, data, result =>
    let st := rclStep data result
    match strcmpRust string st.1 with
    | .lt => containsGo string n st.2 st.1
    | .eq => true
    | .gt => false

/-- `RearCodedList::contains` (lines 234-279): binary search on the block
pointers, then a bounded linear scan inside the candidate block. -/
def RearCodedList.contains (rcl : RearCodedList) (string : List Nat) : Bool :=
  match binarySearch (fun b => strcmp string (rcl.data.drop (rcl.pointers.getD b 0)))
      rcl.pointers.length with
  | .ok _ => true
  | .error block_idx =>
    if block_idx = 0 ∨ rcl.pointers.length < block_idx then false
    else
      let bi := block_idx - 1
      let start := rcl.pointers.getD bi 0
      let d := rcl.data.drop start
      let st := strcpy d []
      let in_block := min (rcl.k - 1) (rcl.len - bi * rcl.k - 1)
      containsGo string in_block st.2 st.1

/-- Build a list by pushing every string in order. -/
def rclBuild (k : Nat) (L : List (List Nat)) : RearCodedList :=
  L.foldl RearCodedList.push (RearCodedList.new k)

theorem strcpy_spec : ∀ (s acc rest : List Nat), (∀ c ∈ s, c ≠ 0) →
    strcpy (s ++ 0 :: rest) acc = (acc ++ s, rest)
  | [], acc, rest, _ => by simp [strcpy]
  | c :: s, acc, rest, h => by
    have hc : c ≠ 0 := h c (by simp)
    show strcpy (c :: (s ++ 0 :: rest)) acc = _
    rw [strcpy, if_neg hc, strcpy_spec s (acc ++ [c]) rest (fun d hd => h d (by simp [hd]))]
    simp

theorem lcp_le_left : ∀ a b : List Nat, lcp a b ≤ a.length
  | [], _ => by simp [lcp]
  | _ :: _, [] => by simp [lcp]
  | a :: as, b :: bs => by
    by_cases h : a = b
    · have := lcp_le_left as bs
      simp only [lcp, if_pos h, List.length_cons]
      omega
    · simp [lcp, h]

theorem lcp_take : ∀ a b : List Nat, a.take (lcp a b) = b.take (lcp a b)
  | [], b => by simp [lcp]
  | _ :: _, [] => by simp [lcp]
  | a :: as, b :: bs => by
    by_cases h : a = b
    · subst h
      rw [show lcp (a :: as) (a :: bs) = lcp as bs + 1 by simp [lcp]]
      simp [lcp_take as bs]
    · simp [lcp, h]

theorem drop_append_le {l1 l2 : List Nat} {n : Nat} (h : n ≤ l1.length) :
    (l1 ++ l2).drop n = l1.drop n ++ l2 := by
  rw [List.drop_append_eq_append_drop, show n - l1.length = 0 by omega, List.drop_zero]

theorem rclDecodeLoop_succ_right : ∀ (n : Nat) (d r : List Nat),
    rclDecodeLoop (n + 1) d r
      = rclStep (rclDecodeLoop n d r).2 (rclDecodeLoop n d r).1
  | 0, d, r => by simp [rclDecodeLoop]
  | n + 1, d, r => by
    show rclDecodeLoop (n + 1) (rclStep d r).2 (rclStep d r).1 = _
    rw [rclDecodeLoop_succ_right n (rclStep d r).2 (rclStep d r).1]
    rfl

theorem rclDecodeAt_succ (d : List Nat) (p n : Nat) :
    rclDecodeAt d p (n + 1) = rclStep (rclDecodeAt d p n).2 (rclDecodeAt d p n).1 := by
  show rclDecodeLoop (n + 1) _ _ = _
  rw [rclDecodeLoop_succ_right]
  rfl

theorem rclStep_spec (rear : Nat) (suffix rest result : List Nat)
    (hv : rear < 2 ^ 56) (hsuf : ∀ c ∈ suffix, c ≠ 0) :
    rclStep (encode_int rear ++ suffix ++ 0 :: rest) result
      = (result.take (result.length - rear) ++ suffix, rest) := by
  show strcpy (decode_int (encode_int rear ++ suffix ++ 0 :: rest)).2
      (result.take (result.length - (decode_int (encode_int rear ++ suffix ++ 0 :: rest)).1))
      = _
  rw [show encode_int rear ++ suffix ++ 0 :: rest
      = encode_int rear ++ (suffix ++ 0 :: rest) by rw [List.append_assoc],
    decode_encode_int rear hv]
  exact strcpy_spec suffix (result.take (result.length - rear)) rest hsuf


theorem getD_append_lt {α : Type} (L M : List α) (d : α) (i : Nat) (h : i < L.length) :
    (L ++ M).getD i d = L.getD i d := by
  induction L generalizing i with
  | nil => simp at h
  | cons t T ih =>
    cases i with
    | zero => rfl
    | succ j =>
      have hj : j < T.length := by simpa using h
      simpa using ih j hj

theorem getD_append_self {α : Type} (L : List α) (s d : α) :
    (L ++ [s]).getD L.length d = s := by
  induction L with
  | nil => rfl
  | cons t T ih => simpa using ih

theorem ceil_succ_mod_zero (n k : Nat) (hk : 0 < k) (h : n % k = 0) :
    (n + 1 + k - 1) / k = n / k + 1 := by
  have hdm := Nat.div_add_mod n k
  have he : k * (n / k + 1) = k * (n / k) + k := by ring
  have h1 : n + 1 + k - 1 = k * (n / k + 1) := by omega
  rw [h1, Nat.mul_div_cancel_left _ hk]

theorem ceil_succ_mod_pos (n k : Nat) (hk : 0 < k) (h : n % k ≠ 0) :
    (n + 1 + k - 1) / k = (n + k - 1) / k := by
  have hdm := Nat.div_add_mod n k
  have hmlt : n % k < k := Nat.mod_lt _ hk
  have he : k * (n / k + 1) = k * (n / k) + k := by ring
  have h1 : n + 1 + k - 1 = k * (n / k + 1) + n % k := by omega
  have h2 : n + k - 1 = k * (n / k + 1) + (n % k - 1) := by omega
  rw [h1, h2, Nat.mul_add_div hk, Nat.mul_add_div hk,
    Nat.div_eq_of_lt (show n % k < k by omega),
    Nat.div_eq_of_lt (show n % k - 1 < k by omega)]

theorem ceil_pos_eq (n k : Nat) (hk : 0 < k) (hn : 0 < n) :
    (n + k - 1) / k = (n - 1) / k + 1 := by
  rw [show n + k - 1 = (n - 1) + k by omega, Nat.add_div_right _ hk]

/-- The invariant the rear-coded builder maintains after pushing the NUL-free
strings of `L` in order: block pointers in range, every block starting with
its first string written verbatim, and the decode state after any prefix of a
block yielding the right string, stably under data appended later. -/
def RclInv (k : Nat) (L : List (List Nat)) (st : RearCodedList) : Prop :=
  st.k = k
  ∧ st.len = L.length
  ∧ st.last_str = L.getD (L.length - 1) []
  ∧ st.pointers.length = (L.length + k - 1) / k
  ∧ (∀ b, b < st.pointers.length → st.pointers.getD b 0 ≤ st.data.length)
  ∧ (∀ b, b < st.pointers.length →
      ∃ rest, st.data.drop (st.pointers.getD b 0) = L.getD (b * k) [] ++ 0 :: rest)
  ∧ ∀ i, i < L.length → ∃ c, c ≤ st.data.length
      ∧ (i = L.length - 1 → c = st.data.length)
      ∧ ∀ extra, rclDecodeAt (st.data ++ extra) (st.pointers.getD (i / k) 0) (i % k)
          = (L.getD i [], st.data.drop c ++ extra)

theorem rclInv_nil (k : Nat) (hk : 1 ≤ k) : RclInv k [] (RearCodedList.new k) := by
  refine ⟨rfl, rfl, rfl, ?_, ?_, ?_, ?_⟩
  · show (0 : Nat) = (0 + k - 1) / k
    rw [show (0 : Nat) + k - 1 = k - 1 by omega, Nat.div_eq_of_lt (by omega)]
  · intro b hb
    simp [RearCodedList.new] at hb
  · intro b hb
    simp [RearCodedList.new] at hb
  · intro i hi
    simp at hi

set_option maxHeartbeats 1000000 in
/-- One push preserves the builder invariant. -/
theorem rclPush_inv (k : Nat) (hk : 1 ≤ k) (L : List (List Nat)) (s : List Nat)
    (hs0 : ∀ c ∈ s, c ≠ 0) (hslen : s.length < 2 ^ 56)
    (hlast : (L.getD (L.length - 1) []).length < 2 ^ 56)
    (st : RearCodedList) (hinv : RclInv k L st) :
    RclInv k (L ++ [s]) (st.push s) := by
  obtain ⟨hka, hlen, hlast_eq, hptrlen, hptrle, hhead, hmain⟩ := hinv
  have hkpos : 0 < k := hk
  have hlenL : (L ++ [s]).length = L.length + 1 := by simp
  by_cases hmod : L.length % k = 0
  · -- a new block starts
    have hpush : st.push s = ⟨st.data ++ s ++ [0], st.pointers ++ [st.data.length],
        k, L.length + 1, s⟩ := by
      simp only [RearCodedList.push, hka, hlen]
      rw [if_pos hmod]
    have hd : (st.push s).data = st.data ++ s ++ [0] := by rw [hpush]
    have hp : (st.push s).pointers = st.pointers ++ [st.data.length] := by rw [hpush]
    have hknew : (st.push s).k = k := by rw [hpush]
    have hlnew : (st.push s).len = L.length + 1 := by rw [hpush]
    have hlsnew : (st.push s).last_str = s := by rw [hpush]
    have hceq : (L.length + k - 1) / k = L.length / k := by
      have hdm := Nat.div_add_mod L.length k
      have h1 : L.length + k - 1 = k * (L.length / k) + (k - 1) := by omega
      rw [h1, Nat.mul_add_div hkpos, Nat.div_eq_of_lt (show k - 1 < k by omega), Nat.add_zero]
    obtain ⟨q, hq⟩ := Nat.dvd_of_mod_eq_zero hmod
    have hdivq : L.length / k = q := by rw [hq, Nat.mul_div_cancel_left _ hkpos]
    have hplq : st.pointers.length = q := by rw [hptrlen, hceq, hdivq]
    have hptrk : st.pointers.length * k = L.length := by
      rw [hplq, Nat.mul_comm]
      exact hq.symm
    refine ⟨hknew, ?_, ?_, ?_, ?_, ?_, ?_⟩
    · rw [hlnew, hlenL]
    · rw [hlsnew, hlenL, Nat.add_sub_cancel, getD_append_self]
    · have hplen2 : (st.pointers ++ [st.data.length]).length
          = (L.length + k - 1) / k + 1 := by
        rw [List.length_append, hptrlen, List.length_singleton]
      rw [hp, hplen2, hlenL, ceil_succ_mod_zero L.length k hkpos hmod, hceq]
    · intro b hb
      rw [hp] at hb
      rw [hp, hd]
      have hb2 : b < st.pointers.length + 1 := by simpa using hb
      have hdlen : (st.data ++ s ++ [0]).length = st.data.length + s.length + 1 := by
        rw [List.length_append, List.length_append, List.length_singleton]
      rcases Nat.lt_or_ge b st.pointers.length with hblt | hbge
      · rw [getD_append_lt _ _ _ _ hblt]
        have := hptrle b hblt
        omega
      · have hbeq : b = st.pointers.length := by omega
        subst hbeq
        rw [getD_append_self]
        omega
    · intro b hb
      rw [hp] at hb
      rw [hp, hd]
      have hb2 : b < st.pointers.length + 1 := by simpa using hb
      rcases Nat.lt_or_ge b st.pointers.length with hblt | hbge
      · have hbk : b * k < L.length :=
          lt_tot_of_lt_ceil L.length k b hkpos (by rw [← hptrlen]; exact hblt)
        obtain ⟨rest, hrest⟩ := hhead b hblt
        rw [getD_append_lt _ _ _ _ hblt,
          show st.data ++ s ++ [0] = st.data ++ (s ++ [0]) by simp,
          drop_append_le (hptrle b hblt), hrest, getD_append_lt _ _ _ _ hbk]
        exact ⟨rest ++ (s ++ [0]), by simp⟩
      · have hbeq : b = st.pointers.length := by omega
        subst hbeq
        rw [getD_append_self, hptrk, getD_append_self,
          show st.data ++ s ++ [0] = st.data ++ (s ++ [0]) by simp,
          drop_append_le (le_refl _), List.drop_length, List.nil_append]
        exact ⟨[], rfl⟩
    · intro i hi
      have hi2 : i < L.length + 1 := by rw [hlenL] at hi; exact hi
      rcases Nat.lt_or_ge i L.length with hilt | hige
      · obtain ⟨c, hc1, _, hc3⟩ := hmain i hilt
        refine ⟨c, by rw [hd]; simp; omega, ?_, ?_⟩
        · intro hieq
          rw [hlenL, Nat.add_sub_cancel] at hieq
          exact absurd hieq (by omega)
        · intro extra
          rw [hd, hp]
          have hik : i / k < st.pointers.length := by
            rw [hptrlen, ceil_pos_eq L.length k hkpos (by omega)]
            have hle : i / k ≤ (L.length - 1) / k := Nat.div_le_div_right (by omega)
            omega
          rw [getD_append_lt _ _ _ _ hik, getD_append_lt _ _ _ _ hilt,
            show (st.data ++ s ++ [0]) ++ extra = st.data ++ ((s ++ [0]) ++ extra) by simp,
            hc3 ((s ++ [0]) ++ extra),
            show st.data ++ s ++ [0] = st.data ++ (s ++ [0]) by simp,
            drop_append_le hc1]
          simp
      · have hieq : i = L.length := by omega
        subst hieq
        refine ⟨(st.data ++ s ++ [0]).length, by rw [hd], fun _ => by rw [hd], ?_⟩
        intro extra
        rw [hd, hp, hmod, hdivq, ← hplq, getD_append_self, getD_append_self]
        have h0 : rclDecodeAt ((st.data ++ s ++ [0]) ++ extra) st.data.length 0
            = strcpy (((st.data ++ s ++ [0]) ++ extra).drop st.data.length) [] := rfl
        rw [h0, show (st.data ++ s ++ [0]) ++ extra = st.data ++ (s ++ 0 :: extra) by simp,
          drop_append_le (le_refl _), List.drop_length, List.nil_append,
          strcpy_spec s [] extra hs0, List.nil_append, List.drop_length, List.nil_append]
  · -- same block: rear-coded delta
    have hn1 : 1 ≤ L.length := by
      by_contra hc
      push_neg at hc
      rw [show L.length = 0 by omega] at hmod
      exact hmod (by simp)
    have hpush : st.push s = ⟨st.data
        ++ encode_int (st.last_str.length - lcp st.last_str s)
        ++ s.drop (lcp st.last_str s) ++ [0],
        st.pointers, k, L.length + 1, s⟩ := by
      simp only [RearCodedList.push, hka, hlen]
      rw [if_neg hmod]
    have hd : (st.push s).data = st.data
        ++ encode_int ((L.getD (L.length - 1) []).length - lcp (L.getD (L.length - 1) []) s)
        ++ s.drop (lcp (L.getD (L.length - 1) []) s) ++ [0] := by
      rw [hpush, hlast_eq]
    have hp : (st.push s).pointers = st.pointers := by rw [hpush]
    have hknew : (st.push s).k = k := by rw [hpush]
    have hlnew : (st.push s).len = L.length + 1 := by rw [hpush]
    have hlsnew : (st.push s).last_str = s := by rw [hpush]
    have hmlt : L.length % k < k := Nat.mod_lt _ hkpos
    have hdm := Nat.div_add_mod L.length k
    have hsub : L.length - 1 = k * (L.length / k) + (L.length % k - 1) := by omega
    have hdiv : (L.length - 1) / k = L.length / k := by
      rw [hsub, Nat.mul_add_div hkpos,
        Nat.div_eq_of_lt (show L.length % k - 1 < k by omega), Nat.add_zero]
    have hmod2 : (L.length - 1) % k = L.length % k - 1 := by
      rw [hsub, Nat.mul_add_mod, Nat.mod_eq_of_lt (show L.length % k - 1 < k by omega)]
    refine ⟨hknew, ?_, ?_, ?_, ?_, ?_, ?_⟩
    · rw [hlnew, hlenL]
    · rw [hlsnew, hlenL, Nat.add_sub_cancel, getD_append_self]
    · rw [hp, hptrlen, hlenL, ceil_succ_mod_pos L.length k hkpos hmod]
    · intro b hb
      rw [hp] at hb
      rw [hp, hd]
      have := hptrle b hb
      have hdl : (st.data
          ++ encode_int ((L.getD (L.length - 1) []).length - lcp (L.getD (L.length - 1) []) s)
          ++ s.drop (lcp (L.getD (L.length - 1) []) s) ++ [0]).length
          = st.data.length
            + ((encode_int ((L.getD (L.length - 1) []).length
                - lcp (L.getD (L.length - 1) []) s)).length
              + ((s.drop (lcp (L.getD (L.length - 1) []) s)).length + 1)) := by
        simp
      omega
    · intro b hb
      rw [hp] at hb
      rw [hp, hd]
      have hbk : b * k < L.length :=
        lt_tot_of_lt_ceil L.length k b hkpos (by rw [← hptrlen]; exact hb)
      obtain ⟨rest, hrest⟩ := hhead b hb
      rw [show st.data
          ++ encode_int ((L.getD (L.length - 1) []).length - lcp (L.getD (L.length - 1) []) s)
          ++ s.drop (lcp (L.getD (L.length - 1) []) s) ++ [0]
          = st.data
            ++ (encode_int ((L.getD (L.length - 1) []).length
                - lcp (L.getD (L.length - 1) []) s)
              ++ s.drop (lcp (L.getD (L.length - 1) []) s) ++ [0]) by simp,
        drop_append_le (hptrle b hb), hrest, getD_append_lt _ _ _ _ hbk]
      refine ⟨rest ++ (encode_int ((L.getD (L.length - 1) []).length
          - lcp (L.getD (L.length - 1) []) s)
        ++ s.drop (lcp (L.getD (L.length - 1) []) s) ++ [0]), by simp⟩
    · intro i hi
      have hi2 : i < L.length + 1 := by rw [hlenL] at hi; exact hi
      rcases Nat.lt_or_ge i L.length with hilt | hige
      · obtain ⟨c, hc1, _, hc3⟩ := hmain i hilt
        refine ⟨c, by rw [hd]; simp; omega, ?_, ?_⟩
        · intro hieq
          rw [hlenL, Nat.add_sub_cancel] at hieq
          exact absurd hieq (by omega)
        · intro extra
          rw [hd, hp]
          have hik : i / k < st.pointers.length := by
            rw [hptrlen, ceil_pos_eq L.length k hkpos (by omega)]
            have hle : i / k ≤ (L.length - 1) / k := Nat.div_le_div_right (by omega)
            omega
          rw [getD_append_lt _ _ _ _ hilt,
            show (st.data
                ++ encode_int ((L.getD (L.length - 1) []).length
                  - lcp (L.getD (L.length - 1) []) s)
                ++ s.drop (lcp (L.getD (L.length - 1) []) s) ++ [0]) ++ extra
              = st.data
                ++ ((encode_int ((L.getD (L.length - 1) []).length
                    - lcp (L.getD (L.length - 1) []) s)
                  ++ s.drop (lcp (L.getD (L.length - 1) []) s) ++ [0]) ++ extra) by simp,
            hc3 ((encode_int ((L.getD (L.length - 1) []).length
                - lcp (L.getD (L.length - 1) []) s)
              ++ s.drop (lcp (L.getD (L.length - 1) []) s) ++ [0]) ++ extra),
            show st.data
                ++ encode_int ((L.getD (L.length - 1) []).length
                  - lcp (L.getD (L.length - 1) []) s)
                ++ s.drop (lcp (L.getD (L.length - 1) []) s) ++ [0]
              = st.data
                ++ (encode_int ((L.getD (L.length - 1) []).length
                    - lcp (L.getD (L.length - 1) []) s)
                  ++ s.drop (lcp (L.getD (L.length - 1) []) s) ++ [0]) by simp,
            drop_append_le hc1]
          simp
      · have hieq : i = L.length := by omega
        subst hieq
        obtain ⟨c', hc'1, hc'2, hc'3⟩ := hmain (L.length - 1) (by omega)
        have hceq' := hc'2 rfl
        subst hceq'
        refine ⟨(st.push s).data.length, le_refl _, fun _ => rfl, ?_⟩
        intro extra
        have hstate := hc'3 (encode_int ((L.getD (L.length - 1) []).length
            - lcp (L.getD (L.length - 1) []) s)
          ++ s.drop (lcp (L.getD (L.length - 1) []) s) ++ 0 :: extra)
        rw [List.drop_length, List.nil_append] at hstate
        rw [hd, hp, ← hdiv, show L.length % k = (L.length - 1) % k + 1 by omega,
          rclDecodeAt_succ,
          show (st.data
              ++ encode_int ((L.getD (L.length - 1) []).length
                - lcp (L.getD (L.length - 1) []) s)
              ++ s.drop (lcp (L.getD (L.length - 1) []) s) ++ [0]) ++ extra
            = st.data
              ++ (encode_int ((L.getD (L.length - 1) []).length
                  - lcp (L.getD (L.length - 1) []) s)
                ++ s.drop (lcp (L.getD (L.length - 1) []) s) ++ 0 :: extra) by simp,
          hstate]
        show rclStep (encode_int ((L.getD (L.length - 1) []).length
              - lcp (L.getD (L.length - 1) []) s)
            ++ s.drop (lcp (L.getD (L.length - 1) []) s) ++ 0 :: extra)
            (L.getD (L.length - 1) []) = _
        rw [rclStep_spec ((L.getD (L.length - 1) []).length - lcp (L.getD (L.length - 1) []) s)
          (s.drop (lcp (L.getD (L.length - 1) []) s)) extra (L.getD (L.length - 1) [])
          (by omega) (fun c hc => hs0 c (List.mem_of_mem_drop hc))]
        have hl : lcp (L.getD (L.length - 1) []) s ≤ (L.getD (L.length - 1) []).length :=
          lcp_le_left _ _
        rw [show (L.getD (L.length - 1) []).length
            - ((L.getD (L.length - 1) []).length - lcp (L.getD (L.length - 1) []) s)
            = lcp (L.getD (L.length - 1) []) s by omega,
          lcp_take, List.take_append_drop, getD_append_self, List.drop_length,
          List.nil_append]

/-- The builder invariant holds after building from any admissible list. -/
theorem rclBuild_inv (k : Nat) (hk : 1 ≤ k) (L : List (List Nat))
    (hL : ∀ t ∈ L, (∀ c ∈ t, c ≠ 0) ∧ t.length < 2 ^ 56) :
    RclInv k L (rclBuild k L) := by
  have main : ∀ (M : List (List Nat)), (∀ t ∈ M, (∀ c ∈ t, c ≠ 0) ∧ t.length < 2 ^ 56) →
      ∀ (L0 : List (List Nat)) (st : RearCodedList), RclInv k L0 st →
      (L0.getD (L0.length - 1) []).length < 2 ^ 56 →
      RclInv k (L0 ++ M) (M.foldl RearCodedList.push st) := by
    intro M
    induction M with
    | nil =>
      intro _ L0 st h _
      simpa using h
    | cons t M ih =>
      intro hM L0 st h hlast
      have ht := hM t (by simp)
      have hstep := rclPush_inv k hk L0 t ht.1 ht.2 hlast st h
      have hres := ih (fun u hu => hM u (by simp [hu])) (L0 ++ [t]) (st.push t) hstep
        (by rw [show (L0 ++ [t]).length - 1 = L0.length by simp, getD_append_self]
            exact ht.2)
      rw [List.append_assoc] at hres
      simpa using hres
  have h0 := main L hL [] (RearCodedList.new k) (rclInv_nil k hk)
    (by
      have hz : (([] : List (List Nat)).getD (([] : List (List Nat)).length - 1) []).length
          = 0 := rfl
      rw [hz]
      positivity)
  simpa [rclBuild] using h0

/-- `get_inplace` over the built structure returns the pushed strings. -/
theorem rcl_get_correct (k : Nat) (hk : 1 ≤ k) (L : List (List Nat))
    (hL : ∀ t ∈ L, (∀ c ∈ t, c ≠ 0) ∧ t.length < 2 ^ 56) :
    ∀ i, i < L.length → (rclBuild k L).get_inplace i = L.getD i [] := by
  obtain ⟨hka, _, _, _, _, _, hmain⟩ := rclBuild_inv k hk L hL
  intro i hi
  obtain ⟨c, _, _, hc3⟩ := hmain i hi
  have h := hc3 []
  rw [List.append_nil] at h
  have hg : (rclBuild k L).get_inplace i
      = (rclDecodeAt (rclBuild k L).data
          ((rclBuild k L).pointers.getD (i / (rclBuild k L).k) 0)
          (i % (rclBuild k L).k)).1 := rfl
  rw [hg, hka, h]


theorem nat_compare_succ (m n : Nat) : compare (m + 1) (n + 1) = compare m n := by
  rcases Nat.lt_trichotomy m n with h | h | h
  · rw [compare_lt_iff_lt.mpr h, compare_lt_iff_lt.mpr (show m + 1 < n + 1 by omega)]
  · subst h
    rw [compare_eq_iff_eq.mpr rfl, compare_eq_iff_eq.mpr rfl]
  · rw [compare_gt_iff_gt.mpr h, compare_gt_iff_gt.mpr (show n + 1 < m + 1 by omega)]

theorem lexCmp_self : ∀ a : List Nat, lexCmp a a = .eq
  | [] => rfl
  | c :: a => by
    simp only [lexCmp, compare_eq_iff_eq.mpr (rfl : c = c)]
    exact lexCmp_self a

theorem lexCmp_eq_iff : ∀ a b : List Nat, lexCmp a b = .eq ↔ a = b
  | [], [] => by simp [lexCmp]
  | [], b :: bs => by simp [lexCmp]
  | a :: as, [] => by simp [lexCmp]
  | a :: as, b :: bs => by
    cases hc : compare a b with
    | eq =>
      have hab : a = b := compare_eq_iff_eq.mp hc
      subst hab
      simp only [lexCmp, compare_eq_iff_eq.mpr (rfl : a = a)]
      rw [lexCmp_eq_iff as bs]
      simp
    | lt =>
      have hne : lexCmp (a :: as) (b :: bs) = Ordering.lt := by simp [lexCmp, hc]
      rw [hne]
      constructor
      · intro h
        exact nomatch h
      · intro h
        injection h with h1 h2
        subst h1
        have h2' := compare_eq_iff_eq.mpr (rfl : a = a)
        rw [hc] at h2'
        exact nomatch h2'
    | gt =>
      have hne : lexCmp (a :: as) (b :: bs) = Ordering.gt := by simp [lexCmp, hc]
      rw [hne]
      constructor
      · intro h
        exact nomatch h
      · intro h
        injection h with h1 h2
        subst h1
        have h2' := compare_eq_iff_eq.mpr (rfl : a = a)
        rw [hc] at h2'
        exact nomatch h2'

theorem lexCmp_swap : ∀ a b : List Nat, (lexCmp a b).swap = lexCmp b a
  | [], [] => rfl
  | [], b :: bs => rfl
  | a :: as, [] => rfl
  | a :: as, b :: bs => by
    cases hc : compare a b with
    | eq =>
      have hba : compare b a = .eq := compare_eq_iff_eq.mpr (compare_eq_iff_eq.mp hc).symm
      simp only [lexCmp, hc, hba]
      exact lexCmp_swap as bs
    | lt =>
      have hba : compare b a = .gt := compare_gt_iff_gt.mpr (compare_lt_iff_lt.mp hc)
      simp only [lexCmp, hc, hba]
      rfl
    | gt =>
      have hba : compare b a = .lt := compare_lt_iff_lt.mpr (compare_gt_iff_gt.mp hc)
      simp only [lexCmp, hc, hba]
      rfl

theorem lexCmp_trans_le : ∀ a b c : List Nat,
    lexCmp a b ≠ .gt → lexCmp b c ≠ .gt → lexCmp a c ≠ .gt
  | [], b, c => fun _ _ => by cases c <;> simp [lexCmp]
  | a :: as, [], c => fun hab _ => absurd rfl hab
  | a :: as, b :: bs, [] => fun _ hbc => absurd rfl hbc
  | a :: as, b :: bs, c :: cs => fun hab hbc => by
    cases hcab : compare a b with
    | gt =>
      rw [show lexCmp (a :: as) (b :: bs) = .gt by simp [lexCmp, hcab]] at hab
      exact absurd rfl hab
    | lt =>
      have h1 : a < b := compare_lt_iff_lt.mp hcab
      cases hcbc : compare b c with
      | gt =>
        rw [show lexCmp (b :: bs) (c :: cs) = .gt by simp [lexCmp, hcbc]] at hbc
        exact absurd rfl hbc
      | lt =>
        have h2 : b < c := compare_lt_iff_lt.mp hcbc
        simp [lexCmp, compare_lt_iff_lt.mpr (show a < c by omega)]
      | eq =>
        have h2 : b = c := compare_eq_iff_eq.mp hcbc
        simp [lexCmp, compare_lt_iff_lt.mpr (show a < c by omega)]
    | eq =>
      have h1 : a = b := compare_eq_iff_eq.mp hcab
      rw [show lexCmp (a :: as) (b :: bs) = lexCmp as bs by simp [lexCmp, hcab]] at hab
      cases hcbc : compare b c with
      | gt =>
        rw [show lexCmp (b :: bs) (c :: cs) = .gt by simp [lexCmp, hcbc]] at hbc
        exact absurd rfl hbc
      | lt =>
        have h2 : b < c := compare_lt_iff_lt.mp hcbc
        simp [lexCmp, compare_lt_iff_lt.mpr (show a < c by omega)]
      | eq =>
        have h2 : b = c := compare_eq_iff_eq.mp hcbc
        rw [show lexCmp (b :: bs) (c :: cs) = lexCmp bs cs by simp [lexCmp, hcbc]] at hbc
        have h3 := lexCmp_trans_le as bs cs hab hbc
        rw [show lexCmp (a :: as) (c :: cs) = lexCmp as cs by
          simp [lexCmp, compare_eq_iff_eq.mpr (show a = c by omega)]]
        exact h3

theorem lexCmp_trans_lt1 : ∀ a b c : List Nat,
    lexCmp a b = .lt → lexCmp b c ≠ .gt → lexCmp a c = .lt
  | [], b, c => fun hab hbc => by
    cases c with
    | cons c cs => simp [lexCmp]
    | nil =>
      cases b with
      | nil => exact absurd hab (by simp [lexCmp])
      | cons b bs => exact absurd rfl hbc
  | a :: as, [], c => fun hab _ => absurd hab (by simp [lexCmp])
  | a :: as, b :: bs, [] => fun _ hbc => absurd rfl hbc
  | a :: as, b :: bs, c :: cs => fun hab hbc => by
    cases hcab : compare a b with
    | gt => exact absurd hab (by simp [lexCmp, hcab])
    | lt =>
      have h1 : a < b := compare_lt_iff_lt.mp hcab
      cases hcbc : compare b c with
      | gt =>
        rw [show lexCmp (b :: bs) (c :: cs) = .gt by simp [lexCmp, hcbc]] at hbc
        exact absurd rfl hbc
      | lt =>
        have h2 : b < c := compare_lt_iff_lt.mp hcbc
        simp [lexCmp, compare_lt_iff_lt.mpr (show a < c by omega)]
      | eq =>
        have h2 : b = c := compare_eq_iff_eq.mp hcbc
        simp [lexCmp, compare_lt_iff_lt.mpr (show a < c by omega)]
    | eq =>
      have h1 : a = b := compare_eq_iff_eq.mp hcab
      rw [show lexCmp (a :: as) (b :: bs) = lexCmp as bs by simp [lexCmp, hcab]] at hab
      cases hcbc : compare b c with
      | gt =>
        rw [show lexCmp (b :: bs) (c :: cs) = .gt by simp [lexCmp, hcbc]] at hbc
        exact absurd rfl hbc
      | lt =>
        have h2 : b < c := compare_lt_iff_lt.mp hcbc
        simp [lexCmp, compare_lt_iff_lt.mpr (show a < c by omega)]
      | eq =>
        have h2 : b = c := compare_eq_iff_eq.mp hcbc
        rw [show lexCmp (b :: bs) (c :: cs) = lexCmp bs cs by simp [lexCmp, hcbc]] at hbc
        have h3 := lexCmp_trans_lt1 as bs cs hab hbc
        rw [show lexCmp (a :: as) (c :: cs) = lexCmp as cs by
          simp [lexCmp, compare_eq_iff_eq.mpr (show a = c by omega)]]
        exact h3

theorem lexCmp_trans_lt2 : ∀ a b c : List Nat,
    lexCmp a b ≠ .gt → lexCmp b c = .lt → lexCmp a c = .lt
  | [], b, c => fun _ hbc => by
    cases c with
    | cons c cs => simp [lexCmp]
    | nil =>
      cases b with
      | nil => exact absurd hbc (by simp [lexCmp])
      | cons b bs => exact absurd hbc (by simp [lexCmp])
  | a :: as, [], c => fun hab _ => absurd rfl hab
  | a :: as, b :: bs, [] => fun _ hbc => absurd hbc (by simp [lexCmp])
  | a :: as, b :: bs, c :: cs => fun hab hbc => by
    cases hcab : compare a b with
    | gt =>
      rw [show lexCmp (a :: as) (b :: bs) = .gt by simp [lexCmp, hcab]] at hab
      exact absurd rfl hab
    | lt =>
      have h1 : a < b := compare_lt_iff_lt.mp hcab
      cases hcbc : compare b c with
      | gt => exact absurd hbc (by simp [lexCmp, hcbc])
      | lt =>
        have h2 : b < c := compare_lt_iff_lt.mp hcbc
        simp [lexCmp, compare_lt_iff_lt.mpr (show a < c by omega)]
      | eq =>
        have h2 : b = c := compare_eq_iff_eq.mp hcbc
        simp [lexCmp, compare_lt_iff_lt.mpr (show a < c by omega)]
    | eq =>
      have h1 : a = b := compare_eq_iff_eq.mp hcab
      rw [show lexCmp (a :: as) (b :: bs) = lexCmp as bs by simp [lexCmp, hcab]] at hab
      cases hcbc : compare b c with
      | gt => exact absurd hbc (by simp [lexCmp, hcbc])
      | lt =>
        have h2 : b < c := compare_lt_iff_lt.mp hcbc
        simp [lexCmp, compare_lt_iff_lt.mpr (show a < c by omega)]
      | eq =>
        have h2 : b = c := compare_eq_iff_eq.mp hcbc
        rw [show lexCmp (b :: bs) (c :: cs) = lexCmp bs cs by simp [lexCmp, hcbc]] at hbc
        have h3 := lexCmp_trans_lt2 as bs cs hab hbc
        rw [show lexCmp (a :: as) (c :: cs) = lexCmp as cs by
          simp [lexCmp, compare_eq_iff_eq.mpr (show a = c by omega)]]
        exact h3

theorem strcmp_cons (a : Nat) (s : List Nat) (c : Nat) (data : List Nat) :
    strcmp (a :: s) (c :: data)
      = match compare c a with
        | .eq => strcmp s data
        | ord => ord := by
  cases hc : compare c a with
  | eq =>
    simp only [strcmp, strcmpAux, List.getD_cons_zero, List.drop_succ_cons, List.drop_zero,
      hc, List.length_cons]
  | lt => simp only [strcmp, strcmpAux, List.getD_cons_zero, hc]
  | gt => simp only [strcmp, strcmpAux, List.getD_cons_zero, hc]

theorem strcmp_spec : ∀ (s t rest : List Nat), (∀ c ∈ s, c ≠ 0) → (∀ c ∈ t, c ≠ 0) →
    strcmp s (t ++ 0 :: rest) = lexCmp t s
  | [], [], rest, _, _ => by
    show strcmp [] (0 :: rest) = .eq
    simp only [strcmp, strcmpAux, List.length_nil, List.drop_zero, List.getD_cons_zero]
    exact compare_eq_iff_eq.mpr rfl
  | [], b :: bs, rest, _, ht => by
    have hb : b ≠ 0 := ht b (by simp)
    show strcmp [] (b :: (bs ++ 0 :: rest)) = lexCmp (b :: bs) []
    simp only [strcmp, strcmpAux, List.length_nil, List.drop_zero, List.getD_cons_zero]
    rw [show lexCmp (b :: bs) [] = .gt from rfl]
    exact compare_gt_iff_gt.mpr (by omega)
  | a :: as, [], rest, hs, _ => by
    have ha : a ≠ 0 := hs a (by simp)
    show strcmp (a :: as) (0 :: rest) = .lt
    rw [strcmp_cons, compare_lt_iff_lt.mpr (show (0:Nat) < a by omega)]
  | a :: as, b :: bs, rest, hs, ht => by
    have hstep := strcmp_cons a as b (bs ++ 0 :: rest)
    show strcmp (a :: as) (b :: (bs ++ 0 :: rest)) = lexCmp (b :: bs) (a :: as)
    rw [hstep]
    cases hc : compare b a with
    | eq =>
      simp only [hc]
      show strcmp as (bs ++ 0 :: rest) = lexCmp (b :: bs) (a :: as)
      rw [strcmp_spec as bs rest (fun c hcm => hs c (by simp [hcm]))
          (fun c hcm => ht c (by simp [hcm])),
        show lexCmp (b :: bs) (a :: as) = lexCmp bs as by simp [lexCmp, hc]]
    | lt =>
      simp only [hc]
      show Ordering.lt = lexCmp (b :: bs) (a :: as)
      simp [lexCmp, hc]
    | gt =>
      simp only [hc]
      show Ordering.gt = lexCmp (b :: bs) (a :: as)
      simp [lexCmp, hc]

theorem strcmpRust_cons (a : Nat) (s : List Nat) (c : Nat) (other : List Nat) :
    strcmpRust (a :: s) (c :: other)
      = match compare c a with
        | .eq => strcmpRust s other
        | ord => ord := by
  cases hc : compare c a with
  | eq =>
    simp only [strcmpRust, strcmpRustAux, List.getD_cons_zero, List.drop_succ_cons,
      List.drop_zero, hc, List.length_cons, nat_compare_succ]
  | lt => simp only [strcmpRust, strcmpRustAux, List.getD_cons_zero, hc]
  | gt => simp only [strcmpRust, strcmpRustAux, List.getD_cons_zero, hc]

theorem strcmpRust_spec : ∀ (s r : List Nat), (∀ c ∈ s, c ≠ 0) →
    strcmpRust s r = lexCmp r s
  | [], [], _ => by
    show strcmpRust [] [] = .eq
    simp only [strcmpRust, strcmpRustAux, List.length_nil]
    exact compare_eq_iff_eq.mpr rfl
  | [], c :: r, _ => by
    show strcmpRust [] (c :: r) = .gt
    simp only [strcmpRust, strcmpRustAux, List.length_cons, List.length_nil]
    exact compare_gt_iff_gt.mpr (by omega)
  | a :: s, [], hs => by
    have ha : a ≠ 0 := hs a (by simp)
    show strcmpRust (a :: s) [] = .lt
    simp only [strcmpRust, strcmpRustAux]
    rw [show ([] : List Nat).getD 0 0 = 0 from rfl,
      compare_lt_iff_lt.mpr (show (0:Nat) < a by omega)]
  | a :: s, c :: r, hs => by
    rw [strcmpRust_cons]
    cases hc : compare c a with
    | eq =>
      simp only [hc]
      show strcmpRust s r = lexCmp (c :: r) (a :: s)
      rw [strcmpRust_spec s r (fun d hd => hs d (by simp [hd])),
        show lexCmp (c :: r) (a :: s) = lexCmp r s by simp [lexCmp, hc]]
    | lt =>
      simp only [hc]
      show Ordering.lt = lexCmp (c :: r) (a :: s)
      simp [lexCmp, hc]
    | gt =>
      simp only [hc]
      show Ordering.gt = lexCmp (c :: r) (a :: s)
      simp [lexCmp, hc]



theorem lexLe_refl (x : List Nat) : lexLe x x := by
  unfold lexLe
  rw [lexCmp_self]
  simp

theorem sorted_adj (L : List (List Nat)) (hch : List.Chain' lexLe L) (i : Nat)
    (h : i + 1 < L.length) : lexLe (L.getD i []) (L.getD (i + 1) []) := by
  have h2 := List.chain'_iff_get.mp hch i (by omega)
  rw [List.getD_eq_getElem?_getD, List.getD_eq_getElem?_getD,
    List.getElem?_eq_getElem (show i < L.length by omega), List.getElem?_eq_getElem h]
  simpa using h2

theorem sorted_getD_le (L : List (List Nat)) (hch : List.Chain' lexLe L) :
    ∀ b a, a ≤ b → b < L.length → lexLe (L.getD a []) (L.getD b []) := by
  intro b
  induction b with
  | zero =>
    intro a hab _
    have ha : a = 0 := by omega
    subst ha
    exact lexLe_refl _
  | succ b ih =>
    intro a hab hb
    rcases Nat.lt_or_ge a (b + 1) with h1 | h1
    · exact lexCmp_trans_le _ _ _ (ih a (by omega) (by omega)) (sorted_adj L hch b hb)
    · have ha : a = b + 1 := by omega
      subst ha
      exact lexLe_refl _

theorem binarySearchGo_spec (f : Nat → Ordering) (len : Nat)
    (hmono : ∀ i j, i ≤ j → j < len →
      (f j = .lt → f i = .lt) ∧ (f i = .gt → f j = .gt)) :
    ∀ fuel left right, left ≤ right → right ≤ len → right - left < fuel →
      (∀ j, j < left → f j = .lt) → (∀ j, right ≤ j → j < len → f j = .gt) →
      (∃ m, binarySearchGo f fuel left right = .ok m ∧ m < len ∧ f m = .eq)
      ∨ ∃ idx, binarySearchGo f fuel left right = .error idx ∧ idx ≤ len
          ∧ (∀ j, j < idx → f j = .lt) ∧ (∀ j, idx ≤ j → j < len → f j = .gt) := by
  intro fuel
  induction fuel with
  | zero =>
    intro left right h1 h2 h3 _ _
    omega
  | succ fuel ih =>
    intro left right h1 h2 h3 hlo hhi
    by_cases hlr : left < right
    · simp only [binarySearchGo]
      rw [if_pos hlr]
      cases hf : f ((left + right) / 2) with
      | eq =>
        simp only [hf]
        left
        exact ⟨(left + right) / 2, rfl, by omega, hf⟩
      | lt =>
        simp only [hf]
        refine ih ((left + right) / 2 + 1) right (by omega) h2 (by omega) ?_ hhi
        intro j hj
        rcases Nat.lt_or_ge j left with hjl | hjl
        · exact hlo j hjl
        · exact (hmono j ((left + right) / 2) (by omega) (by omega)).1 hf
      | gt =>
        simp only [hf]
        refine ih left ((left + right) / 2) (by omega) (by omega) (by omega) hlo ?_
        intro j hj hjlen
        exact (hmono ((left + right) / 2) j hj hjlen).2 hf
    · simp only [binarySearchGo]
      rw [if_neg hlr]
      right
      refine ⟨left, rfl, by omega, fun j hj => hlo j hj, ?_⟩
      intro j hj hjlen
      exact hhi j (by omega) hjlen

theorem binarySearch_spec (f : Nat → Ordering) (len : Nat)
    (hmono : ∀ i j, i ≤ j → j < len →
      (f j = .lt → f i = .lt) ∧ (f i = .gt → f j = .gt)) :
    (∃ m, binarySearch f len = .ok m ∧ m < len ∧ f m = .eq)
    ∨ ∃ idx, binarySearch f len = .error idx ∧ idx ≤ len
        ∧ (∀ j, j < idx → f j = .lt) ∧ (∀ j, idx ≤ j → j < len → f j = .gt) :=
  binarySearchGo_spec f len hmono (len + 1) 0 len (Nat.zero_le _) (le_refl _)
    (by omega) (fun j hj => absurd hj (by omega)) (fun j hj hjl => absurd hjl (by omega))

theorem containsGo_iff (s : List Nat) (hs : ∀ c ∈ s, c ≠ 0)
    (L : List (List Nat)) (hch : List.Chain' lexLe L)
    (k bi : Nat) (data : List Nat) (ptr : Nat)
    (hres : ∀ v, v < k → bi * k + v < L.length →
      (rclDecodeAt data ptr v).1 = L.getD (bi * k + v) []) :
    ∀ m u, u + m < k → bi * k + u + m < L.length →
      lexCmp (L.getD (bi * k + u) []) s = .lt →
      (containsGo s m (rclDecodeAt data ptr u).2 (rclDecodeAt data ptr u).1 = true
        ↔ ∃ j, bi * k + u < j ∧ j ≤ bi * k + u + m ∧ L.getD j [] = s) := by
  intro m
  induction m with
  | zero =>
    intro u _ _ _
    constructor
    · intro h
      rw [show containsGo s 0 (rclDecodeAt data ptr u).2 (rclDecodeAt data ptr u).1 = false
        from rfl] at h
      exact nomatch h
    · rintro ⟨j, hj1, hj2, _⟩
      omega
  | succ m ih =>
    intro u hu hulen hprev
    have hstep : containsGo s (m + 1) (rclDecodeAt data ptr u).2 (rclDecodeAt data ptr u).1
        = match strcmpRust s (rclDecodeAt data ptr (u + 1)).1 with
          | .lt => containsGo s m (rclDecodeAt data ptr (u + 1)).2
              (rclDecodeAt data ptr (u + 1)).1
          | .eq => true
          | .gt => false := by
      rw [rclDecodeAt_succ]
      rfl
    rw [hstep]
    have hresu1 : (rclDecodeAt data ptr (u + 1)).1 = L.getD (bi * k + (u + 1)) [] :=
      hres (u + 1) (by omega) (by omega)
    have hcc : strcmpRust s (rclDecodeAt data ptr (u + 1)).1
        = lexCmp (L.getD (bi * k + (u + 1)) []) s := by
      rw [hresu1]
      exact strcmpRust_spec s (L.getD (bi * k + (u + 1)) []) hs
    cases hc2 : strcmpRust s (rclDecodeAt data ptr (u + 1)).1 with
    | eq =>
      have hc : lexCmp (L.getD (bi * k + (u + 1)) []) s = .eq := by rw [← hcc, hc2]
      simp only [hc2]
      have heq : L.getD (bi * k + (u + 1)) [] = s := (lexCmp_eq_iff _ _).mp hc
      constructor
      · intro _
        exact ⟨bi * k + (u + 1), by omega, by omega, heq⟩
      · intro _
        trivial
    | gt =>
      have hc : lexCmp (L.getD (bi * k + (u + 1)) []) s = .gt := by rw [← hcc, hc2]
      simp only [hc2]
      constructor
      · intro h
        exact nomatch h
      · rintro ⟨j, hj1, hj2, hjeq⟩
        exfalso
        have hle : lexLe (L.getD (bi * k + (u + 1)) []) (L.getD j []) :=
          sorted_getD_le L hch j (bi * k + (u + 1))
            (by omega) (by omega)
        have hswap : lexCmp s (L.getD (bi * k + (u + 1)) []) = .lt := by
          have h2 := lexCmp_swap (L.getD (bi * k + (u + 1)) []) s
          rw [hc] at h2
          exact h2.symm
        have hlt : lexCmp s (L.getD j []) = .lt := lexCmp_trans_lt1 s _ _ hswap hle
        rw [hjeq, lexCmp_self] at hlt
        exact nomatch hlt
    | lt =>
      have hc : lexCmp (L.getD (bi * k + (u + 1)) []) s = .lt := by rw [← hcc, hc2]
      simp only [hc2]
      rw [ih (u + 1) (by omega) (by omega) hc]
      constructor
      · rintro ⟨j, hj1, hj2, hjeq⟩
        exact ⟨j, by omega, by omega, hjeq⟩
      · rintro ⟨j, hj1, hj2, hjeq⟩
        refine ⟨j, ?_, by omega, hjeq⟩
        rcases Nat.lt_or_ge (bi * k + (u + 1)) j with h | h
        · exact h
        · exfalso
          have hje : j = bi * k + (u + 1) := by omega
          rw [hje] at hjeq
          have h3 := (lexCmp_eq_iff (L.getD (bi * k + (u + 1)) []) s).mpr hjeq
          rw [hc] at h3
          exact nomatch h3




theorem getD_mem (L : List (List Nat)) (j : Nat) (hj : j < L.length) : L.getD j [] ∈ L := by
  rw [List.getD_eq_getElem?_getD, List.getElem?_eq_getElem hj]
  simp only [Option.getD_some]
  exact List.getElem_mem _

set_option maxHeartbeats 1000000 in
theorem rcl_contains_core (k : Nat) (hk : 1 ≤ k) (L : List (List Nat))
    (hL : ∀ t ∈ L, (∀ c ∈ t, c ≠ 0) ∧ t.length < 2 ^ 56)
    (hch : List.Chain' lexLe L) (s : List Nat) (hs : ∀ c ∈ s, c ≠ 0)
    (st : RearCodedList)
    (hka : st.k = k) (hlen : st.len = L.length)
    (hptrlen : st.pointers.length = (L.length + k - 1) / k)
    (hhead : ∀ b, b < st.pointers.length →
      ∃ rest, st.data.drop (st.pointers.getD b 0) = L.getD (b * k) [] ++ 0 :: rest)
    (hdec : ∀ i, i < L.length →
      (rclDecodeAt st.data (st.pointers.getD (i / k) 0) (i % k)).1 = L.getD i []) :
    (st.contains s = true ↔ s ∈ L) := by
  have hkpos : 0 < k := hk
  have hf : ∀ b, b < st.pointers.length →
      strcmp s (st.data.drop (st.pointers.getD b 0)) = lexCmp (L.getD (b * k) []) s := by
    intro b hb
    obtain ⟨rest, hrest⟩ := hhead b hb
    rw [hrest]
    have hbk : b * k < L.length :=
      lt_tot_of_lt_ceil L.length k b hkpos (by rw [← hptrlen]; exact hb)
    have hmem : L.getD (b * k) [] ∈ L := getD_mem L (b * k) hbk
    exact strcmp_spec s (L.getD (b * k) []) rest hs (fun c hc => (hL _ hmem).1 c hc)
  have hmono : ∀ i j, i ≤ j → j < st.pointers.length →
      ((fun b => strcmp s (st.data.drop (st.pointers.getD b 0))) j = .lt →
        (fun b => strcmp s (st.data.drop (st.pointers.getD b 0))) i = .lt)
      ∧ ((fun b => strcmp s (st.data.drop (st.pointers.getD b 0))) i = .gt →
        (fun b => strcmp s (st.data.drop (st.pointers.getD b 0))) j = .gt) := by
    intro i j hij hj
    have hi : i < st.pointers.length := by omega
    have hjk : j * k < L.length :=
      lt_tot_of_lt_ceil L.length k j hkpos (by rw [← hptrlen]; exact hj)
    have hle : lexLe (L.getD (i * k) []) (L.getD (j * k) []) :=
      sorted_getD_le L hch (j * k) (i * k) (Nat.mul_le_mul_right _ hij) hjk
    constructor
    · intro hjlt
      show strcmp s (st.data.drop (st.pointers.getD i 0)) = .lt
      rw [hf i hi]
      have hjlt2 : lexCmp (L.getD (j * k) []) s = .lt := by
        rw [← hf j hj]
        exact hjlt
      exact lexCmp_trans_lt2 _ _ _ hle hjlt2
    · intro higt
      show strcmp s (st.data.drop (st.pointers.getD j 0)) = .gt
      rw [hf j hj]
      have higt2 : lexCmp (L.getD (i * k) []) s = .gt := by
        rw [← hf i hi]
        exact higt
      have hs1 : lexCmp s (L.getD (i * k) []) = .lt := by
        have h2 := lexCmp_swap (L.getD (i * k) []) s
        rw [higt2] at h2
        exact h2.symm
      have hs2 : lexCmp s (L.getD (j * k) []) = .lt := lexCmp_trans_lt1 s _ _ hs1 hle
      have h4 := lexCmp_swap s (L.getD (j * k) [])
      rw [hs2] at h4
      exact h4.symm
  rcases binarySearch_spec (fun b => strcmp s (st.data.drop (st.pointers.getD b 0)))
      st.pointers.length hmono with ⟨m, hres_eq, hmlt, hfm⟩ | ⟨idx, hres_eq, hidxle, hlt, hgt⟩
  · have hcon : st.contains s = true := by
      simp only [RearCodedList.contains, hres_eq]
    have h5 := hf m hmlt
    rw [hfm] at h5
    have h6 : L.getD (m * k) [] = s := (lexCmp_eq_iff _ _).mp h5.symm
    have hbk : m * k < L.length :=
      lt_tot_of_lt_ceil L.length k m hkpos (by rw [← hptrlen]; exact hmlt)
    have hsl : s ∈ L := by
      rw [← h6]
      exact getD_mem L (m * k) hbk
    rw [hcon]
    exact ⟨fun _ => hsl, fun _ => rfl⟩
  · by_cases hidx0 : idx = 0 ∨ st.pointers.length < idx
    · have hcon : st.contains s = false := by
        simp only [RearCodedList.contains, hres_eq]
        rw [if_pos hidx0]
      rw [hcon]
      constructor
      · intro h
        exact nomatch h
      · intro hmem
        exfalso
        obtain ⟨j, hj, hjeq⟩ := List.mem_iff_getElem.mp hmem
        have hjD : L.getD j [] = s := by
          rw [List.getD_eq_getElem?_getD, List.getElem?_eq_getElem hj]
          simpa using hjeq
        have hlen1 : 1 ≤ st.pointers.length := by
          rw [hptrlen, ceil_pos_eq L.length k hkpos (by omega)]
          exact Nat.le_add_left 1 _
        have hidx0' : idx = 0 := by
          rcases hidx0 with h | h
          · exact h
          · omega
        have hg0 := hgt 0 (by omega) (by omega)
        have h5 := hf 0 (by omega)
        rw [hg0] at h5
        have hgc : lexCmp (L.getD (0 * k) []) s = .gt := h5.symm
        have hle : lexLe (L.getD (0 * k) []) (L.getD j []) :=
          sorted_getD_le L hch j (0 * k) (by omega) hj
        have hs1 : lexCmp s (L.getD (0 * k) []) = .lt := by
          have h6 := lexCmp_swap (L.getD (0 * k) []) s
          rw [hgc] at h6
          exact h6.symm
        have hs2 : lexCmp s (L.getD j []) = .lt := lexCmp_trans_lt1 s _ _ hs1 hle
        rw [hjD, lexCmp_self] at hs2
        exact nomatch hs2
    · have hcon : st.contains s
          = containsGo s (min (st.k - 1) (st.len - (idx - 1) * st.k - 1))
              (strcpy (st.data.drop (st.pointers.getD (idx - 1) 0)) []).2
              (strcpy (st.data.drop (st.pointers.getD (idx - 1) 0)) []).1 := by
        simp only [RearCodedList.contains, hres_eq]
        rw [if_neg hidx0]
      push_neg at hidx0
      have hbi : idx - 1 < st.pointers.length := by omega
      have hbk : (idx - 1) * k < L.length :=
        lt_tot_of_lt_ceil L.length k (idx - 1) hkpos (by rw [← hptrlen]; exact hbi)
      have hres' : ∀ v, v < k → (idx - 1) * k + v < L.length →
          (rclDecodeAt st.data (st.pointers.getD (idx - 1) 0) v).1
            = L.getD ((idx - 1) * k + v) [] := by
        intro v hv hvlen
        have hdv : ((idx - 1) * k + v) / k = idx - 1 := by
          rw [Nat.mul_comm, Nat.mul_add_div hkpos, Nat.div_eq_of_lt hv, Nat.add_zero]
        have hmv : ((idx - 1) * k + v) % k = v := by
          rw [Nat.mul_comm, Nat.mul_add_mod, Nat.mod_eq_of_lt hv]
        have h7 := hdec ((idx - 1) * k + v) hvlen
        rw [hdv, hmv] at h7
        exact h7
      have hprev0 : lexCmp (L.getD ((idx - 1) * k + 0) []) s = .lt := by
        have h8 := hf (idx - 1) hbi
        rw [hlt (idx - 1) (by omega)] at h8
        rw [Nat.add_zero]
        exact h8.symm
      have hscan := containsGo_iff s hs L hch k (idx - 1) st.data
        (st.pointers.getD (idx - 1) 0) hres'
        (min (k - 1) (L.length - (idx - 1) * k - 1)) 0
        (by
          have h9 : min (k - 1) (L.length - (idx - 1) * k - 1) ≤ k - 1 := min_le_left _ _
          omega)
        (by
          have h9 : min (k - 1) (L.length - (idx - 1) * k - 1)
              ≤ L.length - (idx - 1) * k - 1 := min_le_right _ _
          omega)
        hprev0
      rw [hcon, hka, hlen,
        show (strcpy (st.data.drop (st.pointers.getD (idx - 1) 0)) []).2
          = (rclDecodeAt st.data (st.pointers.getD (idx - 1) 0) 0).2 from rfl,
        show (strcpy (st.data.drop (st.pointers.getD (idx - 1) 0)) []).1
          = (rclDecodeAt st.data (st.pointers.getD (idx - 1) 0) 0).1 from rfl]
      rw [show (idx - 1) * k + 0 = (idx - 1) * k by omega] at hscan
      rw [hscan]
      constructor
      · rintro ⟨j, hj1, hj2, hjeq⟩
        have hjlen : j < L.length := by
          have h9 : min (k - 1) (L.length - (idx - 1) * k - 1)
              ≤ L.length - (idx - 1) * k - 1 := min_le_right _ _
          omega
        rw [← hjeq]
        exact getD_mem L j hjlen
      · intro hmem
        obtain ⟨j, hj, hjeq⟩ := List.mem_iff_getElem.mp hmem
        have hjD : L.getD j [] = s := by
          rw [List.getD_eq_getElem?_getD, List.getElem?_eq_getElem hj]
          simpa using hjeq
        have hlt1 : lexCmp (L.getD ((idx - 1) * k) []) s = .lt := by
          have h9 := hprev0
          rw [Nat.add_zero] at h9
          exact h9
        refine ⟨j, ?_, ?_, hjD⟩
        · by_contra hc
          push_neg at hc
          have hle : lexLe (L.getD j []) (L.getD ((idx - 1) * k) []) :=
            sorted_getD_le L hch ((idx - 1) * k) j hc hbk
          have hlt2 : lexCmp (L.getD j []) s = .lt := lexCmp_trans_lt2 _ _ _ hle hlt1
          rw [hjD, lexCmp_self] at hlt2
          exact nomatch hlt2
        · by_contra hc
          push_neg at hc
          rcases Nat.le_total (k - 1) (L.length - (idx - 1) * k - 1) with hmm | hmm
          · rw [min_eq_left hmm] at hc
            clear hscan hcon
            have hjge : idx * k ≤ j := by
              obtain ⟨w, hw⟩ : ∃ w, idx = w + 1 := ⟨idx - 1, by omega⟩
              have he : idx * k = (idx - 1) * k + k := by
                rw [hw, show w + 1 - 1 = w by omega]
                ring
              omega
            have hidxlt : idx < st.pointers.length := by
              rw [hptrlen]
              by_contra hcc
              push_neg at hcc
              have h10 := ceil_mul_ge L.length k hkpos
              have h9 : (L.length + k - 1) / k * k ≤ idx * k := Nat.mul_le_mul_right _ hcc
              omega
            have hgidx := hgt idx (le_refl _) hidxlt
            have h10 := hf idx hidxlt
            rw [hgidx] at h10
            have hgc2 : lexCmp (L.getD (idx * k) []) s = .gt := h10.symm
            have hle2 : lexLe (L.getD (idx * k) []) (L.getD j []) :=
              sorted_getD_le L hch j (idx * k) hjge hj
            have hs1 : lexCmp s (L.getD (idx * k) []) = .lt := by
              have h11 := lexCmp_swap (L.getD (idx * k) []) s
              rw [hgc2] at h11
              exact h11.symm
            have hs2 : lexCmp s (L.getD j []) = .lt := lexCmp_trans_lt1 s _ _ hs1 hle2
            rw [hjD, lexCmp_self] at hs2
            exact nomatch hs2
          · rw [min_eq_right hmm] at hc
            omega


/-- C8 (amended): for every block size `k ≥ 1` and lexicographically sorted
list of NUL-free strings, each shorter than `2^56` bytes, `get_inplace(i)`
returns the `i`-th pushed string and `contains(s)` decides membership of
every NUL-free query string. -/
theorem C8_rear_coded_list (k : Nat) (hk : 1 ≤ k) (L : List (List Nat))
    (hL : ∀ t ∈ L, (∀ c ∈ t, c ≠ 0) ∧ t.length < 2 ^ 56)
    (hch : List.Chain' lexLe L) :
    (∀ i, i < L.length → (rclBuild k L).get_inplace i = L.getD i [])
    ∧ ∀ s, (∀ c ∈ s, c ≠ 0) → ((rclBuild k L).contains s = true ↔ s ∈ L) := by
  obtain ⟨hka, hlen, _, hptrlen, _, hhead, hmain⟩ := rclBuild_inv k hk L hL
  refine ⟨rcl_get_correct k hk L hL, ?_⟩
  intro s hs
  refine rcl_contains_core k hk L hL hch s hs (rclBuild k L) hka hlen hptrlen hhead ?_
  intro i hi
  obtain ⟨c, _, _, hc3⟩ := hmain i hi
  have h := hc3 []
  rw [List.append_nil] at h
  rw [h]

/-- The claim as stated fails for strings containing NUL bytes: the sorted
singleton list holding the string `[97, 0]` reads back as `[97]`, because the
encoding is NUL-terminated. -/
theorem C8_rear_coded_list_counterexample :
    (rclBuild 2 [[97, 0]]).get_inplace 0 = [97]
    ∧ (rclBuild 2 [[97, 0]]).get_inplace 0 ≠ [97, 0]
    ∧ List.Chain' lexLe [[97, 0]] := by
  refine ⟨by decide, by decide, List.chain'_singleton _⟩

theorem C8_rear_coded_list_witness :
    ((1 : Nat) ≤ 2
      ∧ (∀ t ∈ [[97, 98], [97, 99]], (∀ c ∈ t, c ≠ 0) ∧ t.length < 2 ^ 56)
      ∧ List.Chain' lexLe [[97, 98], [97, 99]]
      ∧ (∀ c ∈ ([97, 99] : List Nat), c ≠ 0)
      ∧ (∀ c ∈ ([97, 100] : List Nat), c ≠ 0))
    ∧ (rclBuild 2 [[97, 98], [97, 99]]).get_inplace 1 = [97, 99]
    ∧ (rclBuild 2 [[97, 98], [97, 99]]).contains [97, 99] = true
    ∧ (rclBuild 2 [[97, 98], [97, 99]]).contains [97, 100] = false := by
  have hch : List.Chain' lexLe [[97, 98], [97, 99]] :=
    List.Chain.cons (by decide) List.Chain.nil
  have hL : ∀ t ∈ [[97, 98], [97, 99]], (∀ c ∈ t, c ≠ 0) ∧ t.length < 2 ^ 56 := by decide
  have h := C8_rear_coded_list 2 (by decide) [[97, 98], [97, 99]] hL hch
  refine ⟨⟨by decide, hL, hch, by decide, by decide⟩, ?_, ?_, ?_⟩
  · exact (h.1 1 (by decide)).trans (by decide)
  · exact (h.2 [97, 99] (by decide)).mpr (by decide)
  · have hiff := h.2 [97, 100] (by decide)
    cases hb : (rclBuild 2 [[97, 98], [97, 99]]).contains [97, 100] with
    | false => rfl
    | true => exact absurd (hiff.mp hb) (by decide)

end Sux
